import Mathlib

/-!
# gitr: clone-path resolution and clone orchestration

A shallow embedding of `pkg/clone/clone.go` of `swarupdonepudi/gitr`.

Conventions of the embedding
* A Go `string` is a Lean `String` (valid UTF-8 text); byte-wise substring,
  prefix and suffix tests of the Go `strings` package coincide with the
  character-wise ones on such text.
* A Go `error` is its `Error()` text; `nil` is `none`.  A Go pair
  `(value, error)` whose value is only read when the error is `nil` is an
  `Except String value`.
* The operating system (file system, `git` subprocess, go-git transport) is an
  abstract world `W` together with a record `Sys W` of its operations; the
  model threads the world explicitly and records every file-system mutation,
  transport invocation and terminal notice in a trace of `Event`s.
-/

namespace Gitr

/-! ## Go standard library: `strings`, `fmt`, `errors` -/

/-- Go `strings.HasPrefix(s, p)`: `len(s) >= len(p) && s[:len(p)] == p`. -/
def HasPrefix (s p : String) : Bool :=
  decide (p.data.length ≤ s.data.length) && (s.data.take p.data.length == p.data)

/-- Go `strings.HasSuffix(s, x)`: `len(s) >= len(x) && s[len(s)-len(x):] == x`. -/
def HasSuffix (s x : String) : Bool :=
  decide (x.data.length ≤ s.data.length) &&
    (s.data.drop (s.data.length - x.data.length) == x.data)

/-- Go `strings.TrimSuffix(s, x)`: `s` without the trailing `x` when it has one. -/
def TrimSuffix (s x : String) : String :=
  if HasSuffix s x then String.mk (s.data.take (s.data.length - x.data.length)) else s

/-- Substring search on character lists: does `sub` occur in the list? -/
def containsList (sub : List Char) : List Char → Bool
  | [] => sub.isEmpty
  | c :: t => sub.isPrefixOf (c :: t) || containsList sub t

/-- Go `strings.Contains(s, substr)`. -/
def Contains (s substr : String) : Bool :=
  containsList substr.data s.data

/-- Go `unicode.ToLower(r)`: the ASCII range is handled inline, every other rune
goes through the case tables of the standard library (`unicode.To(LowerCase, r)`),
which are the parameter `caseTable`. -/
def unicodeToLower (caseTable : Char → Char) (r : Char) : Char :=
  if r.toNat ≤ 127 then
    if 65 ≤ r.toNat ∧ r.toNat ≤ 90 then Char.ofNat (r.toNat + 32) else r
  else caseTable r

/-- Go `strings.ToLower(s)`: `unicode.ToLower` mapped over the runes of `s`. -/
def ToLower (caseTable : Char → Char) (s : String) : String :=
  String.mk (s.data.map (unicodeToLower caseTable))

/-- Expansion of the `%s` and `%v` verbs of a Go format string over string
arguments; a verb without an argument prints `%!s(MISSING)` as `fmt` does. -/
def sprintfAux : List Char → List String → List Char
  | '%' :: 's' :: rest, a :: args => a.data ++ sprintfAux rest args
  | '%' :: 'v' :: rest, a :: args => a.data ++ sprintfAux rest args
  | '%' :: 's' :: rest, [] => "%!s(MISSING)".data ++ sprintfAux rest []
  | '%' :: 'v' :: rest, [] => "%!v(MISSING)".data ++ sprintfAux rest []
  | c :: rest, args => c :: sprintfAux rest args
  | [], _ => []

/-- Go `fmt.Sprintf(format, args...)` for string arguments. -/
def Sprintf (format : String) (args : List String) : String :=
  String.mk (sprintfAux format.data args)

/-- The `errors.New(msg)` of `github.com/pkg/errors`. -/
def errorsNew (msg : String) : String := msg

/-- The `errors.Errorf(format, args...)` of `github.com/pkg/errors`. -/
def Errorf (format : String) (args : List String) : String := Sprintf format args

/-- The `errors.Wrap(err, msg)` of `github.com/pkg/errors` on a non-nil `err`:
its text is `msg + ": " + err.Error()`. -/
def Wrap (err msg : String) : String := msg ++ ": " ++ err

/-- The `errors.Wrapf(err, format, args...)` of `github.com/pkg/errors` on a non-nil `err`. -/
def Wrapf (err format : String) (args : List String) : String :=
  Sprintf format args ++ ": " ++ err

/-! ## Configuration types (package `pkg/config`) -/

/-- Modelled from the spec: `config.ScmProvider`, whose declaration is not among the
sources; the spec's data model lists the providers GitHub, GitLab, BitBucketCloud,
BitBucketDatacenter and Generic. -/
inductive ScmProvider where
  | GitHub
  | GitLab
  | BitBucketCloud
  | BitBucketDatacenter
  | Generic
  deriving DecidableEq, Repr

/-- Modelled from the spec: the per-host clone settings `ScmHost.Clone`, with the
fields `clone.go` reads (`HomeDir`, `AlwaysCreDir`, `IncludeHostForCreDir`). -/
structure CloneConfig where
  HomeDir : String
  AlwaysCreDir : Bool
  IncludeHostForCreDir : Bool
  deriving DecidableEq, Repr

/-- Modelled from the spec: `config.ScmHost` (the spec's HostPolicy), with the fields
`clone.go` reads; `Scheme` is the string-kinded `config.HttpScheme`. -/
structure ScmHost where
  Hostname : String
  Provider : ScmProvider
  Scheme : String
  Clone : CloneConfig
  deriving DecidableEq, Repr

/-- Modelled from the spec: the `Scm` block of `config.GitrConfig`: the global home
directory override and the configured hosts. -/
structure ScmConfig where
  HomeDir : String
  Hosts : List ScmHost
  deriving DecidableEq, Repr

/-- Modelled from the spec: `config.GitrConfig`, with the fields the sources read. -/
structure GitrConfig where
  Scm : ScmConfig
  CopyRepoPathCdCmdToClipboard : Bool
  deriving DecidableEq, Repr

/-- The functions of the packages `pkg/url` and `pkg/config` that `clone.go` calls
and whose bodies are not among the sources.  They are pure functions of their
arguments; the model of `clone.go` is parametric in them. -/
structure UrlDeps where
  StripQueryParams : String → String
  GetHostname : String → String
  GetScmHost : GitrConfig → String → Except String ScmHost
  GetRepoPath : String → String → ScmProvider → Except String String

/-! ## Package `pkg/url`, modelled from the spec -/

/-- Keeps the characters after the last `/`: the accumulator restarts at every `/`. -/
def lastSegment : List Char → List Char → List Char
  | acc, [] => acc
  | acc, c :: t => if c = '/' then lastSegment [] t else lastSegment (acc ++ [c]) t

/-- Modelled from the spec: `url.GetRepoName` (package `pkg/url` is not among the
sources): "returns the last path segment; if the input path itself has no slash,
returns it unchanged"; it performs no suffix stripping. -/
def GetRepoName (repoPath : String) : String :=
  String.mk (lastSegment [] repoPath.data)

/-- Modelled from the spec: `url.IsGitUrl` (package `pkg/url` is not among the
sources): true iff the string ends with the literal `.git`. -/
def IsGitUrl (repoUrl : String) : Bool :=
  HasSuffix repoUrl ".git"

/-- Modelled from the spec: `url.IsGitSshUrl` (package `pkg/url` is not among the
sources): a git url that is additionally prefixed by `git@` or `ssh://`. -/
def IsGitSshUrl (repoUrl : String) : Bool :=
  IsGitUrl repoUrl && (HasPrefix repoUrl "git@" || HasPrefix repoUrl "ssh://")

/-! ## `clone.go`: path resolution -/

/-- The `getScmHome` of `clone.go` (lines 329-341); `getwd` is the outcome of `os.Getwd()`. -/
def getScmHome (getwd : Except String String) (scmHostHomeDir scmHomeDir : String) :
    Except String String :=
  if scmHostHomeDir ≠ "" then .ok scmHostHomeDir
  else if scmHomeDir ≠ "" then .ok scmHomeDir
  else
    match getwd with
    | .error err => .error (Wrap err "failed to get current dir")
    | .ok wd => .ok wd

/-- The `GetClonePath` of `clone.go` (lines 130-161); `getwd` is the outcome of `os.Getwd()`. -/
def GetClonePath (U : UrlDeps) (getwd : Except String String) (cfg : GitrConfig)
    (inputUrl : String) (creDir : Bool) : Except String String :=
  let inputUrl := U.StripQueryParams inputUrl
  match U.GetScmHost cfg (U.GetHostname inputUrl) with
  | .error err =>
    .error (Wrapf err "failed to get scm host for %s" [U.GetHostname inputUrl])
  | .ok s =>
    match U.GetRepoPath inputUrl s.Hostname s.Provider with
    | .error err => .error (Wrap err "failed to get repo path")
    | .ok repoPath =>
      let repoName := GetRepoName repoPath
      match getScmHome getwd s.Clone.HomeDir cfg.Scm.HomeDir with
      | .error err => .error (Wrap err "failed to get scm home dir")
      | .ok scmHome =>
        let clonePath :=
          if creDir || s.Clone.AlwaysCreDir then
            if s.Clone.IncludeHostForCreDir then
              Sprintf "%s/%s" [s.Hostname, repoPath]
            else repoPath
          else repoName
        let clonePath :=
          if scmHome ≠ "" then Sprintf "%s/%s" [scmHome, clonePath] else clonePath
        .ok clonePath

/-- Modelled from the spec: the part of a url "after the host": what follows the
first occurrence of `pat`, when there is one. -/
def cutAfter (pat : List Char) : List Char → Option (List Char)
  | [] => if pat.isEmpty then some [] else none
  | c :: t =>
    if pat.isPrefixOf (c :: t) then some ((c :: t).drop pat.length) else cutAfter pat t

/-- Modelled from the spec: `url.GetRepoPath` (package `pkg/url` is not among the
sources).  The spec gives one rule for every provider: "the repo path is exactly the
first two path segments after the host (owner/repo), with any `.git` suffix removed",
whatever segments follow, and extraction fails "when the string has no recognizable
host/path structure" (here: the host does not occur, or fewer than two non-empty
segments follow it).  One separator (`/`, or `:` of the scp-like ssh form) after the
host is skipped. -/
def GetRepoPath (url host : String) (_provider : ScmProvider) : Except String String :=
  match cutAfter host.data url.data with
  | none => .error "unparsable url: host not found"
  | some rest =>
    let path : List Char :=
      match rest with
      | '/' :: p => p
      | ':' :: p => p
      | p => p
    let owner := path.takeWhile (fun c => c != '/')
    match path.dropWhile (fun c => c != '/') with
    | '/' :: r =>
      let repo := TrimSuffix (String.mk (r.takeWhile (fun c => c != '/'))) ".git"
      if owner = [] ∨ repo = "" then .error "unparsable url: no owner/repo path"
      else .ok (String.mk owner ++ "/" ++ repo)
    | _ => .error "unparsable url: no owner/repo path"

/-! ## `clone.go`: failure classification and candidate urls -/

/-- The pattern list of `isRepoNotFoundError` (`clone.go` lines 114-121). -/
def notFoundPatterns : List String :=
  [ "repository not found",
    "repo not found",
    "remote: repository not found",
    "project not found",
    "the project you were looking for could not be found",
    "error: repository \x27" ]

/-- The `isRepoNotFoundError` of `clone.go` (lines 105-128); `none` is the nil error. -/
def isRepoNotFoundError (caseTable : Char → Char) (err : Option String) : Bool :=
  match err with
  | none => false
  | some e =>
    let errStr := ToLower caseTable e
    notFoundPatterns.any (fun pattern => Contains errStr pattern)

/-- The `GetSshCloneUrl` of `clone.go` (lines 280-282). -/
def GetSshCloneUrl (hostname repoPath : String) : String :=
  Sprintf "git@%s:%s.git" [hostname, repoPath]

/-- The `GetHttpCloneUrl` of `clone.go` (lines 284-286); `scheme` is the string-kinded
`config.HttpScheme`. -/
def GetHttpCloneUrl (hostname repoPath scheme : String) : String :=
  Sprintf "%s://%s/%s.git" [scheme, hostname, repoPath]

/-! ## The operating system and the effects of a clone -/

/-- The operations of the environment that `clone.go` uses, over an abstract world `W`:
reads return their outcome, mutations and transports also return the next world.
An outcome `some e` is a non-nil error with text `e`. -/
structure Sys (W : Type) where
  /-- The `os.Getwd()`. -/
  Getwd : W → Except String String
  /-- The `os.UserHomeDir()`. -/
  UserHomeDir : W → Except String String
  /-- The `filepath.Join(elem...)`. -/
  Join : List String → String
  /-- The `file.GetAbsPath(f)` of go-util; its error is discarded by the caller. -/
  GetAbsPath : W → String → String
  /-- The `file.IsDirExists(d)` of go-util. -/
  IsDirExists : W → String → Bool
  /-- The `file.IsFileExists(f)` of go-util. -/
  IsFileExists : W → String → Bool
  /-- The `ioutil.ReadFile(f)`, as a string. -/
  ReadFile : W → String → Except String String
  /-- The `os.RemoveAll(path)`. -/
  RemoveAll : W → String → W × Option String
  /-- The `os.MkdirAll(path, os.ModePerm)`. -/
  MkdirAll : W → String → W × Option String
  /-- Running `git clone --progress url path`: `some stderr` when `cmd.Run()` returns an
  error, with the captured standard error text. -/
  RunGitClone : W → String → String → W × Option String
  /-- The `git.PlainClone(path, false, opts)` of go-git with `opts.URL = url` and basic
  auth with the given password when there is one. -/
  PlainClone : W → String → String → Option String → W × Option String

/-- Observable effects of `Clone`, in the order they happen. -/
inductive Event where
  | removeAll (path : String)
  | mkdirAll (path : String)
  | gitCloneExec (url path : String)
  | plainClone (path url : String) (token : Option String)
  | uiCloning (url : String)
  | uiRepoAlreadyExists (path : String)
  | uiWarn (title message : String)
  | printCloneInfo (remote : String) (provider : ScmProvider) (host repoName sshUrl
      httpUrl : String) (createDir : Bool) (scmHome clonePath : String)
  deriving DecidableEq, Repr

/-- Is the event an HTTP(S) transport invocation (go-git `PlainClone`)? -/
def Event.isHttpAttempt : Event → Bool
  | .plainClone _ _ _ => true
  | _ => false

/-- Is the event a directory removal? -/
def Event.isRemoval : Event → Bool
  | .removeAll _ => true
  | _ => false

/-- The state threaded through a clone: the world and the effects so far. -/
structure St (W : Type) where
  world : W
  trace : List Event
  deriving DecidableEq, Repr

/-- Appends an event to the trace. -/
def St.log {W : Type} (st : St W) (e : Event) : St W :=
  { st with trace := st.trace ++ [e] }

/-- The `os.RemoveAll(path)` as a step of the state. -/
def removeAll {W : Type} (S : Sys W) (path : String) (st : St W) : Option String × St W :=
  let r := S.RemoveAll st.world path
  (r.2, { world := r.1, trace := st.trace ++ [Event.removeAll path] })

/-- The `os.MkdirAll(path, os.ModePerm)` as a step of the state. -/
def mkdirAll {W : Type} (S : Sys W) (path : String) (st : St W) : Option String × St W :=
  let r := S.MkdirAll st.world path
  (r.2, { world := r.1, trace := st.trace ++ [Event.mkdirAll path] })

/-- Running `git clone --progress url path` as a step of the state. -/
def runGitClone {W : Type} (S : Sys W) (url path : String) (st : St W) :
    Option String × St W :=
  let r := S.RunGitClone st.world url path
  (r.2, { world := r.1, trace := st.trace ++ [Event.gitCloneExec url path] })

/-- The go-git `PlainClone` as a step of the state. -/
def plainClone {W : Type} (S : Sys W) (path url : String) (token : Option String)
    (st : St W) : Option String × St W :=
  let r := S.PlainClone st.world path url token
  (r.2, { world := r.1, trace := st.trace ++ [Event.plainClone path url token] })

/-! ## `clone.go`: credentials, transports and `Clone` -/

/-- The `getHttpsCloneToken` of `clone.go` (lines 183-198). -/
def getHttpsCloneToken {W : Type} (S : Sys W) (hostname : String) (w : W) :
    Except String String :=
  match S.UserHomeDir w with
  | .error err => .error (Wrap err "failed to get user home dir")
  | .ok homeDir =>
    let pAccessTokenFilePath := S.Join [homeDir, ".personal_access_tokens", hostname]
    let pAccessTokenFileAbsPath := S.GetAbsPath w pAccessTokenFilePath
    if !S.IsFileExists w pAccessTokenFileAbsPath then .ok ""
    else
      match S.ReadFile w pAccessTokenFileAbsPath with
      | .error err => .error (Wrapf err "failed to read %s file" [pAccessTokenFileAbsPath])
      | .ok pem => .ok pem

/-- The `httpClone` of `clone.go` (lines 200-219): create the directory, then one
anonymous go-git clone.  The progress display only renders the transport output. -/
def httpClone {W : Type} (S : Sys W) (url clonePath : String) (st : St W) :
    Option String × St W :=
  match mkdirAll S clonePath st with
  | (some err, st1) => (some (Wrapf err "failed to created dir %s" [clonePath]), st1)
  | (none, st1) => plainClone S clonePath url none st1

/-- The `httpsGitClone` of `clone.go` (lines 221-247): create the directory, then one
go-git clone with the token as basic-auth password. -/
def httpsGitClone {W : Type} (S : Sys W) (repoUrl token clonePath : String) (st : St W) :
    Option String × St W :=
  match mkdirAll S clonePath st with
  | (some err, st1) => (some (Wrapf err "failed to created dir %s" [clonePath]), st1)
  | (none, st1) =>
    match plainClone S clonePath repoUrl (some token) st1 with
    | (some err, st2) =>
      (some (Wrapf err "failed to clone repo using personal access token %s" [token]), st2)
    | (none, st2) => (none, st2)

/-- The `sshClone` of `clone.go` (lines 249-278): create the directory, then run
`git clone --progress`; a failure carries the captured standard error text. -/
def sshClone {W : Type} (S : Sys W) (repoUrl clonePath : String) (st : St W) :
    Option String × St W :=
  match mkdirAll S clonePath st with
  | (some err, st1) => (some (Wrapf err "failed to create dir %s" [clonePath]), st1)
  | (none, st1) =>
    match runGitClone S repoUrl clonePath st1 with
    | (some stderrStr, st2) => (some (Errorf "clone failed: %s" [stderrStr]), st2)
    | (none, st2) => (none, st2)

/-- The `printGitrCloneInfo` of `clone.go` (lines 288-327).  The error of the host
lookup is overwritten there; were the lookup to fail, `s` would be nil and the
function would not return normally, which is reported here as an error text. -/
def printGitrCloneInfo {W : Type} (U : UrlDeps) (S : Sys W) (cfg : GitrConfig)
    (inputUrl : String) (creDir : Bool) (st : St W) : Option String × St W :=
  match U.GetScmHost cfg (U.GetHostname inputUrl) with
  | .error _ => (some "runtime error: invalid memory address or nil pointer dereference", st)
  | .ok s =>
    match U.GetRepoPath inputUrl s.Hostname s.Provider with
    | .error err => (some (Wrap err "failed to get repo path"), st)
    | .ok repoPath =>
      let repoName := GetRepoName repoPath
      match getScmHome (S.Getwd st.world) s.Clone.HomeDir cfg.Scm.HomeDir with
      | .error err => (some (Wrap err "failed to get scm home dir"), st)
      | .ok scmHome =>
        match GetClonePath U (S.Getwd st.world) cfg inputUrl creDir with
        | .error err => (some (Wrap err "failed to get clone path"), st)
        | .ok clonePath =>
          (none, st.log (Event.printCloneInfo inputUrl s.Provider s.Hostname repoName
            (GetSshCloneUrl s.Hostname repoPath)
            (GetHttpCloneUrl s.Hostname repoPath s.Scheme)
            (s.Clone.AlwaysCreDir || creDir) scmHome clonePath))

/-- The tail of `Clone` (`clone.go` lines 80-102): the BitBucket gate, the SSH attempt on
the derived ssh url and, when that fails with anything but a not-found failure, the
removal of the directory and the HTTP attempt on the derived http url. -/
def Clone.sshThenHttp {W : Type} (S : Sys W) (caseTable : Char → Char) (s : ScmHost)
    (repoPath repoLocation : String) (st : St W) : (String × Option String) × St W :=
  if s.Provider = ScmProvider.BitBucketDatacenter ∨ s.Provider = ScmProvider.BitBucketCloud then
    (("", none), st.log (Event.uiWarn "Unsupported URL Format"
      "gitr does not support clone using browser URLs for BitBucket. Please use SSH or HTTPS clone URLs instead."))
  else
    let sshCloneUrl := GetSshCloneUrl s.Hostname repoPath
    match sshClone S sshCloneUrl repoLocation (st.log (Event.uiCloning sshCloneUrl)) with
    | (some err, st1) =>
      if isRepoNotFoundError caseTable (some err) then
        (("", some (errorsNew
          "repository not found. Please verify the URL exists and you have access")), st1)
      else
        -- a failure of this removal is only logged
        let st2 := (removeAll S repoLocation st1).2
        let httpCloneUrl := GetHttpCloneUrl s.Hostname repoPath s.Scheme
        match httpClone S httpCloneUrl repoLocation st2 with
        | (some err, st3) => (("", some (Wrap err "error cloning the repo using http")), st3)
        | (none, st3) => ((repoLocation, none), st3)
    | (none, st1) => ((repoLocation, none), st1)

/-- The transport part of `Clone` (`clone.go` lines 58-102): git urls are cloned over SSH,
or over HTTPS with a token; everything else continues with `Clone.sshThenHttp`. -/
def Clone.transport {W : Type} (S : Sys W) (caseTable : Char → Char) (s : ScmHost)
    (inputUrl token repoPath repoLocation : String) (st : St W) :
    (String × Option String) × St W :=
  if IsGitUrl inputUrl then
    if IsGitSshUrl inputUrl then
      match sshClone S inputUrl repoLocation (st.log (Event.uiCloning inputUrl)) with
      | (some err, st1) => (("", some (Wrap err "error cloning the repo")), st1)
      | (none, st1) => ((repoLocation, none), st1)
    else
      let resolved : Except String String :=
        if token = "" then
          match getHttpsCloneToken S s.Hostname st.world with
          | .error err =>
            .error (Wrap err "failed to check if https clone token is configured")
          | .ok t => .ok t
        else .ok token
      match resolved with
      | .error err => (("", some err), st)
      | .ok token =>
        if token ≠ "" then
          match httpsGitClone S inputUrl token repoLocation st with
          | (some err, st1) => (("", some (Wrap err "error cloning the repo")), st1)
          | (none, st1) => ((repoLocation, none), st1)
        else Clone.sshThenHttp S caseTable s repoPath repoLocation st
  else Clone.sshThenHttp S caseTable s repoPath repoLocation st

/-- The `Clone` of `clone.go` (lines 26-103).  The result is the Go pair
`(repoLocation, err)` together with the final state. -/
def Clone {W : Type} (U : UrlDeps) (S : Sys W) (caseTable : Char → Char) (cfg : GitrConfig)
    (inputUrl token : String) (creDir dry : Bool) (st : St W) :
    (String × Option String) × St W :=
  let inputUrl := U.StripQueryParams inputUrl
  match U.GetScmHost cfg (U.GetHostname inputUrl) with
  | .error err =>
    (("", some (Wrapf err "failed to clone git repo with %s url" [inputUrl])), st)
  | .ok s =>
    match U.GetRepoPath inputUrl s.Hostname s.Provider with
    | .error err => (("", some (Wrap err "failed to get repo path")), st)
    | .ok repoPath =>
      match GetClonePath U (S.Getwd st.world) cfg inputUrl creDir with
      | .error err => (("", some (Wrap err "failed to get clone path")), st)
      | .ok repoLocation =>
        if dry then
          match printGitrCloneInfo U S cfg inputUrl (creDir || s.Clone.AlwaysCreDir) st with
          | (some err, st1) => (("", some (Wrap err "failed to print gitr clone info")), st1)
          | (none, st1) => ((repoLocation, none), st1)
        else if S.IsDirExists st.world repoLocation then
          if S.IsDirExists st.world (S.Join [repoLocation, ".git"]) then
            ((repoLocation, none), st.log (Event.uiRepoAlreadyExists repoLocation))
          else
            match removeAll S repoLocation st with
            | (some err, st1) =>
              (("", some (Wrapf err "failed to remove %s dir" [repoLocation])), st1)
            | (none, st1) =>
              Clone.transport S caseTable s inputUrl token repoPath repoLocation st1
        else Clone.transport S caseTable s inputUrl token repoPath repoLocation st

/-! ## The spec's resolver (section 4.3), for comparison with `GetClonePath` -/

/-- The resolver as the spec words it: `useHierarchy := force OR policy.always`; the
relative path is `hostname/repoPath` or `repoPath` under the hierarchy and the repo
name otherwise; the final path is `home + "/" + relativePath`. -/
def specResolve (policy : ScmHost) (repoPath : String) (forceCreateDirHierarchy : Bool)
    (home : String) : String :=
  let useHierarchy := forceCreateDirHierarchy || policy.Clone.AlwaysCreDir
  let relativePath :=
    if useHierarchy then
      if policy.Clone.IncludeHostForCreDir then policy.Hostname ++ "/" ++ repoPath
      else repoPath
    else GetRepoName repoPath
  home ++ "/" ++ relativePath

/-! ## The supported GitHub browser-url shapes -/

/-- The url shapes of a GitHub repository page that the spec lists as supported. -/
inductive GitHubUrlShape where
  | bare
  | dotGit
  | tree (ref : String) (subpath : Option String)
  | blob (ref file : String)
  | commits (ref : String)
  | pull (n : Nat)
  | issues (n : Nat)
  | compare (a b : String)
  deriving DecidableEq, Repr

/-- What a shape puts after `https://github.com/<owner>/<repo>`. -/
def GitHubUrlShape.trailing : GitHubUrlShape → String
  | .bare => ""
  | .dotGit => ".git"
  | .tree ref none => "/tree/" ++ ref
  | .tree ref (some subpath) => "/tree/" ++ ref ++ "/" ++ subpath
  | .blob ref file => "/blob/" ++ ref ++ "/" ++ file
  | .commits ref => "/commits/" ++ ref
  | .pull n => "/pull/" ++ Nat.repr n
  | .issues n => "/issues/" ++ Nat.repr n
  | .compare a b => "/compare/" ++ a ++ "..." ++ b

/-- The url of a shape for the given owner and repo segments. -/
def GitHubUrlShape.render (owner repo : String) (sh : GitHubUrlShape) : String :=
  "https://github.com/" ++ owner ++ "/" ++ repo ++ sh.trailing

/-- A url path segment: non-empty and without `/`. -/
def IsSegment (s : String) : Prop := s ≠ "" ∧ '/' ∉ s.data

/-! ## Reaching the SSH attempt of a browser-derived url -/

/-- A non-dry `Clone` of a browser-derived url (its stripped form is not a git url) on a
non-BitBucket host: resolution succeeds with policy `s`, repo path `rp` and location
`loc`, and the target directory is either absent or present without a `.git` directory
and removed without error.  The SSH attempt of `clone.go` line 86 then starts from the
state `stp` (followed by the `ui.Cloning` notice). -/
def ReachesSshAttempt {W : Type} (U : UrlDeps) (S : Sys W) (cfg : GitrConfig)
    (inputUrl : String) (creDir : Bool) (st : St W) (s : ScmHost) (rp loc : String)
    (stp : St W) : Prop :=
  U.GetScmHost cfg (U.GetHostname (U.StripQueryParams inputUrl)) = .ok s ∧
  U.GetRepoPath (U.StripQueryParams inputUrl) s.Hostname s.Provider = .ok rp ∧
  GetClonePath U (S.Getwd st.world) cfg (U.StripQueryParams inputUrl) creDir = .ok loc ∧
  IsGitUrl (U.StripQueryParams inputUrl) = false ∧
  (s.Provider ≠ ScmProvider.BitBucketDatacenter ∧ s.Provider ≠ ScmProvider.BitBucketCloud) ∧
  ((S.IsDirExists st.world loc = false ∧ stp = st) ∨
   (S.IsDirExists st.world loc = true ∧
    S.IsDirExists st.world (S.Join [loc, ".git"]) = false ∧
    removeAll S loc st = (none, stp)))

/-- What `Clone` returns after the HTTP attempt of `clone.go` lines 98-102. -/
def afterHttpAttempt {W : Type} (repoLocation : String) (r : Option String × St W) :
    (String × Option String) × St W :=
  match r with
  | (some err, st3) => (("", some (Wrap err "error cloning the repo using http")), st3)
  | (none, st3) => ((repoLocation, none), st3)

/-- The text of the terminal not-found error of `clone.go` line 90. -/
def repoNotFoundText : String :=
  "repository not found. Please verify the URL exists and you have access"

/-! ## Concrete environments used to exercise the model -/

/-- A host policy for `github.com`, flat layout, no home override. -/
def exampleHost : ScmHost :=
  { Hostname := "github.com", Provider := ScmProvider.GitHub, Scheme := "https",
    Clone := { HomeDir := "", AlwaysCreDir := false, IncludeHostForCreDir := true } }

/-- A configuration with a global home directory and the single host `exampleHost`. -/
def exampleCfg : GitrConfig :=
  { Scm := { HomeDir := "/home/u/scm", Hosts := [exampleHost] },
    CopyRepoPathCdCmdToClipboard := false }

/-- A simple hostname extraction: what follows `://` (or `@`), up to the next `/` or `:`. -/
def exampleHostname (u : String) : String :=
  let rest : List Char :=
    match cutAfter "://".data u.data with
    | some r => r
    | none =>
      match cutAfter "@".data u.data with
      | some r => r
      | none => u.data
  String.mk (rest.takeWhile (fun c => c != '/' && c != ':'))

/-- One instance of the url and config functions: query and fragment are cut at the
first `?` or `#`, hosts are looked up by name in the configuration, and the repo path
is the spec-modelled `GetRepoPath`. -/
def exampleDeps : UrlDeps :=
  { StripQueryParams := fun u =>
      String.mk (u.data.takeWhile (fun c => c != '?' && c != '#')),
    GetHostname := exampleHostname,
    GetScmHost := fun cfg h =>
      match cfg.Scm.Hosts.find? (fun s => s.Hostname == h) with
      | some s => .ok s
      | none => .error "scm host not found",
    GetRepoPath := GetRepoPath }

/-- A scripted operating system over the trivial world: no directory exists, the
working directory is `/work`, no token file exists, and the `git` subprocess and the
go-git clone end as given. -/
def scriptedSys (sshResult httpResult : Option String) : Sys Unit :=
  { Getwd := fun _ => .ok "/work",
    UserHomeDir := fun _ => .ok "/home/u",
    Join := fun elems => String.intercalate "/" elems,
    GetAbsPath := fun _ f => f,
    IsDirExists := fun _ _ => false,
    IsFileExists := fun _ _ => false,
    ReadFile := fun _ _ => .error "no such file",
    RemoveAll := fun w _ => (w, none),
    MkdirAll := fun w _ => (w, none),
    RunGitClone := fun w _ _ => (w, sshResult),
    PlainClone := fun w _ _ _ => (w, httpResult) }

/-- The initial state over the trivial world. -/
def st0 : St Unit := { world := (), trace := [] }

/-! ## Effects, preparation of the target directory, further environments -/

/-- Is the event a file-system mutation (directory removal or creation)? -/
def Event.isMutation : Event → Bool
  | .removeAll _ => true
  | .mkdirAll _ => true
  | _ => false

/-- Is the event a transport invocation (the `git` subprocess or go-git)? -/
def Event.isTransport : Event → Bool
  | .gitCloneExec _ _ => true
  | .plainClone _ _ _ => true
  | _ => false

/-- Is the event an SSH transport invocation (the `git clone` subprocess)? -/
def Event.isSshAttempt : Event → Bool
  | .gitCloneExec _ _ => true
  | _ => false

/-- A non-dry `Clone` whose resolution succeeds with policy `s`, repo path `rp` and
location `loc`, and whose target directory is either absent or present without a `.git`
directory and removed without error: the transport part (`clone.go` line 58) starts from
the state `stp`. -/
def ReachesTransport {W : Type} (U : UrlDeps) (S : Sys W) (cfg : GitrConfig)
    (inputUrl : String) (creDir : Bool) (st : St W) (s : ScmHost) (rp loc : String)
    (stp : St W) : Prop :=
  U.GetScmHost cfg (U.GetHostname (U.StripQueryParams inputUrl)) = .ok s ∧
  U.GetRepoPath (U.StripQueryParams inputUrl) s.Hostname s.Provider = .ok rp ∧
  GetClonePath U (S.Getwd st.world) cfg (U.StripQueryParams inputUrl) creDir = .ok loc ∧
  ((S.IsDirExists st.world loc = false ∧ stp = st) ∨
   (S.IsDirExists st.world loc = true ∧
    S.IsDirExists st.world (S.Join [loc, ".git"]) = false ∧
    removeAll S loc st = (none, stp)))

/-- What `Clone` returns after the token-authenticated clone of `clone.go` lines 73-76. -/
def afterHttpsGitClone {W : Type} (repoLocation : String) (r : Option String × St W) :
    (String × Option String) × St W :=
  match r with
  | (some err, st1) => (("", some (Wrap err "error cloning the repo")), st1)
  | (none, st1) => ((repoLocation, none), st1)

/-- A host policy for `bitbucket.org` (BitBucket Cloud). -/
def bitbucketHost : ScmHost :=
  { Hostname := "bitbucket.org", Provider := ScmProvider.BitBucketCloud, Scheme := "https",
    Clone := { HomeDir := "", AlwaysCreDir := false, IncludeHostForCreDir := true } }

/-- A configuration with the hosts `github.com` and `bitbucket.org`. -/
def bitbucketCfg : GitrConfig :=
  { Scm := { HomeDir := "/home/u/scm", Hosts := [exampleHost, bitbucketHost] },
    CopyRepoPathCdCmdToClipboard := false }

/-- A scripted operating system whose world is the list of existing directories:
`RemoveAll` deletes the directory and what is below it, `MkdirAll` creates it; the home
directory lookup, the `git` subprocess and the go-git clone end as given, and no token
file exists. -/
def fsSys (home : Except String String) (sshResult httpResult : Option String) :
    Sys (List String) :=
  { Getwd := fun _ => .ok "/work",
    UserHomeDir := fun _ => home,
    Join := fun elems => String.intercalate "/" elems,
    GetAbsPath := fun _ f => f,
    IsDirExists := fun w d => decide (d ∈ w),
    IsFileExists := fun _ _ => false,
    ReadFile := fun _ _ => .error "no such file",
    RemoveAll := fun w d => (w.filter (fun x => !(HasPrefix x d)), none),
    MkdirAll := fun w d => (d :: w, none),
    RunGitClone := fun w _ _ => (w, sshResult),
    PlainClone := fun w _ _ _ => (w, httpResult) }

/-- A scripted operating system over the trivial world with a token file for
`github.com` under the home directory `/home/u`, holding `content`; no directory exists,
and the `git` subprocess and the go-git clone end as given. -/
def tokenFileSys (content : String) (sshResult httpResult : Option String) : Sys Unit :=
  { Getwd := fun _ => .ok "/work",
    UserHomeDir := fun _ => .ok "/home/u",
    Join := fun elems => String.intercalate "/" elems,
    GetAbsPath := fun _ f => f,
    IsDirExists := fun _ _ => false,
    IsFileExists := fun _ f => f == "/home/u/.personal_access_tokens/github.com",
    ReadFile := fun _ f =>
      if f = "/home/u/.personal_access_tokens/github.com" then .ok content
      else .error "no such file",
    RemoveAll := fun w _ => (w, none),
    MkdirAll := fun w _ => (w, none),
    RunGitClone := fun w _ _ => (w, sshResult),
    PlainClone := fun w _ _ _ => (w, httpResult) }

/-! ## `pkg/ui/progress.go`: progress state -/

/-- The `ProgressPhase` of `progress.go` (lines 18-28), an `int` enumeration. -/
inductive ProgressPhase where
  | PhaseStarting
  | PhaseEnumerating
  | PhaseCounting
  | PhaseCompressing
  | PhaseReceiving
  | PhaseResolving
  | PhaseDone
  deriving DecidableEq, Repr

/-- The `iota` value of a phase, which orders the phases. -/
def ProgressPhase.toNat : ProgressPhase → Nat
  | .PhaseStarting => 0
  | .PhaseEnumerating => 1
  | .PhaseCounting => 2
  | .PhaseCompressing => 3
  | .PhaseReceiving => 4
  | .PhaseResolving => 5
  | .PhaseDone => 6

/-- The `ProgressInfo` of `progress.go` (lines 31-39); the mutex only serialises access
and is not part of the state. -/
structure ProgressInfo where
  Phase : ProgressPhase
  Percentage : Int
  Current : Int
  Total : Int
  Speed : String
  Message : String
  deriving DecidableEq, Repr

/-- The `NewProgressInfo` of `progress.go` (lines 42-46). -/
def NewProgressInfo : ProgressInfo :=
  { Phase := ProgressPhase.PhaseStarting, Percentage := 0, Current := 0, Total := 0,
    Speed := "", Message := "" }

/-- The `ProgressInfo.Update` of `progress.go` (lines 49-58): every field is overwritten. -/
def ProgressInfo.Update (_p : ProgressInfo) (phase : ProgressPhase)
    (percentage current total : Int) (speed message : String) : ProgressInfo :=
  { Phase := phase, Percentage := percentage, Current := current, Total := total,
    Speed := speed, Message := message }

/-! ## Go standard library: `unicode.IsSpace`, `strings.TrimSpace`, `regexp` classes -/

/-- Go `unicode.IsSpace(r)`: the Latin-1 spaces and the `White_Space` runes beyond. -/
def IsSpace (r : Char) : Bool :=
  let n := r.toNat
  n = 9 || n = 10 || n = 11 || n = 12 || n = 13 || n = 32 || n = 0x85 || n = 0xA0 ||
  n = 0x1680 || (0x2000 ≤ n && n ≤ 0x200A) || n = 0x2028 || n = 0x2029 ||
  n = 0x202F || n = 0x205F || n = 0x3000

/-- Removes the trailing characters that satisfy `p`. -/
def dropEndWhile (p : Char → Bool) (l : List Char) : List Char :=
  (l.reverse.dropWhile p).reverse

/-- Go `strings.TrimSpace(s)`: `s` without leading and trailing white space. -/
def TrimSpace (s : String) : String :=
  String.mk (dropEndWhile IsSpace (s.data.dropWhile IsSpace))

/-- The class `\s` of Go regular expressions: tab, newline, form feed, carriage return
and space. -/
def isReSpace (c : Char) : Bool :=
  c == '\t' || c == '\n' || c == '\x0c' || c == '\r' || c == ' '

/-- The class `\d` of Go regular expressions: the ASCII digits. -/
def isReDigit (c : Char) : Bool :=
  decide (48 ≤ c.toNat) && decide (c.toNat ≤ 57)

/-- The class `[0-9.]`. -/
def isNumDot (c : Char) : Bool :=
  isReDigit c || c == '.'

/-- A literal at the start of the text: the rest after it. -/
def reLit (lit : List Char) (l : List Char) : Option (List Char) :=
  if lit.isPrefixOf l then some (l.drop lit.length) else none

/-- The greedy `\s*` at the start of the text: the rest after it.  What follows `\s*` in
the patterns of `progress.go` never starts with a space, so no shorter run can match. -/
def reSpaces (l : List Char) : List Char :=
  l.dropWhile isReSpace

/-- The greedy group `(\d+)` at the start of the text: the digits and the rest.  What
follows it in the patterns is never a digit, so no shorter run can match. -/
def reDigits (l : List Char) : Option (List Char × List Char) :=
  if l.takeWhile isReDigit = [] then none
  else some (l.takeWhile isReDigit, l.dropWhile isReDigit)

/-- The leftmost match of a pattern: the first start position, from the left, at which
the anchored matcher `m` succeeds (the empty rest of the text is a position too). -/
def findLeftmost {α : Type} (m : List Char → Option α) : List Char → Option α
  | [] => m []
  | c :: t =>
    match m (c :: t) with
    | some r => some r
    | none => findLeftmost m t

/-- The value of a string of decimal digits. -/
def decimalValue (ds : List Char) : Nat :=
  ds.foldl (fun acc c => 10 * acc + (c.toNat - 48)) 0

/-- The `parseInt` of `progress.go` (lines 274-278), `fmt.Sscanf(s, "%d", &result)` on
a 64-bit `int`, for the digit strings that the patterns capture: the decimal value, and
`0` (the untouched `result`) when the scan fails by overflow or finds no number.  Only
captures of `(\d+)` reach it from `ParseLine`; texts with a sign or with other characters
after the digits, which `Sscanf` would scan differently, are outside this model. -/
def parseInt (s : String) : Int :=
  if s.data ≠ [] ∧ s.data.all isReDigit = true ∧ decimalValue s.data < 2 ^ 63 then
    (decimalValue s.data : Int)
  else 0

/-! ## `pkg/ui/progress.go`: the patterns of lines 213-220 -/

/-- The pattern `LIT\s*(\d+)%\s*\((\d+)/(\d+)\)` anchored at the start of the text, for
a literal `LIT`: the three captured digit strings and the rest of the text. -/
def rePercentAt (lit : List Char) (l : List Char) :
    Option ((String × String × String) × List Char) :=
  match reLit lit l with
  | none => none
  | some r0 =>
    match reDigits (reSpaces r0) with
    | none => none
    | some (p, r1) =>
      match reLit ['%'] r1 with
      | none => none
      | some r2 =>
        match reLit ['('] (reSpaces r2) with
        | none => none
        | some r3 =>
          match reDigits r3 with
          | none => none
          | some (c, r4) =>
            match reLit ['/'] r4 with
            | none => none
            | some r5 =>
              match reDigits r5 with
              | none => none
              | some (t, r6) =>
                match reLit [')'] r6 with
                | none => none
                | some r7 => some ((String.mk p, String.mk c, String.mk t), r7)

/-- The group `([0-9.]+\s*[KMG]iB<tail>)` anchored at the start of the text, with `tail`
empty for a size and `/s` for a speed: the captured text and the rest.  The classes that
follow one another are disjoint, so the greedy runs are the only way to match. -/
def reAmount (tail : List Char) (l : List Char) : Option (List Char × List Char) :=
  if l.takeWhile isNumDot = [] then none
  else
    let r := l.dropWhile isNumDot
    match r.dropWhile isReSpace with
    | u :: r2 =>
      if u = 'K' ∨ u = 'M' ∨ u = 'G' then
        match reLit (['i', 'B'] ++ tail) r2 with
        | some r3 =>
          some (l.takeWhile isNumDot ++ r.takeWhile isReSpace ++ u :: 'i' :: 'B' :: tail, r3)
        | none => none
      else none
    | [] => none

/-- The optional group `(?:,\s*([0-9.]+\s*[KMG]iB))?`: the capture (empty when the group
does not take part) and the rest of the text. -/
def reOptSize (l : List Char) : String × List Char :=
  match l with
  | ',' :: r =>
    match reAmount [] (reSpaces r) with
    | some (cap, r2) => (String.mk cap, r2)
    | none => ("", l)
  | _ => ("", l)

/-- The optional group `(?:\s*\|\s*([0-9.]+\s*[KMG]iB/s))?`: the capture (empty when the
group does not take part) and the rest of the text. -/
def reOptSpeed (l : List Char) : String × List Char :=
  match reSpaces l with
  | '|' :: r =>
    match reAmount ['/', 's'] (reSpaces r) with
    | some (cap, r2) => (String.mk cap, r2)
    | none => ("", l)
  | _ => ("", l)

/-- The `enumeratingRe.FindStringSubmatch(line)`: the capture of the leftmost match of
`Enumerating objects:\s*(\d+)`. -/
def enumeratingRe (line : String) : Option String :=
  findLeftmost (fun l =>
    match reLit "Enumerating objects:".data l with
    | none => none
    | some r =>
      match reDigits (reSpaces r) with
      | none => none
      | some (n, _) => some (String.mk n)) line.data

/-- The `countingRe.FindStringSubmatch(line)`: the captures 1-3 of the leftmost match of
`Counting objects:\s*(\d+)%\s*\((\d+)/(\d+)\)`. -/
def countingRe (line : String) : Option (String × String × String) :=
  findLeftmost (fun l => (rePercentAt "Counting objects:".data l).map Prod.fst) line.data

/-- The `compressingRe.FindStringSubmatch(line)`: the captures 1-3 of the leftmost match
of `Compressing objects:\s*(\d+)%\s*\((\d+)/(\d+)\)`. -/
def compressingRe (line : String) : Option (String × String × String) :=
  findLeftmost (fun l => (rePercentAt "Compressing objects:".data l).map Prod.fst) line.data

/-- The `resolvingRe.FindStringSubmatch(line)`: the captures 1-3 of the leftmost match of
`Resolving deltas:\s*(\d+)%\s*\((\d+)/(\d+)\)`. -/
def resolvingRe (line : String) : Option (String × String × String) :=
  findLeftmost (fun l => (rePercentAt "Resolving deltas:".data l).map Prod.fst) line.data

/-- The `receivingRe.FindStringSubmatch(line)`: the captures 1-3, then capture 4 (the
size group) and capture 5 (the speed group) of the leftmost match of
`Receiving objects:\s*(\d+)%\s*\((\d+)/(\d+)\)(?:,\s*([0-9.]+\s*[KMG]iB))?(?:\s*\|\s*([0-9.]+\s*[KMG]iB/s))?`;
a group that does not take part is the empty string. -/
def receivingRe (line : String) : Option ((String × String × String) × String × String) :=
  findLeftmost (fun l =>
    match rePercentAt "Receiving objects:".data l with
    | none => none
    | some (pct, r) =>
      let g4 := reOptSize r
      let g5 := reOptSpeed g4.2
      some (pct, g4.1, g5.1)) line.data

/-- The pattern `done\.?\s*$` anchored at the start of the text. -/
def reDoneAt (l : List Char) : Option Unit :=
  match reLit ['d', 'o', 'n', 'e'] l with
  | none => none
  | some r =>
    let r1 := match r with
      | '.' :: r0 => r0
      | _ => r
    if reSpaces r1 = [] then some () else none

/-- The `doneRe.MatchString(line)`. -/
def doneRe (line : String) : Bool :=
  (findLeftmost reDoneAt line.data).isSome

/-! ## `pkg/ui/progress.go`: parser, writer and display -/

/-- The `GitProgressParser` of `progress.go` (lines 199-203); the `program` handle of the
terminal UI is not part of the parsing state. -/
structure GitProgressParser where
  progress : ProgressInfo
  lastLine : String
  deriving DecidableEq, Repr

/-- The `NewGitProgressParser` of `progress.go` (lines 206-211). -/
def NewGitProgressParser (progress : ProgressInfo) : GitProgressParser :=
  { progress := progress, lastLine := "" }

/-- The `ParseLine` of `progress.go` (lines 223-271). -/
def GitProgressParser.ParseLine (p : GitProgressParser) (line : String) :
    GitProgressParser :=
  let line := TrimSpace line
  if line = "" then p
  else if doneRe line then p
  else
    let progress : ProgressInfo :=
      match receivingRe line with
      | some (m, m4, _) =>
        let speed := if m4 ≠ "" then m4 else ""
        p.progress.Update ProgressPhase.PhaseReceiving (parseInt m.1) (parseInt m.2.1)
          (parseInt m.2.2) speed ""
      | none =>
        match resolvingRe line with
        | some m =>
          p.progress.Update ProgressPhase.PhaseResolving (parseInt m.1) (parseInt m.2.1)
            (parseInt m.2.2) "" ""
        | none =>
          match compressingRe line with
          | some m =>
            p.progress.Update ProgressPhase.PhaseCompressing (parseInt m.1)
              (parseInt m.2.1) (parseInt m.2.2) "" ""
          | none =>
            match countingRe line with
            | some m =>
              p.progress.Update ProgressPhase.PhaseCounting (parseInt m.1)
                (parseInt m.2.1) (parseInt m.2.2) "" ""
            | none =>
              match enumeratingRe line with
              | some m1 =>
                p.progress.Update ProgressPhase.PhaseEnumerating 0 0 (parseInt m1) "" ""
              | none =>
                if Contains line "Enumerating" then
                  p.progress.Update ProgressPhase.PhaseEnumerating 0 0 0 "" line
                else if Contains line "Counting" then
                  p.progress.Update ProgressPhase.PhaseCounting 0 0 0 "" line
                else if Contains line "Compressing" then
                  p.progress.Update ProgressPhase.PhaseCompressing 0 0 0 "" line
                else p.progress
    { progress := progress, lastLine := line }

/-- The search of `Write` (`progress.go` lines 302-308): the index of the first `\n` or
`\r` of the buffer, `none` for the `-1` of the source. -/
def findLineEnd : List Char → Option Nat
  | [] => none
  | b :: rest =>
    if b = '\n' ∨ b = '\r' then some 0 else (findLineEnd rest).map (fun i => i + 1)

/-- The loop of `Write` (`progress.go` lines 300-329) over a consumer `parseLine` of the
extracted lines: while the buffer holds a line ending, the line before it is extracted,
the ending (one byte, or the two of `\r\n`) is skipped and the line is handed over.  Each
turn shortens the buffer, so `fuel` turns suffice for a buffer of length `fuel`. -/
def writeLoop {σ : Type} (parseLine : σ → String → σ) : Nat → σ → List Char → σ × List Char
  | 0, s, buf => (s, buf)
  | fuel + 1, s, buf =>
    match findLineEnd buf with
    | none => (s, buf)
    | some idx =>
      let line := String.mk (buf.take idx)
      let skip := idx + 1
      let skip :=
        if skip < buf.length ∧ buf.get? idx = some '\r' ∧ buf.get? skip = some '\n' then
          skip + 1
        else skip
      writeLoop parseLine fuel (parseLine s line) (buf.drop skip)

/-- The `ProgressWriter` of `progress.go` (lines 281-284); the bytes of the stream are
characters of text (line endings are single bytes, so cutting bytes or characters at
them is the same). -/
structure ProgressWriter where
  parser : GitProgressParser
  buf : List Char
  deriving DecidableEq, Repr

/-- The `NewProgressWriter` of `progress.go` (lines 287-292). -/
def NewProgressWriter (parser : GitProgressParser) : ProgressWriter :=
  { parser := parser, buf := [] }

/-- The `ProgressWriter.Write` of `progress.go` (lines 295-332): the data is appended to
the buffer and the loop runs until no line ending is left. -/
def ProgressWriter.Write (w : ProgressWriter) (p : List Char) : ProgressWriter :=
  let r := writeLoop GitProgressParser.ParseLine (w.buf ++ p).length w.parser (w.buf ++ p)
  { parser := r.1, buf := r.2 }

/-- The `CloneProgressDisplay` of `progress.go` (lines 335-340): the writer holds the
parser, which holds the progress state shared with the display; the terminal program
only renders it. -/
structure CloneProgressDisplay where
  writer : ProgressWriter
  deriving DecidableEq, Repr

/-- The progress state of a display. -/
def CloneProgressDisplay.progress (d : CloneProgressDisplay) : ProgressInfo :=
  d.writer.parser.progress

/-- The `NewCloneProgressDisplay` of `progress.go` (lines 343-356). -/
def NewCloneProgressDisplay : CloneProgressDisplay :=
  { writer := NewProgressWriter (NewGitProgressParser NewProgressInfo) }

/-- A `Write` to the writer of the display (`display.Writer().Write(p)`). -/
def CloneProgressDisplay.Write (d : CloneProgressDisplay) (p : List Char) :
    CloneProgressDisplay :=
  { writer := d.writer.Write p }

/-- The `CloneProgressDisplay.Stop` of `progress.go` (lines 372-377). -/
def CloneProgressDisplay.Stop (d : CloneProgressDisplay) : CloneProgressDisplay :=
  { writer := { d.writer with
      parser := { d.writer.parser with
        progress := d.writer.parser.progress.Update ProgressPhase.PhaseDone 100 0 0 "" "" } } }

/-! ## The spec's line cutting, for comparison with `Write` -/

/-- The pieces obtained by cutting a text at each line terminator, where a terminator is
`\r\n`, `\n` or `\r` and `\r\n` counts once: the complete lines in order, and the
unterminated tail.  The first argument is the piece under construction. -/
def cutAtTerminators : List Char → List Char → List String × List Char
  | cur, [] => ([], cur)
  | cur, '\r' :: '\n' :: rest =>
    (String.mk cur :: (cutAtTerminators [] rest).1, (cutAtTerminators [] rest).2)
  | cur, c :: rest =>
    if c = '\r' ∨ c = '\n' then
      (String.mk cur :: (cutAtTerminators [] rest).1, (cutAtTerminators [] rest).2)
    else cutAtTerminators (cur ++ [c]) rest

/-- The number of bytes the loop of `Write` removes for the line ending found at `idx`
(`progress.go` lines 319-322): the line, the ending, and the `\n` of a `\r\n`. -/
def skipOf (buf : List Char) (idx : Nat) : Nat :=
  if idx + 1 < buf.length ∧ buf.get? idx = some '\r' ∧ buf.get? (idx + 1) = some '\n' then
    idx + 1 + 1
  else idx + 1

/-! ## Shapes of progress lines -/

/-- A non-empty string of decimal digits: what a group `(\d+)` captures. -/
def IsDigits (s : String) : Prop :=
  s.data ≠ [] ∧ ∀ c ∈ s.data, isReDigit c = true

/-- The 64-bit `int` read from a captured digit string: its value, and `0` when the value
does not fit (the scan fails and the variable keeps its zero value). -/
def int64OfDigits (s : String) : Int :=
  if decimalValue s.data < 2 ^ 63 then (decimalValue s.data : Int) else 0

/-- The text `m` is a match of `KEYWORD\s*(\d+)%\s*\((\d+)/(\d+)\)` with the captures `P`,
`C` and `T`. -/
def PercentMatch (keyword : String) (m : List Char) (P C T : String) : Prop :=
  ∃ ws1 ws2 : List Char,
    m = keyword.data ++ (ws1 ++ (P.data ++ '%' :: (ws2 ++ '(' ::
      (C.data ++ '/' :: (T.data ++ [')']))))) ∧
    (∀ c ∈ ws1, isReSpace c = true) ∧ (∀ c ∈ ws2, isReSpace c = true) ∧
    IsDigits P ∧ IsDigits C ∧ IsDigits T

/-- The pattern of `keyword` has a match somewhere in the text `t`. -/
def HasPercentMatch (keyword t : String) : Prop :=
  ∃ (pre m suf : List Char) (P C T : String),
    t.data = pre ++ (m ++ suf) ∧ PercentMatch keyword m P C T

/-- The leftmost match of the pattern of `keyword` in the text `t` has the captures `P`,
`C` and `T`: the text is `pre ++ m ++ suf` for a match `m` with these captures, and no
match of the pattern starts at an earlier position. -/
def LeftmostPercentMatch (keyword t P C T : String) : Prop :=
  ∃ pre m suf : List Char,
    t.data = pre ++ (m ++ suf) ∧ PercentMatch keyword m P C T ∧
    ∀ (a b m2 s2 : List Char) (P2 C2 T2 : String), pre = a ++ b → b ≠ [] →
      b ++ (m ++ suf) = m2 ++ s2 → ¬ PercentMatch keyword m2 P2 C2 T2

/-- The text `m` is a match of `Enumerating objects:\s*(\d+)` with the capture `N`. -/
def EnumeratingMatch (m : List Char) (N : String) : Prop :=
  ∃ ws : List Char, m = "Enumerating objects:".data ++ (ws ++ N.data) ∧
    (∀ c ∈ ws, isReSpace c = true) ∧ IsDigits N

/-- The pattern `Enumerating objects:\s*(\d+)` has a match somewhere in the text `t`. -/
def HasEnumeratingMatch (t : String) : Prop :=
  ∃ (pre m suf : List Char) (N : String), t.data = pre ++ (m ++ suf) ∧ EnumeratingMatch m N

/-- The leftmost match of `Enumerating objects:\s*(\d+)` in the text `t` has the capture
`N`: the text is `pre ++ m ++ suf` for a match `m` with this capture, the capture takes
all the digits (no digit follows), and no match starts at an earlier position. -/
def LeftmostEnumeratingMatch (t N : String) : Prop :=
  ∃ pre m suf : List Char,
    t.data = pre ++ (m ++ suf) ∧ EnumeratingMatch m N ∧
    (∀ c ∈ suf.head?, isReDigit c = false) ∧
    ∀ (a b m2 s2 : List Char) (N2 : String), pre = a ++ b → b ≠ [] →
      b ++ (m ++ suf) = m2 ++ s2 → ¬ EnumeratingMatch m2 N2

/-- The pattern `Enumerating objects:\s*(\d+)` anchored at the start of the text: the
captured digits.  It is the matcher that `enumeratingRe` searches with. -/
def reEnumeratingAt (l : List Char) : Option String :=
  match reLit "Enumerating objects:".data l with
  | none => none
  | some r =>
    match reDigits (reSpaces r) with
    | none => none
    | some (n, _) => some (String.mk n)

/-- The text is not a done marker: it ends neither with `done` nor with `done.`. -/
def NotDoneMarker (t : String) : Prop :=
  HasSuffix t "done" = false ∧ HasSuffix t "done." = false

/-! ## Auxiliary definitions for the statements on tokens and chunks -/

/-- The text `Clone` returns when the token-authenticated go-git clone fails with `e`:
the wrapping of `clone.go` line 74 around the wrapping of line 244. -/
def tokenFailureText (t e : String) : String :=
  "error cloning the repo: failed to clone repo using personal access token " ++ t ++ ": " ++ e

/-- The parser state and the pending buffer after the complete lines of `X` have been
parsed, `cur` being the piece under construction. -/
def parsedCut (p : GitProgressParser) (cur X : List Char) : GitProgressParser × List Char :=
  ((cutAtTerminators cur X).1.foldl GitProgressParser.ParseLine p, (cutAtTerminators cur X).2)

/-! ## `pkg/ui/progress.go`: the progress bar and the number format -/

/-- The value of a 64-bit `int` computation: the mathematical result wrapped into
`-2^63 .. 2^63 - 1`. -/
def wrapInt64 (x : Int) : Int :=
  (x + 2 ^ 63) % 2 ^ 64 - 2 ^ 63

/-- Go `strings.Repeat(s, count)`: `none` stands for its panic, on a negative count or
when the byte length of the result overflows an `int`. -/
def Repeat (s : String) (count : Int) : Option String :=
  if count < 0 then none
  else if (s.utf8ByteSize : Int) * count ≥ 2 ^ 63 then none
  else some (String.mk (List.replicate count.toNat s.data).flatten)

/-- The number of filled cells that `renderProgressBar` computes (`progress.go` lines
169-175): the clamp of the percentage, the integer division (Go's `/` truncates), and
the clamp to the width. -/
def filledCells (percentage width : Int) : Int :=
  let percentage := if percentage > 100 then 100 else percentage
  let filled := (wrapInt64 (percentage * width)).tdiv 100
  if filled > width then width else filled

/-- The `renderProgressBar` of `progress.go` (lines 168-179), before the styling of
`progressBar.Render`: the unstyled bar, `none` when a `strings.Repeat` panics. -/
def renderProgressBar (percentage width : Int) : Option String :=
  let filled := filledCells percentage width
  match Repeat "█" filled, Repeat "░" (wrapInt64 (width - filled)) with
  | some a, some b => some (a ++ b)
  | _, _ => none

/-- The decimal digits of a natural number, most significant first; `fuel` bounds the
number of digits (`n + 1` is enough for `n`). -/
def decimalDigits : Nat → Nat → List Char
  | 0, _ => []
  | fuel + 1, n =>
    if n < 10 then [Char.ofNat (48 + n)]
    else decimalDigits fuel (n / 10) ++ [Char.ofNat (48 + n % 10)]

/-- Go `fmt.Sprintf("%d", n)`: the decimal representation, with `-` for a negative `n`. -/
def formatDecimal (n : Int) : List Char :=
  if n < 0 then '-' :: decimalDigits ((-n).toNat + 1) (-n).toNat
  else decimalDigits (n.toNat + 1) n.toNat

/-- The loop of `formatNumber` (`progress.go` lines 189-194) from index `i` on, over the
rest of the text of length `len`: a comma goes before the character at index `i` when
`i > 0 && (len - i) % 3 == 0`. -/
def insertCommas (len : Nat) : Nat → List Char → List Char
  | _, [] => []
  | i, c :: rest =>
    (if i > 0 ∧ (len - i) % 3 = 0 then [','] else []) ++ c :: insertCommas len (i + 1) rest

/-- The `formatNumber` of `progress.go` (lines 182-196). -/
def formatNumber (n : Int) : String :=
  let s := formatDecimal n
  if s.length ≤ 3 then String.mk s
  else String.mk (insertCommas s.length 0 s)

/-- The groups of three characters of a text, from the left. -/
def triples : List Char → List (List Char)
  | a :: b :: c :: rest => [a, b, c] :: triples rest
  | _ => []

/-! ## Lemmas on the string helpers -/

theorem sprintf_two (a b : String) : Sprintf "%s/%s" [a, b] = a ++ "/" ++ b := by
  apply String.ext
  simp [Sprintf, sprintfAux]

/-! ## Path resolution -/

/-- C2: `getScmHome` returns the host override when it is non-empty, otherwise the global
override when that is non-empty, otherwise the working directory; and it returns an
error only when both overrides are empty and the working directory cannot be read. -/
theorem getScmHome_priority (getwd : Except String String) (hostHome globalHome : String) :
    (hostHome ≠ "" → getScmHome getwd hostHome globalHome = .ok hostHome) ∧
    (hostHome = "" → globalHome ≠ "" →
      getScmHome getwd hostHome globalHome = .ok globalHome) ∧
    (hostHome = "" → globalHome = "" → ∀ wd, getwd = .ok wd →
      getScmHome getwd hostHome globalHome = .ok wd) ∧
    (∀ e, getScmHome getwd hostHome globalHome = .error e →
      hostHome = "" ∧ globalHome = "" ∧ ∃ e0, getwd = .error e0) := by
  refine ⟨?_, ?_, ?_, ?_⟩
  · intro h
    simp [getScmHome, h]
  · intro h1 h2
    simp [getScmHome, h1, h2]
  · intro h1 h2 wd hwd
    simp [getScmHome, h1, h2, hwd]
  · intro e he
    unfold getScmHome at he
    by_cases h1 : hostHome = ""
    · by_cases h2 : globalHome = ""
      · refine ⟨h1, h2, ?_⟩
        cases hg : getwd with
        | error e0 => exact ⟨e0, rfl⟩
        | ok wd => simp [h1, h2, hg] at he
      · simp [h1, h2] at he
    · simp [h1] at he

/-- C2 (instance): with overrides `""` and `"/home/u/scm"` the global override is chosen,
whatever the working directory. -/
theorem getScmHome_priority_witness :
    getScmHome (.ok "/work") "" "/home/u/scm" = .ok "/home/u/scm" :=
  (getScmHome_priority (.ok "/work") "" "/home/u/scm").2.1 rfl (by decide)

/-- C1: when host lookup and repo-path extraction succeed with policy `s` and repo path
`rp`, and the resolved home `h` is non-empty, `GetClonePath` returns the path of the
spec's resolver: `h + "/" + rel` with `rel` the host-prefixed repo path, the repo path,
or the repo name, according to `creDir OR AlwaysCreDir` and `IncludeHostForCreDir`. -/
theorem GetClonePath_eq_specResolve (U : UrlDeps) (getwd : Except String String)
    (cfg : GitrConfig) (inputUrl : String) (creDir : Bool) (s : ScmHost) (rp h : String)
    (hs : U.GetScmHost cfg (U.GetHostname (U.StripQueryParams inputUrl)) = .ok s)
    (hrp : U.GetRepoPath (U.StripQueryParams inputUrl) s.Hostname s.Provider = .ok rp)
    (hh : getScmHome getwd s.Clone.HomeDir cfg.Scm.HomeDir = .ok h) (hne : h ≠ "") :
    GetClonePath U getwd cfg inputUrl creDir = .ok (specResolve s rp creDir h) ∧
    specResolve s rp creDir h = h ++ "/" ++
      (if creDir || s.Clone.AlwaysCreDir then
        (if s.Clone.IncludeHostForCreDir then s.Hostname ++ "/" ++ rp else rp)
       else GetRepoName rp) := by
  refine ⟨?_, rfl⟩
  simp only [GetClonePath, hs, hrp, hh, specResolve, sprintf_two]
  simp [hne]

/-- C1 (instance): a browser url with a tracking parameter resolves to
`/home/u/scm/repo` under the flat layout of `exampleCfg`. -/
theorem GetClonePath_eq_specResolve_witness :
    GetClonePath exampleDeps (.ok "/work") exampleCfg
      "https://github.com/owner/repo?utm_source=x" false
      = .ok (specResolve exampleHost "owner/repo" false "/home/u/scm") ∧
    specResolve exampleHost "owner/repo" false "/home/u/scm" = "/home/u/scm" ++ "/" ++
      (if false || exampleHost.Clone.AlwaysCreDir then
        (if exampleHost.Clone.IncludeHostForCreDir then exampleHost.Hostname ++ "/" ++ "owner/repo"
         else "owner/repo")
       else GetRepoName "owner/repo") :=
  GetClonePath_eq_specResolve exampleDeps (.ok "/work") exampleCfg
    "https://github.com/owner/repo?utm_source=x" false exampleHost "owner/repo" "/home/u/scm"
    (by rfl) (by rfl) (by rfl) (by decide)

/-! ## Prefixes, suffixes and url predicates -/

theorem HasSuffix_iff (s x : String) :
    HasSuffix s x = true ↔ ∃ p : String, s = p ++ x := by
  constructor
  · intro h
    simp only [HasSuffix, Bool.and_eq_true, decide_eq_true_eq, beq_iff_eq] at h
    refine ⟨String.mk (s.data.take (s.data.length - x.data.length)), ?_⟩
    apply String.ext
    rw [String.data_append]
    show s.data = List.take (s.data.length - x.data.length) s.data ++ x.data
    conv_lhs => rw [← List.take_append_drop (s.data.length - x.data.length) s.data]
    rw [h.2]
  · rintro ⟨p, rfl⟩
    simp [HasSuffix]

theorem HasPrefix_iff (s x : String) :
    HasPrefix s x = true ↔ ∃ r : String, s = x ++ r := by
  constructor
  · intro h
    simp only [HasPrefix, Bool.and_eq_true, decide_eq_true_eq, beq_iff_eq] at h
    refine ⟨String.mk (s.data.drop x.data.length), ?_⟩
    apply String.ext
    rw [String.data_append]
    show s.data = x.data ++ List.drop x.data.length s.data
    conv_lhs => rw [← List.take_append_drop x.data.length s.data]
    rw [h.2]
  · rintro ⟨r, rfl⟩
    simp [HasPrefix]

theorem lastSegment_append (b : List Char) (hb : '/' ∉ b) :
    ∀ (a acc : List Char), lastSegment acc (a ++ b) = lastSegment acc a ++ b := by
  intro a
  induction a with
  | nil =>
    induction b with
    | nil => intro acc; simp [lastSegment]
    | cons c t ih =>
      intro acc
      have hc : c ≠ '/' := fun h => hb (by simp [h])
      have ht : '/' ∉ t := fun h => hb (by simp [h])
      have := ih ht (acc ++ [c])
      simp only [List.nil_append] at this ⊢
      simp [lastSegment, hc, this]
  | cons c t ih =>
    intro acc
    by_cases hc : c = '/'
    · simp [lastSegment, hc, ih]
    · simp [lastSegment, hc, ih]

theorem lastSegment_slash (name : List Char) :
    ∀ (pre acc : List Char), lastSegment acc (pre ++ '/' :: name) = lastSegment [] name := by
  intro pre
  induction pre with
  | nil => intro acc; simp [lastSegment]
  | cons c t ih =>
    intro acc
    by_cases hc : c = '/'
    · simp [lastSegment, hc, ih]
    · simp [lastSegment, hc, ih]

/-- C4: `GetRepoName p` is what follows the last `/` of `p`, and `p` itself when `p` has no
`/`; a `.git` suffix of `p` is a suffix of the name too (it is never stripped), as in
`swarupdonepudi/gitr.git` giving `gitr.git` and `no-path.git` giving `no-path.git`. -/
theorem GetRepoName_last_segment (p : String) :
    (∀ pre name : String, p = pre ++ "/" ++ name → '/' ∉ name.data →
      GetRepoName p = name) ∧
    ('/' ∉ p.data → GetRepoName p = p) ∧
    (HasSuffix p ".git" = true → HasSuffix (GetRepoName p) ".git" = true) ∧
    GetRepoName "swarupdonepudi/gitr.git" = "gitr.git" ∧
    GetRepoName "no-path.git" = "no-path.git" := by
  refine ⟨?_, ?_, ?_, by decide, by decide⟩
  · rintro pre name rfl hname
    apply String.ext
    have h1 := lastSegment_slash name.data pre.data []
    have h2 := lastSegment_append name.data hname [] []
    simp only [List.nil_append, lastSegment] at h2
    simp [GetRepoName, h1, h2]
  · intro hp
    apply String.ext
    have h2 := lastSegment_append p.data hp [] []
    simp only [List.nil_append, lastSegment] at h2
    simp [GetRepoName, h2]
  · intro h
    obtain ⟨q, rfl⟩ := (HasSuffix_iff p ".git").1 h
    have h2 := lastSegment_append ".git".data (by decide) q.data []
    refine (HasSuffix_iff _ _).2 ⟨String.mk (lastSegment [] q.data), ?_⟩
    apply String.ext
    simp only [GetRepoName, String.data_append, h2]

/-- C4 (instance): a nested path ending in `.git` keeps the suffix in its name. -/
theorem GetRepoName_last_segment_witness :
    GetRepoName "parent/sub/sub2/project-name.git" = "project-name.git" :=
  (GetRepoName_last_segment "parent/sub/sub2/project-name.git").1
    "parent/sub/sub2" "project-name.git" (by decide) (by decide)

/-- C5: `IsGitUrl s` holds exactly when `s` ends with `.git`, and `IsGitSshUrl s` exactly
when `s` ends with `.git` and starts with `git@` or `ssh://`. -/
theorem IsGitUrl_IsGitSshUrl_iff (s : String) :
    (IsGitUrl s = true ↔ ∃ p : String, s = p ++ ".git") ∧
    (IsGitSshUrl s = true ↔
      (∃ p : String, s = p ++ ".git") ∧
        ((∃ r : String, s = "git@" ++ r) ∨ (∃ r : String, s = "ssh://" ++ r))) := by
  refine ⟨HasSuffix_iff s ".git", ?_⟩
  simp only [IsGitSshUrl, IsGitUrl, Bool.and_eq_true, Bool.or_eq_true, HasSuffix_iff,
    HasPrefix_iff]

/-- C6: the candidate clone urls are `git@h:p.git` and `c://h/p.git`; both end with
`.git` and the ssh one starts with `git@`. -/
theorem clone_urls_shape (h p c : String) :
    GetSshCloneUrl h p = "git@" ++ h ++ ":" ++ p ++ ".git" ∧
    GetHttpCloneUrl h p c = c ++ "://" ++ h ++ "/" ++ p ++ ".git" ∧
    HasSuffix (GetSshCloneUrl h p) ".git" = true ∧
    HasSuffix (GetHttpCloneUrl h p c) ".git" = true ∧
    HasPrefix (GetSshCloneUrl h p) "git@" = true := by
  have e1 : GetSshCloneUrl h p = "git@" ++ h ++ ":" ++ p ++ ".git" := by
    apply String.ext
    simp [GetSshCloneUrl, Sprintf, sprintfAux]
  have e2 : GetHttpCloneUrl h p c = c ++ "://" ++ h ++ "/" ++ p ++ ".git" := by
    apply String.ext
    simp [GetHttpCloneUrl, Sprintf, sprintfAux]
  refine ⟨e1, e2, ?_, ?_, ?_⟩
  · exact (HasSuffix_iff _ _).2 ⟨_, e1⟩
  · exact (HasSuffix_iff _ _).2 ⟨_, e2⟩
  · refine (HasPrefix_iff _ _).2 ⟨h ++ ":" ++ p ++ ".git", ?_⟩
    rw [e1]
    apply String.ext
    simp

/-! ## Repo-path extraction -/

theorem cutAfter_github (tl : List Char) :
    cutAfter "github.com".data ("https://github.com".data ++ tl) = some tl := by
  simp [cutAfter, List.isPrefixOf]

theorem TrimSuffix_append (q x : String) : TrimSuffix (q ++ x) x = q := by
  have h : HasSuffix (q ++ x) x = true := (HasSuffix_iff _ _).2 ⟨q, rfl⟩
  simp only [TrimSuffix, h, if_true]
  apply String.ext
  simp

theorem GetRepoPath_core (owner seg2 : String) (t : List Char) (prov : ScmProvider)
    (ho : IsSegment owner) (hs : '/' ∉ seg2.data)
    (ht : t = [] ∨ ∃ r, t = '/' :: r) (hne : TrimSuffix seg2 ".git" ≠ "") :
    GetRepoPath (String.mk ("https://github.com/".data ++ owner.data ++ '/' :: seg2.data ++ t))
      "github.com" prov = .ok (owner ++ "/" ++ TrimSuffix seg2 ".git") := by
  have hcut : cutAfter "github.com".data
      ("https://github.com/".data ++ owner.data ++ '/' :: seg2.data ++ t)
      = some ('/' :: (owner.data ++ '/' :: (seg2.data ++ t))) := by
    have := cutAfter_github ('/' :: (owner.data ++ '/' :: (seg2.data ++ t)))
    simpa using this
  have hown : ∀ a ∈ owner.data, (a != '/') = true := by
    intro a ha
    simp only [bne_iff_ne, ne_eq]
    rintro rfl
    exact ho.2 ha
  have hseg : ∀ a ∈ seg2.data, (a != '/') = true := by
    intro a ha
    simp only [bne_iff_ne, ne_eq]
    rintro rfl
    exact hs ha
  have htake : (seg2.data ++ t).takeWhile (fun c => c != '/') = seg2.data := by
    rw [List.takeWhile_append_of_pos hseg]
    rcases ht with rfl | ⟨r, rfl⟩ <;> simp
  have hodata : owner.data ≠ [] := by
    intro h
    apply ho.1
    apply String.ext
    simpa using h
  simp only [GetRepoPath, hcut]
  rw [List.dropWhile_append_of_pos hown, List.takeWhile_append_of_pos hown]
  simp [htake, hodata, hne]

theorem trailing_shape (sh : GitHubUrlShape) (h : sh ≠ GitHubUrlShape.dotGit) :
    sh.trailing.data = [] ∨ ∃ r, sh.trailing.data = '/' :: r := by
  cases sh with
  | bare => left; rfl
  | dotGit => exact absurd rfl h
  | tree ref subpath =>
    right
    cases subpath <;> simp [GitHubUrlShape.trailing]
  | blob ref file => right; simp [GitHubUrlShape.trailing]
  | commits ref => right; simp [GitHubUrlShape.trailing]
  | pull n => right; simp [GitHubUrlShape.trailing]
  | issues n => right; simp [GitHubUrlShape.trailing]
  | compare a b => right; simp [GitHubUrlShape.trailing]

/-- C3: for owner and repo segments (non-empty, without `/`) and every supported GitHub
browser-url shape, `GetRepoPath` on `https://github.com/<owner>/<repo><trailing>` succeeds
with exactly `owner/repo`: the first two path segments after the host with the `.git`
suffix removed (so outside the `.git` shape the repo segment itself carries no `.git`
suffix). -/
theorem GetRepoPath_github_shapes (owner repo : String) (sh : GitHubUrlShape)
    (ho : IsSegment owner) (hr : IsSegment repo)
    (hg : sh ≠ GitHubUrlShape.dotGit → HasSuffix repo ".git" = false) :
    GetRepoPath (sh.render owner repo) "github.com" ScmProvider.GitHub
      = .ok (owner ++ "/" ++ repo) := by
  by_cases hsh : sh = GitHubUrlShape.dotGit
  · subst hsh
    have hurl : GitHubUrlShape.dotGit.render owner repo
        = String.mk ("https://github.com/".data ++ owner.data ++
            '/' :: (repo ++ ".git").data ++ []) := by
      apply String.ext
      simp [GitHubUrlShape.render, GitHubUrlShape.trailing]
    have hs : '/' ∉ (repo ++ ".git").data := by
      simp only [String.data_append, List.mem_append, not_or]
      exact ⟨hr.2, by decide⟩
    have htrim : TrimSuffix (repo ++ ".git") ".git" = repo := TrimSuffix_append repo ".git"
    have := GetRepoPath_core owner (repo ++ ".git") [] ScmProvider.GitHub ho hs (Or.inl rfl)
      (by rw [htrim]; exact hr.1)
    rw [hurl, this, htrim]
  · have hurl : sh.render owner repo
        = String.mk ("https://github.com/".data ++ owner.data ++
            '/' :: repo.data ++ sh.trailing.data) := by
      apply String.ext
      simp [GitHubUrlShape.render]
    have htrim : TrimSuffix repo ".git" = repo := by
      simp [TrimSuffix, hg hsh]
    have := GetRepoPath_core owner repo sh.trailing.data ScmProvider.GitHub ho hr.2
      (trailing_shape sh hsh) (by rw [htrim]; exact hr.1)
    rw [hurl, this, htrim]

/-- C3 (instance): the pull-request url of the test table gives `owner/repo`. -/
theorem GetRepoPath_github_shapes_witness :
    GetRepoPath ((GitHubUrlShape.pull 123).render "owner" "repo") "github.com"
      ScmProvider.GitHub = .ok ("owner" ++ "/" ++ "repo") :=
  GetRepoPath_github_shapes "owner" "repo" (GitHubUrlShape.pull 123)
    ⟨by decide, by decide⟩ ⟨by decide, by decide⟩ (fun _ => by decide)

/-! ## Failure classification -/

theorem containsList_of_prefix (sub : List Char) :
    ∀ l : List Char, sub <+: l → containsList sub l = true := by
  intro l h
  cases l with
  | nil =>
    have : sub = [] := List.prefix_nil.1 h
    simp [containsList, this]
  | cons c t =>
    have hp : sub.isPrefixOf (c :: t) = true := List.isPrefixOf_iff_prefix.2 h
    simp only [containsList, hp, Bool.true_or]

theorem containsList_of_infix (sub suf : List Char) :
    ∀ pre : List Char, containsList sub (pre ++ sub ++ suf) = true := by
  intro pre
  induction pre with
  | nil =>
    rw [List.nil_append]
    exact containsList_of_prefix sub _ (List.prefix_append sub suf)
  | cons c t ih =>
    simp only [List.cons_append, containsList, Bool.or_eq_true]
    right
    exact ih

theorem unicodeToLower_of_ascii (caseTable : Char → Char) (c : Char)
    (h : (Char.toLower c).toNat ≤ 127) : unicodeToLower caseTable c = Char.toLower c := by
  by_cases hu : 65 ≤ c.toNat ∧ c.toNat ≤ 90
  · have h127 : c.toNat ≤ 127 := by omega
    simp [unicodeToLower, Char.toLower, hu, h127]
  · have hc : Char.toLower c = c := by
      unfold Char.toLower
      simp only [ge_iff_le]
      rw [if_neg hu]
    rw [hc] at h
    rw [hc]
    simp [unicodeToLower, h, hu]

theorem map_unicodeToLower (caseTable : Char → Char) (mid pat : List Char)
    (hascii : ∀ c ∈ pat, c.toNat ≤ 127) (hcase : mid.map Char.toLower = pat) :
    mid.map (unicodeToLower caseTable) = pat := by
  rw [← hcase]
  apply List.map_congr_left
  intro c hc
  apply unicodeToLower_of_ascii
  apply hascii
  rw [← hcase]
  exact List.mem_map_of_mem _ hc

theorem isRepoNotFoundError_of_pattern (caseTable : Char → Char)
    (pre mid suf pat : String) (hpat : pat ∈ notFoundPatterns)
    (hascii : ∀ c ∈ pat.data, c.toNat ≤ 127)
    (hcase : mid.data.map Char.toLower = pat.data) :
    isRepoNotFoundError caseTable (some (pre ++ mid ++ suf)) = true := by
  have hmid := map_unicodeToLower caseTable mid.data pat.data hascii hcase
  simp only [isRepoNotFoundError, List.any_eq_true]
  refine ⟨pat, hpat, ?_⟩
  simp only [Contains, ToLower, String.data_append, List.map_append, hmid]
  exact containsList_of_infix _ _ _

/-- C7: an error whose text contains, anywhere and in any letter case, one of
`repository not found`, `project not found` or
`the project you were looking for could not be found` is classified as not-found. -/
theorem isRepoNotFoundError_of_contains (caseTable : Char → Char)
    (pre mid suf pat : String)
    (hpat : pat ∈ ["repository not found", "project not found",
      "the project you were looking for could not be found"])
    (hcase : mid.data.map Char.toLower = pat.data) :
    isRepoNotFoundError caseTable (some (pre ++ mid ++ suf)) = true := by
  simp only [List.mem_cons, List.mem_singleton, List.not_mem_nil, or_false] at hpat
  rcases hpat with rfl | rfl | rfl
  · exact isRepoNotFoundError_of_pattern caseTable pre mid suf _ (by decide) (by decide) hcase
  · exact isRepoNotFoundError_of_pattern caseTable pre mid suf _ (by decide) (by decide) hcase
  · exact isRepoNotFoundError_of_pattern caseTable pre mid suf _ (by decide) (by decide) hcase

/-- C7 (instance): GitHub's `ERROR: Repository not found.` inside the text of a failed
`git clone` is classified as not-found. -/
theorem isRepoNotFoundError_of_contains_witness :
    isRepoNotFoundError id
      (some ("clone failed: ERROR: " ++ "Repository Not Found" ++ ".\nfatal: exit")) = true :=
  isRepoNotFoundError_of_contains id "clone failed: ERROR: " "Repository Not Found"
    ".\nfatal: exit" "repository not found" (by decide) (by decide)

/-! ## `Clone` on browser-derived urls: SSH first, then HTTP -/

theorem Clone_reaches_ssh {W : Type} (U : UrlDeps) (S : Sys W) (caseTable : Char → Char)
    (cfg : GitrConfig) (inputUrl token : String) (creDir : Bool) (st : St W) (s : ScmHost)
    (rp loc : String) (stp : St W)
    (h : ReachesSshAttempt U S cfg inputUrl creDir st s rp loc stp) :
    Clone U S caseTable cfg inputUrl token creDir false st
      = Clone.sshThenHttp S caseTable s rp loc stp := by
  obtain ⟨hs, hrp, hloc, hurl, -, hdir⟩ := h
  rcases hdir with ⟨hd, rfl⟩ | ⟨hd, hgit, hrm⟩
  · simp [Clone, hs, hrp, hloc, hd, Clone.transport, hurl]
  · simp [Clone, hs, hrp, hloc, hd, hgit, hrm, Clone.transport, hurl]

theorem sshThenHttp_of_failure {W : Type} (S : Sys W) (caseTable : Char → Char)
    (s : ScmHost) (rp loc : String) (stp st2 : St W) (e : String)
    (hprov : s.Provider ≠ ScmProvider.BitBucketDatacenter ∧
      s.Provider ≠ ScmProvider.BitBucketCloud)
    (hssh : sshClone S (GetSshCloneUrl s.Hostname rp) loc
      (stp.log (Event.uiCloning (GetSshCloneUrl s.Hostname rp))) = (some e, st2)) :
    Clone.sshThenHttp S caseTable s rp loc stp =
      if isRepoNotFoundError caseTable (some e) then (("", some repoNotFoundText), st2)
      else afterHttpAttempt loc
        (httpClone S (GetHttpCloneUrl s.Hostname rp s.Scheme) loc (removeAll S loc st2).2) := by
  simp only [Clone.sshThenHttp, hprov.1, hprov.2, or_self, if_false, hssh, errorsNew,
    repoNotFoundText, afterHttpAttempt]

theorem sshClone_trace {W : Type} (S : Sys W) (u p : String) (st : St W) :
    ∃ evs, (sshClone S u p st).2.trace = st.trace ++ evs ∧
      ∀ ev ∈ evs, ev.isHttpAttempt = false := by
  unfold sshClone mkdirAll runGitClone
  cases h1 : (S.MkdirAll st.world p).2 with
  | some err =>
    refine ⟨[Event.mkdirAll p], ?_, by simp [Event.isHttpAttempt]⟩
    simp [h1]
  | none =>
    refine ⟨[Event.mkdirAll p, Event.gitCloneExec u p], ?_, by simp [Event.isHttpAttempt]⟩
    simp only [h1]
    cases h2 : (S.RunGitClone (S.MkdirAll st.world p).1 u p).2 <;> simp [h2]

theorem httpClone_trace {W : Type} (S : Sys W) (u p : String) (st : St W) :
    (httpClone S u p st).2.trace = st.trace ++ Event.mkdirAll p ::
      (if (S.MkdirAll st.world p).2.isNone then [Event.plainClone p u none] else []) := by
  unfold httpClone mkdirAll plainClone
  cases h1 : (S.MkdirAll st.world p).2 <;> simp [h1]

theorem prepared_trace {W : Type} (U : UrlDeps) (S : Sys W) (cfg : GitrConfig)
    (inputUrl : String) (creDir : Bool) (st : St W) (s : ScmHost) (rp loc : String)
    (stp : St W) (h : ReachesSshAttempt U S cfg inputUrl creDir st s rp loc stp) :
    ∃ evs, stp.trace = st.trace ++ evs ∧ ∀ ev ∈ evs, ev.isHttpAttempt = false := by
  obtain ⟨-, -, -, -, -, hdir⟩ := h
  rcases hdir with ⟨-, rfl⟩ | ⟨-, -, hrm⟩
  · exact ⟨[], by simp, by simp⟩
  · refine ⟨[Event.removeAll loc], ?_, by simp [Event.isHttpAttempt]⟩
    simp only [removeAll, Prod.mk.injEq] at hrm
    rw [← hrm.2]

/-- C9: on a browser-derived url, when the SSH attempt fails with an error that
`isRepoNotFoundError` classifies as not-found, `Clone` returns the empty path and the
`repository not found` error, in the state the SSH attempt left: no HTTP(S) attempt is
among the effects of the call. -/
theorem Clone_not_found_is_terminal {W : Type} (U : UrlDeps) (S : Sys W)
    (caseTable : Char → Char) (cfg : GitrConfig) (inputUrl token : String) (creDir : Bool)
    (st : St W) (s : ScmHost) (rp loc : String) (stp st2 : St W) (e : String)
    (h : ReachesSshAttempt U S cfg inputUrl creDir st s rp loc stp)
    (hssh : sshClone S (GetSshCloneUrl s.Hostname rp) loc
      (stp.log (Event.uiCloning (GetSshCloneUrl s.Hostname rp))) = (some e, st2))
    (hnf : isRepoNotFoundError caseTable (some e) = true) :
    Clone U S caseTable cfg inputUrl token creDir false st
      = (("", some repoNotFoundText), st2) ∧
    HasPrefix repoNotFoundText "repository not found" = true ∧
    ∃ evs, st2.trace = st.trace ++ evs ∧ ∀ ev ∈ evs, ev.isHttpAttempt = false := by
  refine ⟨?_, by decide, ?_⟩
  · rw [Clone_reaches_ssh U S caseTable cfg inputUrl token creDir st s rp loc stp h,
      sshThenHttp_of_failure S caseTable s rp loc stp st2 e h.2.2.2.2.1 hssh, if_pos hnf]
  · obtain ⟨evs0, h0, hev0⟩ := prepared_trace U S cfg inputUrl creDir st s rp loc stp h
    obtain ⟨evs1, h1, hev1⟩ := sshClone_trace S (GetSshCloneUrl s.Hostname rp) loc
      (stp.log (Event.uiCloning (GetSshCloneUrl s.Hostname rp)))
    rw [hssh] at h1
    replace h1 : st2.trace
        = (stp.log (Event.uiCloning (GetSshCloneUrl s.Hostname rp))).trace ++ evs1 := h1
    refine ⟨evs0 ++ Event.uiCloning (GetSshCloneUrl s.Hostname rp) :: evs1, ?_, ?_⟩
    · rw [h1]
      simp [St.log, h0]
    · intro ev hev
      simp only [List.mem_append, List.mem_cons] at hev
      rcases hev with hev | rfl | hev
      · exact hev0 ev hev
      · rfl
      · exact hev1 ev hev

/-- C9 (instance): GitHub answers `ERROR: Repository not found.`; the clone ends with the
not-found error after the SSH attempt alone. -/
theorem Clone_not_found_is_terminal_witness :
    Clone exampleDeps (scriptedSys (some "ERROR: Repository not found.") none) id exampleCfg
        "https://github.com/owner/repo?utm_source=x" "" false false st0
      = (("", some repoNotFoundText),
          St.mk () [Event.uiCloning "git@github.com:owner/repo.git",
            Event.mkdirAll "/home/u/scm/repo",
            Event.gitCloneExec "git@github.com:owner/repo.git" "/home/u/scm/repo"]) :=
  (Clone_not_found_is_terminal exampleDeps
    (scriptedSys (some "ERROR: Repository not found.") none) id exampleCfg
    "https://github.com/owner/repo?utm_source=x" "" false st0 exampleHost "owner/repo"
    "/home/u/scm/repo" st0 _ "clone failed: ERROR: Repository not found."
    ⟨rfl, rfl, rfl, by decide, ⟨by decide, by decide⟩, Or.inl ⟨rfl, rfl⟩⟩
    (by rfl) (by decide)).1

/-- C10: on a browser-derived url of a non-BitBucket host, when the SSH attempt fails with
an error not classified as not-found, `Clone` removes the target directory and then runs
`httpClone` once, on `GetHttpCloneUrl(hostname, repoPath, scheme)` and the same local
path, and nothing after it: the effects after the SSH attempt are the removal, the
directory creation of `httpClone` and (when that succeeds) one anonymous go-git clone;
the result is `(localPath, nil)` when `httpClone` succeeds and the empty path with a
non-nil error when it fails. -/
theorem Clone_http_fallback {W : Type} (U : UrlDeps) (S : Sys W)
    (caseTable : Char → Char) (cfg : GitrConfig) (inputUrl token : String) (creDir : Bool)
    (st : St W) (s : ScmHost) (rp loc : String) (stp st2 : St W) (e : String)
    (h : ReachesSshAttempt U S cfg inputUrl creDir st s rp loc stp)
    (hssh : sshClone S (GetSshCloneUrl s.Hostname rp) loc
      (stp.log (Event.uiCloning (GetSshCloneUrl s.Hostname rp))) = (some e, st2))
    (hcl : isRepoNotFoundError caseTable (some e) = false) :
    Clone U S caseTable cfg inputUrl token creDir false st
      = afterHttpAttempt loc
          (httpClone S (GetHttpCloneUrl s.Hostname rp s.Scheme) loc (removeAll S loc st2).2) ∧
    (Clone U S caseTable cfg inputUrl token creDir false st).2.trace
      = st2.trace ++ Event.removeAll loc :: Event.mkdirAll loc ::
          (if (S.MkdirAll (S.RemoveAll st2.world loc).1 loc).2.isNone
           then [Event.plainClone loc (GetHttpCloneUrl s.Hostname rp s.Scheme) none]
           else []) ∧
    ((httpClone S (GetHttpCloneUrl s.Hostname rp s.Scheme) loc (removeAll S loc st2).2).1 = none →
      (Clone U S caseTable cfg inputUrl token creDir false st).1 = (loc, none)) ∧
    (∀ err, (httpClone S (GetHttpCloneUrl s.Hostname rp s.Scheme) loc
        (removeAll S loc st2).2).1 = some err →
      (Clone U S caseTable cfg inputUrl token creDir false st).1
        = ("", some (Wrap err "error cloning the repo using http"))) := by
  have hC : Clone U S caseTable cfg inputUrl token creDir false st
      = afterHttpAttempt loc
          (httpClone S (GetHttpCloneUrl s.Hostname rp s.Scheme) loc (removeAll S loc st2).2) := by
    rw [Clone_reaches_ssh U S caseTable cfg inputUrl token creDir st s rp loc stp h,
      sshThenHttp_of_failure S caseTable s rp loc stp st2 e h.2.2.2.2.1 hssh, hcl]
    simp
  have hst : ∀ r : Option String × St W, (afterHttpAttempt loc r).2 = r.2 := by
    rintro ⟨_ | err, st3⟩ <;> rfl
  refine ⟨hC, ?_, ?_, ?_⟩
  · rw [hC, hst, httpClone_trace]
    simp [removeAll]
  · intro hnone
    rw [hC]
    generalize httpClone S (GetHttpCloneUrl s.Hostname rp s.Scheme) loc
      (removeAll S loc st2).2 = r at hnone
    obtain ⟨r1, r2⟩ := r
    simp only at hnone
    subst hnone
    rfl
  · intro err herr
    rw [hC]
    generalize httpClone S (GetHttpCloneUrl s.Hostname rp s.Scheme) loc
      (removeAll S loc st2).2 = r at herr
    obtain ⟨r1, r2⟩ := r
    simp only at herr
    subst herr
    rfl

/-- C10 (instance): the SSH attempt is refused for lack of a key and the anonymous HTTP
clone succeeds: the directory is removed, `httpClone` runs once on
`https://github.com/owner/repo.git`, and the local path is returned. -/
theorem Clone_http_fallback_witness :
    Clone exampleDeps (scriptedSys (some "git@github.com: Permission denied (publickey).") none)
        id exampleCfg "https://github.com/owner/repo?utm_source=x" "" false false st0
      = (("/home/u/scm/repo", none),
          St.mk () [Event.uiCloning "git@github.com:owner/repo.git",
            Event.mkdirAll "/home/u/scm/repo",
            Event.gitCloneExec "git@github.com:owner/repo.git" "/home/u/scm/repo",
            Event.removeAll "/home/u/scm/repo",
            Event.mkdirAll "/home/u/scm/repo",
            Event.plainClone "/home/u/scm/repo" "https://github.com/owner/repo.git" none]) :=
  (Clone_http_fallback exampleDeps
    (scriptedSys (some "git@github.com: Permission denied (publickey).") none) id exampleCfg
    "https://github.com/owner/repo?utm_source=x" "" false st0 exampleHost "owner/repo"
    "/home/u/scm/repo" st0
    (St.mk () [Event.uiCloning "git@github.com:owner/repo.git",
      Event.mkdirAll "/home/u/scm/repo",
      Event.gitCloneExec "git@github.com:owner/repo.git" "/home/u/scm/repo"])
    "clone failed: git@github.com: Permission denied (publickey)."
    ⟨rfl, rfl, rfl, by decide, ⟨by decide, by decide⟩, Or.inl ⟨rfl, rfl⟩⟩
    (by rfl) (by decide)).1

/-- C8 (counterexample): the failure text of the SSH attempt contains `permission denied`
and also GitHub's `Repository not found`; on this browser-derived url `Clone` treats the
failure as terminal: it returns the not-found error and the effects end with the SSH
attempt, without removal and without HTTP attempt. -/
theorem Clone_permission_denied_terminal :
    IsGitUrl (exampleDeps.StripQueryParams "https://github.com/owner/repo") = false ∧
    (sshClone
      (scriptedSys
        (some "load key /home/u/.ssh/id_rsa: permission denied\nERROR: Repository not found.")
        none)
      "git@github.com:owner/repo.git" "/home/u/scm/repo"
      (st0.log (Event.uiCloning "git@github.com:owner/repo.git"))).1
      = some "clone failed: load key /home/u/.ssh/id_rsa: permission denied\nERROR: Repository not found." ∧
    Contains
      "clone failed: load key /home/u/.ssh/id_rsa: permission denied\nERROR: Repository not found."
      "permission denied" = true ∧
    Clone exampleDeps
        (scriptedSys
          (some "load key /home/u/.ssh/id_rsa: permission denied\nERROR: Repository not found.")
          none)
        id exampleCfg "https://github.com/owner/repo" "" false false st0
      = (("", some repoNotFoundText),
          St.mk () [Event.uiCloning "git@github.com:owner/repo.git",
            Event.mkdirAll "/home/u/scm/repo",
            Event.gitCloneExec "git@github.com:owner/repo.git" "/home/u/scm/repo"]) := by
  refine ⟨by decide, by rfl, by decide, by rfl⟩

/-- C8 (amended): on a browser-derived url, when the SSH attempt fails with an error whose
text contains `permission denied` and which `isRepoNotFoundError` does not classify as
not-found, `Clone` does not end there: it removes the directory and continues with the
HTTP attempt on the derived http url, whose outcome decides the result. -/
theorem Clone_permission_denied_fallback {W : Type} (U : UrlDeps) (S : Sys W)
    (caseTable : Char → Char) (cfg : GitrConfig) (inputUrl token : String) (creDir : Bool)
    (st : St W) (s : ScmHost) (rp loc : String) (stp st2 : St W) (e : String)
    (h : ReachesSshAttempt U S cfg inputUrl creDir st s rp loc stp)
    (hssh : sshClone S (GetSshCloneUrl s.Hostname rp) loc
      (stp.log (Event.uiCloning (GetSshCloneUrl s.Hostname rp))) = (some e, st2))
    (_hpd : Contains e "permission denied" = true)
    (hcl : isRepoNotFoundError caseTable (some e) = false) :
    Clone U S caseTable cfg inputUrl token creDir false st
      = afterHttpAttempt loc
          (httpClone S (GetHttpCloneUrl s.Hostname rp s.Scheme) loc (removeAll S loc st2).2) ∧
    ∃ evs, (Clone U S caseTable cfg inputUrl token creDir false st).2.trace
      = st2.trace ++ Event.removeAll loc :: Event.mkdirAll loc :: evs := by
  have hC : Clone U S caseTable cfg inputUrl token creDir false st
      = afterHttpAttempt loc
          (httpClone S (GetHttpCloneUrl s.Hostname rp s.Scheme) loc (removeAll S loc st2).2) := by
    rw [Clone_reaches_ssh U S caseTable cfg inputUrl token creDir st s rp loc stp h,
      sshThenHttp_of_failure S caseTable s rp loc stp st2 e h.2.2.2.2.1 hssh, hcl]
    simp
  have hst : ∀ r : Option String × St W, (afterHttpAttempt loc r).2 = r.2 := by
    rintro ⟨_ | err, st3⟩ <;> rfl
  refine ⟨hC, ?_⟩
  rw [hC, hst, httpClone_trace]
  exact ⟨_, by simp [removeAll]; rfl⟩

/-- C8 (amended, instance): a plain `permission denied` failure falls back to HTTP, which
here fails in turn; the error returned is the wrapped HTTP error. -/
theorem Clone_permission_denied_fallback_witness :
    Clone exampleDeps
        (scriptedSys (some "fatal: permission denied (publickey)")
          (some "authentication required"))
        id exampleCfg "https://github.com/owner/repo" "" false false st0
      = (("", some "error cloning the repo using http: authentication required"),
          St.mk () [Event.uiCloning "git@github.com:owner/repo.git",
            Event.mkdirAll "/home/u/scm/repo",
            Event.gitCloneExec "git@github.com:owner/repo.git" "/home/u/scm/repo",
            Event.removeAll "/home/u/scm/repo",
            Event.mkdirAll "/home/u/scm/repo",
            Event.plainClone "/home/u/scm/repo" "https://github.com/owner/repo.git" none]) :=
  (Clone_permission_denied_fallback exampleDeps
    (scriptedSys (some "fatal: permission denied (publickey)")
      (some "authentication required")) id exampleCfg
    "https://github.com/owner/repo" "" false st0 exampleHost "owner/repo"
    "/home/u/scm/repo" st0
    (St.mk () [Event.uiCloning "git@github.com:owner/repo.git",
      Event.mkdirAll "/home/u/scm/repo",
      Event.gitCloneExec "git@github.com:owner/repo.git" "/home/u/scm/repo"])
    "clone failed: fatal: permission denied (publickey)"
    ⟨rfl, rfl, rfl, by decide, ⟨by decide, by decide⟩, Or.inl ⟨rfl, rfl⟩⟩
    (by rfl) (by decide) (by decide)).1

/-! ## `Clone`: existing repository, dry mode, plan failures -/

theorem GetClonePath_ok_inv (U : UrlDeps) (getwd : Except String String) (cfg : GitrConfig)
    (u : String) (creDir : Bool) (loc : String)
    (h : GetClonePath U getwd cfg u creDir = .ok loc) :
    ∃ s rp hm, U.GetScmHost cfg (U.GetHostname (U.StripQueryParams u)) = .ok s ∧
      U.GetRepoPath (U.StripQueryParams u) s.Hostname s.Provider = .ok rp ∧
      getScmHome getwd s.Clone.HomeDir cfg.Scm.HomeDir = .ok hm := by
  unfold GetClonePath at h
  cases hs : U.GetScmHost cfg (U.GetHostname (U.StripQueryParams u)) with
  | error e => simp [hs] at h
  | ok s =>
    cases hrp : U.GetRepoPath (U.StripQueryParams u) s.Hostname s.Provider with
    | error e => simp [hs, hrp] at h
    | ok rp =>
      cases hh : getScmHome getwd s.Clone.HomeDir cfg.Scm.HomeDir with
      | error e => simp [hs, hrp, hh] at h
      | ok hm => exact ⟨s, rp, hm, rfl, hrp, hh⟩

theorem GetClonePath_strip (U : UrlDeps) (getwd : Except String String) (cfg : GitrConfig)
    (u : String) (creDir : Bool)
    (hidem : U.StripQueryParams (U.StripQueryParams u) = U.StripQueryParams u) :
    GetClonePath U getwd cfg (U.StripQueryParams u) creDir
      = GetClonePath U getwd cfg u creDir := by
  simp only [GetClonePath, hidem]

theorem GetClonePath_ok_of_ok (U : UrlDeps) (getwd : Except String String)
    (cfg : GitrConfig) (u : String) (c1 c2 : Bool) (loc : String)
    (h : GetClonePath U getwd cfg u c1 = .ok loc) :
    ∃ loc2, GetClonePath U getwd cfg u c2 = .ok loc2 := by
  obtain ⟨s, rp, hm, hs, hrp, hh⟩ := GetClonePath_ok_inv U getwd cfg u c1 loc h
  simp only [GetClonePath, hs, hrp, hh]
  exact ⟨_, rfl⟩

/-- C11: a non-dry `Clone` whose resolved path `GetClonePath(cfg, inputUrl, creDir)` is an
existing directory that contains a `.git` directory returns `(localPath, nil)`; the world
is left as it was and the only effect is the `already exists` notice: no removal, no
creation, no transport. -/
theorem Clone_existing_repo_noop {W : Type} (U : UrlDeps) (S : Sys W)
    (caseTable : Char → Char) (cfg : GitrConfig) (inputUrl token : String) (creDir : Bool)
    (st : St W) (loc : String)
    (hidem : U.StripQueryParams (U.StripQueryParams inputUrl) = U.StripQueryParams inputUrl)
    (hloc : GetClonePath U (S.Getwd st.world) cfg inputUrl creDir = .ok loc)
    (hdir : S.IsDirExists st.world loc = true)
    (hgit : S.IsDirExists st.world (S.Join [loc, ".git"]) = true) :
    Clone U S caseTable cfg inputUrl token creDir false st
      = ((loc, none), St.mk st.world (st.trace ++ [Event.uiRepoAlreadyExists loc])) ∧
    (Event.uiRepoAlreadyExists loc).isMutation = false ∧
    (Event.uiRepoAlreadyExists loc).isTransport = false := by
  refine ⟨?_, rfl, rfl⟩
  obtain ⟨s, rp, hm, hs, hrp, -⟩ :=
    GetClonePath_ok_inv U (S.Getwd st.world) cfg inputUrl creDir loc hloc
  have hloc2 := GetClonePath_strip U (S.Getwd st.world) cfg inputUrl creDir hidem
  rw [hloc] at hloc2
  simp [Clone, hs, hrp, hloc2, hdir, hgit, St.log]

/-- C11 (instance): the repository is already cloned at `/home/u/scm/repo`. -/
theorem Clone_existing_repo_noop_witness :
    Clone exampleDeps (fsSys (.ok "/home/u") none none) id exampleCfg
        "https://github.com/owner/repo" "" false false
        (St.mk ["/home/u/scm/repo", "/home/u/scm/repo/.git"] [])
      = (("/home/u/scm/repo", none),
          St.mk ["/home/u/scm/repo", "/home/u/scm/repo/.git"]
            ([] ++ [Event.uiRepoAlreadyExists "/home/u/scm/repo"])) :=
  (Clone_existing_repo_noop exampleDeps (fsSys (.ok "/home/u") none none) id exampleCfg
    "https://github.com/owner/repo" "" false
    (St.mk ["/home/u/scm/repo", "/home/u/scm/repo/.git"] []) "/home/u/scm/repo"
    (by rfl) (by rfl) (by decide) (by decide)).1

/-- C12: a dry `Clone` whose resolution succeeds returns
`(GetClonePath(cfg, inputUrl, creDir), nil)`; the world is left as it was and the only
effect is the printed plan, whatever the state of the target directory. -/
theorem Clone_dry_no_effects {W : Type} (U : UrlDeps) (S : Sys W)
    (caseTable : Char → Char) (cfg : GitrConfig) (inputUrl token : String) (creDir : Bool)
    (st : St W) (loc : String)
    (hidem : U.StripQueryParams (U.StripQueryParams inputUrl) = U.StripQueryParams inputUrl)
    (hloc : GetClonePath U (S.Getwd st.world) cfg inputUrl creDir = .ok loc) :
    ∃ ev, Clone U S caseTable cfg inputUrl token creDir true st
        = ((loc, none), St.mk st.world (st.trace ++ [ev])) ∧
      ev.isMutation = false ∧ ev.isTransport = false := by
  obtain ⟨s, rp, hm, hs, hrp, hh⟩ :=
    GetClonePath_ok_inv U (S.Getwd st.world) cfg inputUrl creDir loc hloc
  have hloc2 := GetClonePath_strip U (S.Getwd st.world) cfg inputUrl creDir hidem
  rw [hloc] at hloc2
  obtain ⟨loc3, hloc3⟩ := GetClonePath_ok_of_ok U (S.Getwd st.world) cfg
    (U.StripQueryParams inputUrl) creDir (creDir || s.Clone.AlwaysCreDir) loc hloc2
  refine ⟨Event.printCloneInfo (U.StripQueryParams inputUrl) s.Provider s.Hostname
    (GetRepoName rp) (GetSshCloneUrl s.Hostname rp) (GetHttpCloneUrl s.Hostname rp s.Scheme)
    (s.Clone.AlwaysCreDir || (creDir || s.Clone.AlwaysCreDir)) hm loc3, ?_, rfl, rfl⟩
  simp [Clone, hs, hrp, hloc2, printGitrCloneInfo, hh, hloc3, St.log]

/-- C12 (instance): a dry run on a browser url; the target directory exists without
`.git` and is left alone. -/
theorem Clone_dry_no_effects_witness :
    ∃ ev, Clone exampleDeps (fsSys (.ok "/home/u") none none) id exampleCfg
        "https://github.com/owner/repo?utm_source=x" "" false true
        (St.mk ["/home/u/scm/repo"] [])
        = (("/home/u/scm/repo", none), St.mk ["/home/u/scm/repo"] ([] ++ [ev])) ∧
      ev.isMutation = false ∧ ev.isTransport = false :=
  Clone_dry_no_effects exampleDeps (fsSys (.ok "/home/u") none none) id exampleCfg
    "https://github.com/owner/repo?utm_source=x" "" false
    (St.mk ["/home/u/scm/repo"] []) "/home/u/scm/repo" (by rfl) (by rfl)

/-- C13 (evaluation at the failing input): on the browser url
`https://bitbucket.org/owner/repo` of a BitBucket Cloud host, a non-dry `Clone` prints
the warning and returns the empty path with a nil error; no transport is attempted. -/
theorem Clone_bitbucket_browser_nil_error :
    IsGitUrl (exampleDeps.StripQueryParams "https://bitbucket.org/owner/repo") = false ∧
    exampleDeps.GetScmHost bitbucketCfg
      (exampleDeps.GetHostname "https://bitbucket.org/owner/repo") = .ok bitbucketHost ∧
    Clone exampleDeps (scriptedSys none none) id bitbucketCfg
        "https://bitbucket.org/owner/repo" "" false false st0
      = (("", none),
          St.mk () [Event.uiWarn "Unsupported URL Format"
            "gitr does not support clone using browser URLs for BitBucket. Please use SSH or HTTPS clone URLs instead."]) := by
  refine ⟨by decide, by rfl, by rfl⟩

/-! ## `Clone` on HTTPS git urls and on plan failures -/

theorem Clone_reaches_transport {W : Type} (U : UrlDeps) (S : Sys W)
    (caseTable : Char → Char) (cfg : GitrConfig) (inputUrl token : String) (creDir : Bool)
    (st : St W) (s : ScmHost) (rp loc : String) (stp : St W)
    (h : ReachesTransport U S cfg inputUrl creDir st s rp loc stp) :
    Clone U S caseTable cfg inputUrl token creDir false st
      = Clone.transport S caseTable s (U.StripQueryParams inputUrl) token rp loc stp := by
  obtain ⟨hs, hrp, hloc, hdir⟩ := h
  rcases hdir with ⟨hd, rfl⟩ | ⟨hd, hgit, hrm⟩
  · simp [Clone, hs, hrp, hloc, hd]
  · simp [Clone, hs, hrp, hloc, hd, hgit, hrm]

theorem transport_trace {W : Type} (U : UrlDeps) (S : Sys W) (cfg : GitrConfig)
    (inputUrl : String) (creDir : Bool) (st : St W) (s : ScmHost) (rp loc : String)
    (stp : St W) (h : ReachesTransport U S cfg inputUrl creDir st s rp loc stp) :
    stp = st ∨ stp.trace = st.trace ++ [Event.removeAll loc] := by
  obtain ⟨-, -, -, hdir⟩ := h
  rcases hdir with ⟨-, rfl⟩ | ⟨-, -, hrm⟩
  · exact Or.inl rfl
  · right
    simp only [removeAll, Prod.mk.injEq] at hrm
    rw [← hrm.2]

theorem httpsGitClone_trace {W : Type} (S : Sys W) (u t p : String) (st : St W) :
    (httpsGitClone S u t p st).2.trace = st.trace ++ Event.mkdirAll p ::
      (if (S.MkdirAll st.world p).2.isNone then [Event.plainClone p u (some t)] else []) := by
  unfold httpsGitClone mkdirAll plainClone
  cases h1 : (S.MkdirAll st.world p).2 with
  | some err => simp [h1]
  | none =>
    simp only [h1]
    cases h2 : (S.PlainClone (S.MkdirAll st.world p).1 p u (some t)).2 <;> simp [h2]

theorem getHttpsCloneToken_of_file {W : Type} (S : Sys W) (hostname home t : String) (w : W)
    (hh : S.UserHomeDir w = .ok home)
    (hex : S.IsFileExists w
      (S.GetAbsPath w (S.Join [home, ".personal_access_tokens", hostname])) = true)
    (hrd : S.ReadFile w
      (S.GetAbsPath w (S.Join [home, ".personal_access_tokens", hostname])) = .ok t) :
    getHttpsCloneToken S hostname w = .ok t := by
  simp [getHttpsCloneToken, hh, hex, hrd]

theorem getHttpsCloneToken_of_no_token {W : Type} (S : Sys W) (hostname home : String)
    (w : W) (hh : S.UserHomeDir w = .ok home)
    (hno : S.IsFileExists w
        (S.GetAbsPath w (S.Join [home, ".personal_access_tokens", hostname])) = false ∨
      S.ReadFile w
        (S.GetAbsPath w (S.Join [home, ".personal_access_tokens", hostname])) = .ok "") :
    getHttpsCloneToken S hostname w = .ok "" := by
  rcases hno with hno | hno
  · simp [getHttpsCloneToken, hh, hno]
  · cases hex : S.IsFileExists w
        (S.GetAbsPath w (S.Join [home, ".personal_access_tokens", hostname])) with
    | false => simp [getHttpsCloneToken, hh, hex]
    | true => simp [getHttpsCloneToken, hh, hex, hno]

/-- C14 (counterexample): for the HTTPS git url `https://github.com/owner/repo.git`,
without explicit token and without token file, `Clone` runs the `git` subprocess on the
derived ssh url; it succeeds, and no HTTP(S) transport is attempted at all.  For the HTTPS
git url `https://bitbucket.org/owner/repo.git` on a BitBucket host, again without any
token, `Clone` attempts no transport at all. -/
theorem Clone_https_git_url_attempts_ssh :
    IsGitUrl (exampleDeps.StripQueryParams "https://github.com/owner/repo.git") = true ∧
    IsGitSshUrl (exampleDeps.StripQueryParams "https://github.com/owner/repo.git") = false ∧
    Clone exampleDeps (scriptedSys none none) id exampleCfg
        "https://github.com/owner/repo.git" "" false false st0
      = (("/home/u/scm/repo", none),
          St.mk () [Event.uiCloning "git@github.com:owner/repo.git",
            Event.mkdirAll "/home/u/scm/repo",
            Event.gitCloneExec "git@github.com:owner/repo.git" "/home/u/scm/repo"]) ∧
    IsGitUrl (exampleDeps.StripQueryParams "https://bitbucket.org/owner/repo.git") = true ∧
    IsGitSshUrl (exampleDeps.StripQueryParams "https://bitbucket.org/owner/repo.git")
      = false ∧
    Clone exampleDeps (scriptedSys none none) id bitbucketCfg
        "https://bitbucket.org/owner/repo.git" "" false false st0
      = (("", none),
          St.mk () [Event.uiWarn "Unsupported URL Format"
            "gitr does not support clone using browser URLs for BitBucket. Please use SSH or HTTPS clone URLs instead."]) := by
  refine ⟨by decide, by decide, by rfl, by decide, by decide, by rfl⟩

/-- C14 (amended): for an HTTPS git url (a git url that is not an ssh url) on which
`Clone` reaches the transport step: with a non-empty explicit token, or else with an
existing token file `<home>/.personal_access_tokens/<hostname>` of non-empty content,
`Clone` runs exactly the token-authenticated clone with that token on the input url: its
effects are the directory creation and one go-git clone carrying the token, and no SSH
attempt.  With no token at all (no explicit token, and the token file absent or empty) on
a host whose provider is not a BitBucket one, `Clone` runs the SSH attempt on the derived
ssh url first: it returns the clone path when that succeeds, fails without further attempt
on a not-found failure, and otherwise removes the directory and makes one anonymous HTTP
attempt on the derived http url. -/
theorem Clone_https_git_url {W : Type} (U : UrlDeps) (S : Sys W)
    (caseTable : Char → Char) (cfg : GitrConfig) (inputUrl token : String) (creDir : Bool)
    (st : St W) (s : ScmHost) (rp loc : String) (stp : St W)
    (h : ReachesTransport U S cfg inputUrl creDir st s rp loc stp)
    (hgit : IsGitUrl (U.StripQueryParams inputUrl) = true)
    (hssh : IsGitSshUrl (U.StripQueryParams inputUrl) = false) :
    (token ≠ "" →
      Clone U S caseTable cfg inputUrl token creDir false st
        = afterHttpsGitClone loc
            (httpsGitClone S (U.StripQueryParams inputUrl) token loc stp)) ∧
    (token = "" → ∀ home t, S.UserHomeDir stp.world = .ok home →
      S.IsFileExists stp.world (S.GetAbsPath stp.world
        (S.Join [home, ".personal_access_tokens", s.Hostname])) = true →
      S.ReadFile stp.world (S.GetAbsPath stp.world
        (S.Join [home, ".personal_access_tokens", s.Hostname])) = .ok t →
      t ≠ "" →
      Clone U S caseTable cfg inputUrl token creDir false st
        = afterHttpsGitClone loc
            (httpsGitClone S (U.StripQueryParams inputUrl) t loc stp)) ∧
    (∀ t, (httpsGitClone S (U.StripQueryParams inputUrl) t loc stp).2.trace
        = stp.trace ++ Event.mkdirAll loc ::
          (if (S.MkdirAll stp.world loc).2.isNone
           then [Event.plainClone loc (U.StripQueryParams inputUrl) (some t)] else []) ∧
      ∀ ev, ev ∈ (Event.mkdirAll loc ::
          (if (S.MkdirAll stp.world loc).2.isNone
           then [Event.plainClone loc (U.StripQueryParams inputUrl) (some t)] else [])) →
        ev.isSshAttempt = false) ∧
    (token = "" → ∀ home, S.UserHomeDir stp.world = .ok home →
      (S.IsFileExists stp.world (S.GetAbsPath stp.world
          (S.Join [home, ".personal_access_tokens", s.Hostname])) = false ∨
        S.ReadFile stp.world (S.GetAbsPath stp.world
          (S.Join [home, ".personal_access_tokens", s.Hostname])) = .ok "") →
      s.Provider ≠ ScmProvider.BitBucketDatacenter →
      s.Provider ≠ ScmProvider.BitBucketCloud →
      (∀ st1, sshClone S (GetSshCloneUrl s.Hostname rp) loc
          (stp.log (Event.uiCloning (GetSshCloneUrl s.Hostname rp))) = (none, st1) →
        Clone U S caseTable cfg inputUrl token creDir false st = ((loc, none), st1)) ∧
      (∀ e st1, sshClone S (GetSshCloneUrl s.Hostname rp) loc
          (stp.log (Event.uiCloning (GetSshCloneUrl s.Hostname rp))) = (some e, st1) →
        Clone U S caseTable cfg inputUrl token creDir false st
          = if isRepoNotFoundError caseTable (some e) then
              (("", some repoNotFoundText), st1)
            else afterHttpAttempt loc
              (httpClone S (GetHttpCloneUrl s.Hostname rp s.Scheme) loc
                (removeAll S loc st1).2))) := by
  have hC := Clone_reaches_transport U S caseTable cfg inputUrl token creDir st s rp loc stp h
  refine ⟨?_, ?_, ?_, ?_⟩
  · intro ht
    rw [hC]
    simp only [Clone.transport, hgit, hssh, ht, afterHttpsGitClone]
    simp only [if_true, Bool.false_eq_true, if_false, ne_eq, not_false_eq_true]
    split <;> simp_all
  · intro ht home t hh hex hrd hne
    have hget := getHttpsCloneToken_of_file S s.Hostname home t stp.world hh hex hrd
    rw [hC]
    simp only [Clone.transport, hgit, hssh, ht, hget, afterHttpsGitClone]
    simp only [if_true, Bool.false_eq_true, if_false, ne_eq, hne, not_false_eq_true]
  · intro t
    refine ⟨httpsGitClone_trace S _ t loc stp, ?_⟩
    intro ev hev
    split at hev
    · simp only [List.mem_cons, List.mem_singleton, List.not_mem_nil, or_false] at hev
      rcases hev with rfl | rfl <;> rfl
    · simp only [List.mem_cons, List.not_mem_nil, or_false] at hev
      subst hev
      rfl
  · intro ht home hh hno hp1 hp2
    have hget := getHttpsCloneToken_of_no_token S s.Hostname home stp.world hh hno
    have hE : Clone U S caseTable cfg inputUrl token creDir false st
        = Clone.sshThenHttp S caseTable s rp loc stp := by
      rw [hC]
      simp [Clone.transport, hgit, hssh, ht, hget]
    refine ⟨?_, ?_⟩
    · intro st1 hs1
      rw [hE]
      simp [Clone.sshThenHttp, hp1, hp2, hs1]
    · intro e st1 hs1
      rw [hE]
      exact sshThenHttp_of_failure S caseTable s rp loc stp st1 e ⟨hp1, hp2⟩ hs1

/-- C14 (amended, instances): with the explicit token `tok`, and with the token file
content `filetok`, the clone is the token-authenticated go-git clone of the input url and
nothing else; with an empty token file the clone is the SSH attempt on the derived url. -/
theorem Clone_https_git_url_witness :
    Clone exampleDeps (scriptedSys none none) id exampleCfg
        "https://github.com/owner/repo.git" "tok" false false st0
      = (("/home/u/scm/repo", none),
          St.mk () [Event.mkdirAll "/home/u/scm/repo",
            Event.plainClone "/home/u/scm/repo" "https://github.com/owner/repo.git"
              (some "tok")]) ∧
    Clone exampleDeps (tokenFileSys "filetok" none none) id exampleCfg
        "https://github.com/owner/repo.git" "" false false st0
      = (("/home/u/scm/repo", none),
          St.mk () [Event.mkdirAll "/home/u/scm/repo",
            Event.plainClone "/home/u/scm/repo" "https://github.com/owner/repo.git"
              (some "filetok")]) ∧
    Clone exampleDeps (tokenFileSys "" none none) id exampleCfg
        "https://github.com/owner/repo.git" "" false false st0
      = (("/home/u/scm/repo", none),
          St.mk () [Event.uiCloning "git@github.com:owner/repo.git",
            Event.mkdirAll "/home/u/scm/repo",
            Event.gitCloneExec "git@github.com:owner/repo.git" "/home/u/scm/repo"]) :=
  ⟨(Clone_https_git_url exampleDeps (scriptedSys none none) id exampleCfg
      "https://github.com/owner/repo.git" "tok" false st0 exampleHost "owner/repo"
      "/home/u/scm/repo" st0 ⟨rfl, rfl, rfl, Or.inl ⟨rfl, rfl⟩⟩ (by decide) (by decide)).1
      (by decide),
   (Clone_https_git_url exampleDeps (tokenFileSys "filetok" none none) id exampleCfg
      "https://github.com/owner/repo.git" "" false st0 exampleHost "owner/repo"
      "/home/u/scm/repo" st0 ⟨rfl, rfl, rfl, Or.inl ⟨rfl, rfl⟩⟩ (by decide)
      (by decide)).2.1 rfl "/home/u" "filetok" rfl (by decide) (by rfl) (by decide),
   ((Clone_https_git_url exampleDeps (tokenFileSys "" none none) id exampleCfg
      "https://github.com/owner/repo.git" "" false st0 exampleHost "owner/repo"
      "/home/u/scm/repo" st0 ⟨rfl, rfl, rfl, Or.inl ⟨rfl, rfl⟩⟩ (by decide)
      (by decide)).2.2.2 rfl "/home/u" rfl (Or.inr (by rfl)) (by decide)
      (by decide)).1
      (St.mk () [Event.uiCloning "git@github.com:owner/repo.git",
        Event.mkdirAll "/home/u/scm/repo",
        Event.gitCloneExec "git@github.com:owner/repo.git" "/home/u/scm/repo"]) rfl⟩

/-- C15 (counterexample): the target directory exists without `.git`, the url is an
HTTPS git url without explicit token, and the home directory lookup of the token-file
resolution fails: `Clone` returns the empty path and an error, but the target directory
has been removed before the failure. -/
theorem Clone_credential_failure_after_removal :
    Clone exampleDeps (fsSys (.error "$HOME is not defined") none none) id exampleCfg
        "https://github.com/owner/repo.git" "" false false
        (St.mk ["/home/u/scm/repo"] [])
      = (("", some ("failed to check if https clone token is configured: " ++
            "failed to get user home dir: $HOME is not defined")),
          St.mk [] [Event.removeAll "/home/u/scm/repo"]) ∧
    (Event.removeAll "/home/u/scm/repo").isMutation = true := by
  refine ⟨by rfl, rfl⟩

/-- C15 (amended): when `Clone` fails at host lookup, repo-path extraction or clone-path
resolution it returns the empty path and an error in the unchanged state (no mutation, no
transport).  When it fails at the token-file resolution it returns the empty path and an
error in the state the directory preparation left: no directory creation and no
transport, the only possible mutation being the earlier removal of an existing target
directory without `.git`. -/
theorem Clone_plan_failure {W : Type} (U : UrlDeps) (S : Sys W)
    (caseTable : Char → Char) (cfg : GitrConfig) (inputUrl token : String)
    (creDir dry : Bool) (st : St W) :
    (∀ e, U.GetScmHost cfg (U.GetHostname (U.StripQueryParams inputUrl)) = .error e →
      Clone U S caseTable cfg inputUrl token creDir dry st
        = (("", some (Wrapf e "failed to clone git repo with %s url"
            [U.StripQueryParams inputUrl])), st)) ∧
    (∀ s e, U.GetScmHost cfg (U.GetHostname (U.StripQueryParams inputUrl)) = .ok s →
      U.GetRepoPath (U.StripQueryParams inputUrl) s.Hostname s.Provider = .error e →
      Clone U S caseTable cfg inputUrl token creDir dry st
        = (("", some (Wrap e "failed to get repo path")), st)) ∧
    (∀ s rp e, U.GetScmHost cfg (U.GetHostname (U.StripQueryParams inputUrl)) = .ok s →
      U.GetRepoPath (U.StripQueryParams inputUrl) s.Hostname s.Provider = .ok rp →
      GetClonePath U (S.Getwd st.world) cfg (U.StripQueryParams inputUrl) creDir = .error e →
      Clone U S caseTable cfg inputUrl token creDir dry st
        = (("", some (Wrap e "failed to get clone path")), st)) ∧
    (∀ s rp loc stp e, dry = false →
      ReachesTransport U S cfg inputUrl creDir st s rp loc stp →
      IsGitUrl (U.StripQueryParams inputUrl) = true →
      IsGitSshUrl (U.StripQueryParams inputUrl) = false →
      token = "" →
      getHttpsCloneToken S s.Hostname stp.world = .error e →
      Clone U S caseTable cfg inputUrl token creDir dry st
        = (("", some (Wrap e "failed to check if https clone token is configured")), stp) ∧
      (stp = st ∨ stp.trace = st.trace ++ [Event.removeAll loc])) := by
  refine ⟨?_, ?_, ?_, ?_⟩
  · intro e he
    simp [Clone, he]
  · intro s e hs he
    simp [Clone, hs, he]
  · intro s rp e hs hrp he
    simp [Clone, hs, hrp, he]
  · intro s rp loc stp e hdry h hgit hssh ht he
    subst hdry
    refine ⟨?_, transport_trace U S cfg inputUrl creDir st s rp loc stp h⟩
    rw [Clone_reaches_transport U S caseTable cfg inputUrl token creDir st s rp loc stp h]
    simp [Clone.transport, hgit, hssh, ht, he]

/-- C15 (amended, instance): the host of the url is not configured; the clone fails at
host lookup in the unchanged state. -/
theorem Clone_plan_failure_witness :
    Clone exampleDeps (fsSys (.ok "/home/u") none none) id exampleCfg
        "https://example.org/owner/repo" "" false false (St.mk ["/home/u/scm/repo"] [])
      = (("", some (Wrapf "scm host not found" "failed to clone git repo with %s url"
            [exampleDeps.StripQueryParams "https://example.org/owner/repo"])),
          St.mk ["/home/u/scm/repo"] []) :=
  (Clone_plan_failure exampleDeps (fsSys (.ok "/home/u") none none) id exampleCfg
    "https://example.org/owner/repo" "" false false (St.mk ["/home/u/scm/repo"] [])).1
    "scm host not found" (by rfl)

/-! ## The progress writer: line assembly -/

theorem findLineEnd_none_iff (buf : List Char) :
    findLineEnd buf = none ↔ ∀ c ∈ buf, ¬ (c = '\n' ∨ c = '\r') := by
  induction buf with
  | nil => simp [findLineEnd]
  | cons b rest ih =>
    by_cases hb : b = '\n' ∨ b = '\r'
    · constructor
      · intro h
        simp [findLineEnd, hb] at h
      · intro h
        exact absurd hb (h b (by simp))
    · simp only [findLineEnd, hb, if_false, Option.map_eq_none', ih, List.mem_cons, forall_eq_or_imp,
        not_false_eq_true, true_and]

theorem cutAtTerminators_of_none (buf : List Char) :
    ∀ cur, findLineEnd buf = none → cutAtTerminators cur buf = ([], cur ++ buf) := by
  induction buf with
  | nil => intro cur _; simp [cutAtTerminators]
  | cons b rest ih =>
    intro cur h
    by_cases hb : b = '\n' ∨ b = '\r'
    · simp [findLineEnd, hb] at h
    · simp only [findLineEnd, hb, if_false, Option.map_eq_none'] at h
      have hb' : ¬ (b = '\r' ∨ b = '\n') := fun h' => hb h'.symm
      rw [cutAtTerminators]
      · simp [hb', ih (cur ++ [b]) h]
      · intro rest2 h1 _
        exact hb (Or.inr h1)

theorem cutAtTerminators_of_some (buf : List Char) :
    ∀ cur idx, findLineEnd buf = some idx →
      cutAtTerminators cur buf
        = (String.mk (cur ++ buf.take idx) :: (cutAtTerminators [] (buf.drop (skipOf buf idx))).1,
            (cutAtTerminators [] (buf.drop (skipOf buf idx))).2) := by
  induction buf with
  | nil => intro cur idx h; simp [findLineEnd] at h
  | cons b rest ih =>
    intro cur idx h
    by_cases hr : b = '\r'
    · subst hr
      simp [findLineEnd] at h
      subst h
      cases rest with
      | nil => simp [cutAtTerminators, skipOf]
      | cons c rest2 =>
        by_cases hc : c = '\n'
        · subst hc
          simp [cutAtTerminators, skipOf]
        · rw [cutAtTerminators]
          · simp [skipOf, hc]
          · intro rest3 _ h2
            simp only [List.cons.injEq] at h2
            exact hc h2.1
    · by_cases hn : b = '\n'
      · subst hn
        simp [findLineEnd] at h
        subst h
        rw [cutAtTerminators]
        · simp [skipOf]
        · intro rest3 h1
          simp at h1
      · have hb : ¬ (b = '\n' ∨ b = '\r') := by simp [hr, hn]
        have hb' : ¬ (b = '\r' ∨ b = '\n') := by simp [hr, hn]
        simp only [findLineEnd, hb, if_false, Option.map_eq_some'] at h
        obtain ⟨j, hj, rfl⟩ := h
        rw [cutAtTerminators]
        · have hsk : skipOf (b :: rest) (j + 1) = skipOf rest j + 1 := by
            simp [skipOf]
            split <;> rfl
          simp [hb', ih (cur ++ [b]) j hj, hsk]
        · intro rest2 h1 _
          exact hr h1

theorem findLineEnd_lt (buf : List Char) : ∀ idx, findLineEnd buf = some idx → idx < buf.length := by
  induction buf with
  | nil => intro idx h; simp [findLineEnd] at h
  | cons b rest ih =>
    intro idx h
    by_cases hb : b = '\n' ∨ b = '\r'
    · simp [findLineEnd, hb] at h
      subst h
      simp
    · simp only [findLineEnd, hb, if_false, Option.map_eq_some'] at h
      obtain ⟨j, hj, rfl⟩ := h
      have := ih j hj
      simp
      omega

theorem skipOf_pos (buf : List Char) (idx : Nat) : idx + 1 ≤ skipOf buf idx := by
  unfold skipOf
  split <;> omega

theorem writeLoop_eq_cut {σ : Type} (parseLine : σ → String → σ) :
    ∀ (fuel : Nat) (s : σ) (buf : List Char), buf.length ≤ fuel →
      writeLoop parseLine fuel s buf
        = ((cutAtTerminators [] buf).1.foldl parseLine s, (cutAtTerminators [] buf).2) := by
  intro fuel
  induction fuel with
  | zero =>
    intro s buf h
    have : buf = [] := List.length_eq_zero.1 (Nat.le_zero.1 h)
    subst this
    simp [writeLoop, cutAtTerminators]
  | succ n ih =>
    intro s buf h
    cases hf : findLineEnd buf with
    | none =>
      simp [writeLoop, hf, cutAtTerminators_of_none buf [] hf]
    | some idx =>
      have hlt := findLineEnd_lt buf idx hf
      have hsk := skipOf_pos buf idx
      have hlen : (buf.drop (skipOf buf idx)).length ≤ n := by
        simp only [List.length_drop]
        omega
      have hcut := cutAtTerminators_of_some buf [] idx hf
      simp only [List.nil_append] at hcut
      simp only [writeLoop, hf]
      have := ih (parseLine s (String.mk (buf.take idx))) (buf.drop (skipOf buf idx)) hlen
      simp only [skipOf] at this hcut
      rw [this, hcut]
      simp

theorem cut_tail_unterminated :
    ∀ (n : Nat) (buf cur : List Char), buf.length ≤ n → findLineEnd cur = none →
      findLineEnd (cutAtTerminators cur buf).2 = none := by
  intro n
  induction n with
  | zero =>
    intro buf cur h hc
    have : buf = [] := List.length_eq_zero.1 (Nat.le_zero.1 h)
    subst this
    simpa [cutAtTerminators] using hc
  | succ n ih =>
    intro buf cur h hc
    cases hf : findLineEnd buf with
    | none =>
      rw [cutAtTerminators_of_none buf cur hf]
      rw [findLineEnd_none_iff] at hc hf ⊢
      intro c hcm
      rcases List.mem_append.1 hcm with h1 | h1
      · exact hc c h1
      · exact hf c h1
    | some idx =>
      have hlt := findLineEnd_lt buf idx hf
      have hsk := skipOf_pos buf idx
      have hlen : (buf.drop (skipOf buf idx)).length ≤ n := by
        simp only [List.length_drop]
        omega
      rw [cutAtTerminators_of_some buf cur idx hf]
      exact ih _ [] hlen rfl

/-- C16: one `Write` of the bytes `p` to a fresh `ProgressWriter` hands to `ParseLine`, in
order, exactly the pieces of `p` cut at the line terminators `\r\n`, `\n` and `\r` (with
`\r\n` counted once); this holds for every observer of the lines handed over, and the
unterminated tail stays in the buffer, unparsed. -/
theorem Write_hands_cut_lines (parser : GitProgressParser) (p : List Char) :
    (NewProgressWriter parser).Write p
      = { parser := (cutAtTerminators [] p).1.foldl GitProgressParser.ParseLine parser,
          buf := (cutAtTerminators [] p).2 } ∧
    (∀ (σ : Type) (observe : σ → String → σ) (s : σ),
      writeLoop observe p.length s p
        = ((cutAtTerminators [] p).1.foldl observe s, (cutAtTerminators [] p).2)) ∧
    findLineEnd ((NewProgressWriter parser).Write p).buf = none := by
  have h1 : (NewProgressWriter parser).Write p
      = { parser := (cutAtTerminators [] p).1.foldl GitProgressParser.ParseLine parser,
          buf := (cutAtTerminators [] p).2 } := by
    simp only [ProgressWriter.Write, NewProgressWriter, List.nil_append]
    rw [writeLoop_eq_cut GitProgressParser.ParseLine p.length parser p (Nat.le_refl _)]
  refine ⟨h1, ?_, ?_⟩
  · intro σ observe s
    exact writeLoop_eq_cut observe p.length s p (Nat.le_refl _)
  · rw [h1]
    exact cut_tail_unterminated p.length p [] (Nat.le_refl _) rfl

/-! ## The progress parser: patterns -/

theorem findLeftmost_self {α : Type} (m : List Char → Option α) (l : List Char) (r : α)
    (h : m l = some r) : findLeftmost m l = some r := by
  cases l with
  | nil => simpa [findLeftmost] using h
  | cons c t => simp [findLeftmost, h]

theorem findLeftmost_isSome_append {α : Type} (m : List Char → Option α) (l : List Char)
    (h : (m l).isSome = true) : ∀ pre, (findLeftmost m (pre ++ l)).isSome = true := by
  intro pre
  induction pre with
  | nil =>
    obtain ⟨r, hr⟩ := Option.isSome_iff_exists.1 h
    simp [findLeftmost_self m l r hr]
  | cons c t ih =>
    simp only [List.cons_append, findLeftmost]
    cases hm : m (c :: (t ++ l)) with
    | some r => simp
    | none => simpa using ih

theorem findLeftmost_some_inv {α : Type} (m : List Char → Option α) :
    ∀ (l : List Char) (r : α), findLeftmost m l = some r →
      ∃ a b, l = a ++ b ∧ m b = some r := by
  intro l
  induction l with
  | nil =>
    intro r h
    exact ⟨[], [], rfl, by simpa [findLeftmost] using h⟩
  | cons c t ih =>
    intro r h
    simp only [findLeftmost] at h
    cases hm : m (c :: t) with
    | some r2 =>
      simp only [hm, Option.some.injEq] at h
      subst h
      exact ⟨[], c :: t, rfl, hm⟩
    | none =>
      simp only [hm] at h
      obtain ⟨a, b, hab, hb⟩ := ih r h
      exact ⟨c :: a, b, by simp [hab], hb⟩

theorem findLeftmost_skip {α : Type} (m : List Char → Option α) (l : List Char) :
    ∀ pre : List Char, (∀ a b, pre = a ++ b → b ≠ [] → m (b ++ l) = none) →
      findLeftmost m (pre ++ l) = findLeftmost m l := by
  intro pre
  induction pre with
  | nil => intro _; rfl
  | cons c t ih =>
    intro h
    have h0 := h [] (c :: t) rfl (by simp)
    simp only [List.cons_append] at h0
    have e : findLeftmost m (c :: t ++ l) = findLeftmost m (t ++ l) := by
      show findLeftmost m (c :: (t ++ l)) = _
      rw [findLeftmost, h0]
    rw [e]
    apply ih
    intro a b hab hb
    exact h (c :: a) b (by simp [hab]) hb

theorem findLeftmost_none {α : Type} (m : List Char → Option α) :
    ∀ l : List Char, (∀ a b, l = a ++ b → m b = none) → findLeftmost m l = none := by
  intro l
  induction l with
  | nil => intro h; simpa [findLeftmost] using h [] [] rfl
  | cons c t ih =>
    intro h
    simp only [findLeftmost, h [] (c :: t) rfl]
    apply ih
    intro a b hab
    exact h (c :: a) b (by simp [hab])

theorem reLit_append (lit r : List Char) : reLit lit (lit ++ r) = some r := by
  have : lit.isPrefixOf (lit ++ r) = true := List.isPrefixOf_iff_prefix.2 (List.prefix_append _ _)
  simp [reLit, this]

theorem doneRe_of_suffix (t : String)
    (h : HasSuffix t "done." = true ∨ HasSuffix t "done" = true) : doneRe t = true := by
  rcases h with h | h
  · obtain ⟨q, rfl⟩ := (HasSuffix_iff _ _).1 h
    simp only [doneRe, String.data_append]
    exact findLeftmost_isSome_append reDoneAt "done.".data (by decide) q.data
  · obtain ⟨q, rfl⟩ := (HasSuffix_iff _ _).1 h
    simp only [doneRe, String.data_append]
    exact findLeftmost_isSome_append reDoneAt "done".data (by decide) q.data

theorem ParseLine_done (p : GitProgressParser) (line : String)
    (h : HasSuffix (TrimSpace line) "done." = true ∨ HasSuffix (TrimSpace line) "done" = true) :
    p.ParseLine line = p := by
  have hd := doneRe_of_suffix (TrimSpace line) h
  simp [GitProgressParser.ParseLine, hd]


theorem span_append_stop (p : Char → Bool) (a b : List Char) (ha : ∀ x ∈ a, p x = true)
    (hb : ∀ c ∈ b.head?, p c = false) :
    (a ++ b).takeWhile p = a ∧ (a ++ b).dropWhile p = b := by
  rw [List.takeWhile_append_of_pos ha, List.dropWhile_append_of_pos ha]
  cases b with
  | nil => simp
  | cons c r =>
    have hc : p c = false := hb c (by simp)
    simp [hc]

theorem isReSpace_of_digit (c : Char) (h : isReDigit c = true) : isReSpace c = false := by
  simp only [isReDigit, Bool.and_eq_true, decide_eq_true_eq] at h
  have h9 : c ≠ '\t' := by rintro rfl; simp at h
  have h10 : c ≠ '\n' := by rintro rfl; simp at h
  have h12 : c ≠ '\x0c' := by rintro rfl; simp at h
  have h13 : c ≠ '\r' := by rintro rfl; simp at h
  have h32 : c ≠ ' ' := by rintro rfl; simp at h
  simp [isReSpace, h9, h10, h12, h13, h32]

theorem reSpaces_append (ws r : List Char) (hws : ∀ c ∈ ws, isReSpace c = true)
    (hr : ∀ c ∈ r.head?, isReSpace c = false) : reSpaces (ws ++ r) = r :=
  (span_append_stop isReSpace ws r hws hr).2

theorem reDigits_append (ds r : List Char) (hne : ds ≠ [])
    (hds : ∀ c ∈ ds, isReDigit c = true) (hr : ∀ c ∈ r.head?, isReDigit c = false) :
    reDigits (ds ++ r) = some (ds, r) := by
  obtain ⟨h1, h2⟩ := span_append_stop isReDigit ds r hds hr
  simp [reDigits, h1, h2, hne]

theorem head_digits (ds r : List Char) (hne : ds ≠ []) (hds : ∀ c ∈ ds, isReDigit c = true) :
    ∀ c ∈ (ds ++ r).head?, isReSpace c = false := by
  cases ds with
  | nil => exact absurd rfl hne
  | cons d t =>
    intro c hc
    simp at hc
    subst hc
    exact isReSpace_of_digit _ (hds _ (by simp))

theorem reLit_some_inv (lit l r : List Char) (h : reLit lit l = some r) : l = lit ++ r := by
  unfold reLit at h
  split at h
  · rename_i hp
    obtain ⟨t, ht⟩ := List.isPrefixOf_iff_prefix.1 hp
    simp only [Option.some.injEq] at h
    subst ht
    simp at h
    rw [h]
  · simp at h

theorem dropWhile_head (p : Char → Bool) :
    ∀ (l : List Char) (c : Char) (r : List Char), l.dropWhile p = c :: r → p c = false := by
  intro l
  induction l with
  | nil => intro c r h; simp at h
  | cons x t ih =>
    intro c r h
    by_cases hx : p x = true
    · rw [List.dropWhile_cons_of_pos hx] at h
      exact ih c r h
    · rw [List.dropWhile_cons_of_neg hx] at h
      simp only [List.cons.injEq] at h
      rw [← h.1]
      simpa using hx

theorem dropEndWhile_last (p : Char → Bool) (l x : List Char) (c : Char)
    (h : dropEndWhile p l = x ++ [c]) : p c = false := by
  unfold dropEndWhile at h
  have h2 : l.reverse.dropWhile p = c :: x.reverse := by
    have := congrArg List.reverse h
    simpa using this
  exact dropWhile_head p _ c _ h2

theorem IsSpace_of_isReSpace (c : Char) (h : isReSpace c = true) : IsSpace c = true := by
  simp only [isReSpace, Bool.or_eq_true, beq_iff_eq] at h
  rcases h with (((h | h) | h) | h) | h <;> subst h <;> decide

theorem reDoneAt_inv (b : List Char) (h : reDoneAt b = some ()) :
    ∃ ws, (b = "done".data ++ ws ∨ b = "done.".data ++ ws) ∧ ∀ c ∈ ws, isReSpace c = true := by
  unfold reDoneAt at h
  cases hl : reLit ['d', 'o', 'n', 'e'] b with
  | none => simp [hl] at h
  | some r =>
    have hb := reLit_some_inv _ _ _ hl
    simp only [hl] at h
    split at h
    · rename_i hsp
      have hall : ∀ r1 : List Char, reSpaces r1 = [] → ∀ c ∈ r1, isReSpace c = true := by
        intro r1 h1 c hc
        have := List.dropWhile_eq_nil_iff.1 h1
        exact this c hc
      cases r with
      | nil => exact ⟨[], Or.inl (by simpa using hb), by simp⟩
      | cons x r0 =>
        by_cases hx : x = '.'
        · subst hx
          refine ⟨r0, Or.inr (by simpa using hb), hall r0 (by simpa using hsp)⟩
        · refine ⟨x :: r0, Or.inl (by simpa using hb), hall (x :: r0) ?_⟩
          split at hsp
          · rename_i heq
            simp only [List.cons.injEq] at heq
            exact absurd heq.1 hx
          · exact hsp
    · simp at h

theorem doneRe_trimmed_inv (line : String) (h : doneRe (TrimSpace line) = true) :
    HasSuffix (TrimSpace line) "done" = true ∨ HasSuffix (TrimSpace line) "done." = true := by
  unfold doneRe at h
  obtain ⟨u, hu⟩ := Option.isSome_iff_exists.1 h
  obtain ⟨a, b, hab, hb⟩ := findLeftmost_some_inv reDoneAt _ u hu
  obtain ⟨ws, hws, hsp⟩ := reDoneAt_inv b hb
  have hnil : ws = [] := by
    rcases List.eq_nil_or_concat ws with h0 | ⟨x, c, hxc⟩
    · exact h0
    · exfalso
      have hc : isReSpace c = true := hsp c (by simp [hxc])
      have hlast : ∃ y, (TrimSpace line).data = y ++ [c] := by
        rcases hws with hw | hw
        · exact ⟨a ++ "done".data ++ x, by rw [hab, hw, hxc]; simp⟩
        · exact ⟨a ++ "done.".data ++ x, by rw [hab, hw, hxc]; simp⟩
      obtain ⟨y, hy⟩ := hlast
      have := dropEndWhile_last IsSpace _ y c hy
      rw [IsSpace_of_isReSpace c hc] at this
      exact Bool.noConfusion this
  subst hnil
  rcases hws with hw | hw
  · left
    refine (HasSuffix_iff _ _).2 ⟨String.mk a, ?_⟩
    apply String.ext
    rw [hab, hw]
    simp
  · right
    refine (HasSuffix_iff _ _).2 ⟨String.mk a, ?_⟩
    apply String.ext
    rw [hab, hw]
    simp

/-! ## The progress parser: what a line does to the state -/

theorem notDone_doneRe (line : String) (h : NotDoneMarker (TrimSpace line)) :
    doneRe (TrimSpace line) = false := by
  cases hd : doneRe (TrimSpace line) with
  | false => rfl
  | true =>
    rcases doneRe_trimmed_inv line hd with h1 | h1
    · rw [h.1] at h1; exact Bool.noConfusion h1
    · rw [h.2] at h1; exact Bool.noConfusion h1

theorem enumeratingRe_eq (t : String) :
    enumeratingRe t = findLeftmost reEnumeratingAt t.data := rfl


theorem reSpaces_split (l : List Char) :
    ∃ ws, l = ws ++ reSpaces l ∧ ∀ c ∈ ws, isReSpace c = true :=
  ⟨l.takeWhile isReSpace, (List.takeWhile_append_dropWhile isReSpace l).symm,
    fun _ hc => List.mem_takeWhile_imp hc⟩

theorem reDigits_some_inv (l d r : List Char) (h : reDigits l = some (d, r)) :
    l = d ++ r ∧ d ≠ [] ∧ (∀ c ∈ d, isReDigit c = true) ∧
      ∀ c ∈ r.head?, isReDigit c = false := by
  unfold reDigits at h
  split at h
  · simp at h
  · rename_i hne
    simp only [Option.some.injEq, Prod.mk.injEq] at h
    obtain ⟨rfl, rfl⟩ := h
    refine ⟨(List.takeWhile_append_dropWhile isReDigit l).symm, hne,
      fun _ hc => List.mem_takeWhile_imp hc, ?_⟩
    intro c hc
    cases hr : l.dropWhile isReDigit with
    | nil => rw [hr] at hc; simp at hc
    | cons x t =>
      rw [hr] at hc
      simp only [List.head?_cons, Option.mem_def, Option.some.injEq] at hc
      subst hc
      exact dropWhile_head isReDigit l x t hr

theorem rePercentAt_complete (lit ws1 ws2 suf : List Char) (P C T : String)
    (hw1 : ∀ c ∈ ws1, isReSpace c = true) (hw2 : ∀ c ∈ ws2, isReSpace c = true)
    (hP : IsDigits P) (hC : IsDigits C) (hT : IsDigits T) :
    rePercentAt lit (lit ++ (ws1 ++ (P.data ++ '%' :: (ws2 ++ '(' :: (C.data ++ '/' ::
      (T.data ++ ')' :: suf)))))) = some ((P, C, T), suf) := by
  have e1 := reLit_append lit (ws1 ++ (P.data ++ '%' :: (ws2 ++ '(' :: (C.data ++ '/' ::
      (T.data ++ ')' :: suf)))))
  have e2 := reSpaces_append ws1 (P.data ++ '%' :: (ws2 ++ '(' :: (C.data ++ '/' ::
      (T.data ++ ')' :: suf)))) hw1 (head_digits _ _ hP.1 hP.2)
  have e3 := reDigits_append P.data ('%' :: (ws2 ++ '(' :: (C.data ++ '/' ::
      (T.data ++ ')' :: suf)))) hP.1 hP.2 (by simp [isReDigit])
  have e4 : reLit ['%'] ('%' :: (ws2 ++ '(' :: (C.data ++ '/' :: (T.data ++ ')' :: suf))))
      = some (ws2 ++ '(' :: (C.data ++ '/' :: (T.data ++ ')' :: suf))) := reLit_append ['%'] _
  have e5 := reSpaces_append ws2 ('(' :: (C.data ++ '/' :: (T.data ++ ')' :: suf))) hw2
    (by simp [isReSpace])
  have e6 : reLit ['('] ('(' :: (C.data ++ '/' :: (T.data ++ ')' :: suf)))
      = some (C.data ++ '/' :: (T.data ++ ')' :: suf)) := reLit_append ['('] _
  have e7 := reDigits_append C.data ('/' :: (T.data ++ ')' :: suf)) hC.1 hC.2
    (by simp [isReDigit])
  have e8 : reLit ['/'] ('/' :: (T.data ++ ')' :: suf)) = some (T.data ++ ')' :: suf) :=
    reLit_append ['/'] _
  have e9 := reDigits_append T.data (')' :: suf) hT.1 hT.2 (by simp [isReDigit])
  have e10 : reLit [')'] (')' :: suf) = some suf := reLit_append [')'] _
  simp only [rePercentAt, e1, e2, e3, e4, e5, e6, e7, e8, e9, e10]

theorem rePercentAt_complete_match (keyword : String) (m suf : List Char) (P C T : String)
    (h : PercentMatch keyword m P C T) :
    rePercentAt keyword.data (m ++ suf) = some ((P, C, T), suf) := by
  obtain ⟨ws1, ws2, rfl, hw1, hw2, hP, hC, hT⟩ := h
  have := rePercentAt_complete keyword.data ws1 ws2 suf P C T hw1 hw2 hP hC hT
  simpa using this

theorem rePercentAt_sound (keyword : String) (l r : List Char) (P C T : String)
    (h : rePercentAt keyword.data l = some ((P, C, T), r)) :
    ∃ m, l = m ++ r ∧ PercentMatch keyword m P C T := by
  unfold rePercentAt at h
  cases h0 : reLit keyword.data l with
  | none => simp [h0] at h
  | some r0 =>
    simp only [h0] at h
    cases h1 : reDigits (reSpaces r0) with
    | none => simp [h1] at h
    | some pr =>
      obtain ⟨p, r1⟩ := pr
      simp only [h1] at h
      cases h2 : reLit ['%'] r1 with
      | none => simp [h2] at h
      | some r2 =>
        simp only [h2] at h
        cases h3 : reLit ['('] (reSpaces r2) with
        | none => simp [h3] at h
        | some r3 =>
          simp only [h3] at h
          cases h4 : reDigits r3 with
          | none => simp [h4] at h
          | some cr =>
            obtain ⟨c, r4⟩ := cr
            simp only [h4] at h
            cases h5 : reLit ['/'] r4 with
            | none => simp [h5] at h
            | some r5 =>
              simp only [h5] at h
              cases h6 : reDigits r5 with
              | none => simp [h6] at h
              | some tr =>
                obtain ⟨t, r6⟩ := tr
                simp only [h6] at h
                cases h7 : reLit [')'] r6 with
                | none => simp [h7] at h
                | some r7 =>
                  simp only [h7, Option.some.injEq, Prod.mk.injEq] at h
                  obtain ⟨⟨hP, hC, hT⟩, hr⟩ := h
                  subst hP hC hT hr
                  have e0 := reLit_some_inv _ _ _ h0
                  obtain ⟨ws1, e1, hw1⟩ := reSpaces_split r0
                  obtain ⟨e2, hp1, hp2, -⟩ := reDigits_some_inv _ _ _ h1
                  have e3 := reLit_some_inv _ _ _ h2
                  obtain ⟨ws2, e4, hw2⟩ := reSpaces_split r2
                  have e5 := reLit_some_inv _ _ _ h3
                  obtain ⟨e6, hc1, hc2, -⟩ := reDigits_some_inv _ _ _ h4
                  have e7 := reLit_some_inv _ _ _ h5
                  obtain ⟨e8, ht1, ht2, -⟩ := reDigits_some_inv _ _ _ h6
                  have e9 := reLit_some_inv _ _ _ h7
                  refine ⟨keyword.data ++ (ws1 ++ (p ++ '%' :: (ws2 ++ '(' ::
                    (c ++ '/' :: (t ++ [')']))))), ?_,
                    ⟨ws1, ws2, rfl, hw1, hw2, ⟨hp1, hp2⟩, ⟨hc1, hc2⟩, ⟨ht1, ht2⟩⟩⟩
                  rw [e0, e1, e2, e3, e4, e5, e6, e7, e8, e9]
                  simp

theorem findLeftmost_some_leftmost {α : Type} (m : List Char → Option α) :
    ∀ (l : List Char) (r : α), findLeftmost m l = some r →
      ∃ a b, l = a ++ b ∧ m b = some r ∧
        ∀ a1 b1, a = a1 ++ b1 → b1 ≠ [] → m (b1 ++ b) = none := by
  intro l
  induction l with
  | nil =>
    intro r h
    refine ⟨[], [], rfl, by simpa [findLeftmost] using h, ?_⟩
    intro a1 b1 h1 h2
    exact absurd (List.append_eq_nil.mp h1.symm).2 h2
  | cons c t ih =>
    intro r h
    simp only [findLeftmost] at h
    cases hm : m (c :: t) with
    | some r2 =>
      simp only [hm, Option.some.injEq] at h
      subst h
      refine ⟨[], c :: t, rfl, hm, ?_⟩
      intro a1 b1 h1 h2
      exact absurd (List.append_eq_nil.mp h1.symm).2 h2
    | none =>
      simp only [hm] at h
      obtain ⟨a, b, hab, hb, hlm⟩ := ih r h
      refine ⟨c :: a, b, by simp [hab], hb, ?_⟩
      intro a1 b1 h1 h2
      cases a1 with
      | nil =>
        simp only [List.nil_append] at h1
        subst h1
        simp only [List.cons_append]
        rw [← hab]
        exact hm
      | cons x a2 =>
        simp only [List.cons_append, List.cons.injEq] at h1
        exact hlm a2 b1 h1.2 h2


theorem percent_no_earlier (keyword : String) (pre m suf : List Char)
    (h : ∀ (a b m2 s2 : List Char) (P2 C2 T2 : String), pre = a ++ b → b ≠ [] →
      b ++ (m ++ suf) = m2 ++ s2 → ¬ PercentMatch keyword m2 P2 C2 T2) :
    ∀ a b, pre = a ++ b → b ≠ [] → rePercentAt keyword.data (b ++ (m ++ suf)) = none := by
  intro a b hab hb
  cases hr : rePercentAt keyword.data (b ++ (m ++ suf)) with
  | none => rfl
  | some x =>
    obtain ⟨⟨P2, C2, T2⟩, r⟩ := x
    obtain ⟨m2, hm2, hmatch⟩ := rePercentAt_sound keyword _ r P2 C2 T2 hr
    exact absurd hmatch (h a b m2 r P2 C2 T2 hab hb hm2)

theorem percent_no_match (keyword t : String) (h : ¬ HasPercentMatch keyword t) :
    ∀ a b, t.data = a ++ b → rePercentAt keyword.data b = none := by
  intro a b hab
  cases hr : rePercentAt keyword.data b with
  | none => rfl
  | some x =>
    obtain ⟨⟨P2, C2, T2⟩, r⟩ := x
    obtain ⟨m2, hm2, hmatch⟩ := rePercentAt_sound keyword _ r P2 C2 T2 hr
    exact absurd ⟨a, m2, r, P2, C2, T2, by rw [hab, hm2], hmatch⟩ h

theorem percent_of_leftmost (keyword t P C T : String)
    (h : LeftmostPercentMatch keyword t P C T) :
    findLeftmost (fun l => (rePercentAt keyword.data l).map Prod.fst) t.data
      = some (P, C, T) := by
  obtain ⟨pre, m, suf, ht, hm, hl⟩ := h
  rw [ht, findLeftmost_skip]
  · apply findLeftmost_self
    rw [rePercentAt_complete_match keyword m suf P C T hm]
    rfl
  · intro a b hab hb
    rw [percent_no_earlier keyword pre m suf hl a b hab hb]
    rfl

theorem percent_none_of_no_match (keyword t : String) (h : ¬ HasPercentMatch keyword t) :
    findLeftmost (fun l => (rePercentAt keyword.data l).map Prod.fst) t.data = none := by
  apply findLeftmost_none
  intro a b hab
  rw [percent_no_match keyword t h a b hab]
  rfl

theorem leftmost_of_percent (keyword t P C T : String)
    (h : findLeftmost (fun l => (rePercentAt keyword.data l).map Prod.fst) t.data
      = some (P, C, T)) :
    LeftmostPercentMatch keyword t P C T := by
  obtain ⟨a, b, hab, hb, hl⟩ := findLeftmost_some_leftmost _ _ _ h
  cases hr : rePercentAt keyword.data b with
  | none => simp [hr] at hb
  | some x =>
    obtain ⟨pct, r⟩ := x
    simp only [hr, Option.map_some', Option.some.injEq] at hb
    subst hb
    obtain ⟨m, hm, hmatch⟩ := rePercentAt_sound keyword _ r P C T hr
    refine ⟨a, m, r, by rw [hab, hm], hmatch, ?_⟩
    intro a1 b1 m2 s2 P2 C2 T2 h1 h2 h3 hm2
    have hnone := hl a1 b1 h1 h2
    rw [hm, h3, rePercentAt_complete_match keyword m2 s2 P2 C2 T2 hm2] at hnone
    simp at hnone

theorem leftmost_of_hasPercentMatch (keyword t : String) (h : HasPercentMatch keyword t) :
    ∃ P C T, LeftmostPercentMatch keyword t P C T := by
  obtain ⟨pre, m, suf, P, C, T, ht, hm⟩ := h
  have hs : (findLeftmost (fun l => (rePercentAt keyword.data l).map Prod.fst)
      t.data).isSome = true := by
    rw [ht]
    apply findLeftmost_isSome_append
    rw [rePercentAt_complete_match keyword m suf P C T hm]
    rfl
  obtain ⟨⟨P2, C2, T2⟩, hx⟩ := Option.isSome_iff_exists.1 hs
  exact ⟨P2, C2, T2, leftmost_of_percent keyword t P2 C2 T2 hx⟩

theorem receiving_of_leftmost (t P C T : String)
    (h : LeftmostPercentMatch "Receiving objects:" t P C T) :
    ∃ g4 g5, receivingRe t = some ((P, C, T), g4, g5) := by
  obtain ⟨pre, m, suf, ht, hm, hl⟩ := h
  unfold receivingRe
  rw [ht, findLeftmost_skip]
  · refine ⟨(reOptSize suf).1, (reOptSpeed (reOptSize suf).2).1, ?_⟩
    apply findLeftmost_self
    rw [rePercentAt_complete_match "Receiving objects:" m suf P C T hm]
  · intro a b hab hb
    rw [percent_no_earlier "Receiving objects:" pre m suf hl a b hab hb]

theorem receiving_none_of_no_match (t : String)
    (h : ¬ HasPercentMatch "Receiving objects:" t) : receivingRe t = none := by
  unfold receivingRe
  apply findLeftmost_none
  intro a b hab
  rw [percent_no_match "Receiving objects:" t h a b hab]

theorem enumerating_sound (l : List Char) (N : String) (h : reEnumeratingAt l = some N) :
    ∃ m suf, l = m ++ suf ∧ EnumeratingMatch m N ∧ ∀ c ∈ suf.head?, isReDigit c = false := by
  unfold reEnumeratingAt at h
  cases h0 : reLit "Enumerating objects:".data l with
  | none => simp [h0] at h
  | some r0 =>
    simp only [h0] at h
    cases h1 : reDigits (reSpaces r0) with
    | none => simp [h1] at h
    | some nr =>
      obtain ⟨n, r1⟩ := nr
      simp only [h1, Option.some.injEq] at h
      subst h
      have e0 := reLit_some_inv _ _ _ h0
      obtain ⟨ws, e1, hw⟩ := reSpaces_split r0
      obtain ⟨e2, hn1, hn2, hr⟩ := reDigits_some_inv _ _ _ h1
      refine ⟨"Enumerating objects:".data ++ (ws ++ n), r1, ?_, ⟨ws, rfl, hw, hn1, hn2⟩, hr⟩
      rw [e0, e1, e2]
      simp

theorem enumerating_complete (m suf : List Char) (N : String) (h : EnumeratingMatch m N)
    (hs : ∀ c ∈ suf.head?, isReDigit c = false) :
    reEnumeratingAt (m ++ suf) = some N := by
  obtain ⟨ws, rfl, hw, hN⟩ := h
  have e1 : reLit "Enumerating objects:".data
      ("Enumerating objects:".data ++ (ws ++ N.data) ++ suf) = some (ws ++ (N.data ++ suf)) := by
    have := reLit_append "Enumerating objects:".data (ws ++ (N.data ++ suf))
    simpa using this
  have e2 := reSpaces_append ws (N.data ++ suf) hw (head_digits _ _ hN.1 hN.2)
  have e3 := reDigits_append N.data suf hN.1 hN.2 hs
  simp only [reEnumeratingAt, e1, e2, e3]

theorem enumerating_isSome (m s2 : List Char) (N : String) (h : EnumeratingMatch m N) :
    (reEnumeratingAt (m ++ s2)).isSome = true := by
  obtain ⟨ws, rfl, hw, hN⟩ := h
  have e1 : reLit "Enumerating objects:".data
      ("Enumerating objects:".data ++ (ws ++ N.data) ++ s2) = some (ws ++ (N.data ++ s2)) := by
    have := reLit_append "Enumerating objects:".data (ws ++ (N.data ++ s2))
    simpa using this
  have e2 := reSpaces_append ws (N.data ++ s2) hw (head_digits _ _ hN.1 hN.2)
  have e3 : (N.data ++ s2).takeWhile isReDigit ≠ [] := by
    cases hd : N.data with
    | nil => exact absurd hd hN.1
    | cons d t =>
      have : isReDigit d = true := hN.2 d (by simp [hd])
      simp [List.takeWhile, this]
  simp only [reEnumeratingAt, e1, e2, reDigits, e3, if_false]
  rfl

theorem enumerating_of_leftmost (t N : String) (h : LeftmostEnumeratingMatch t N) :
    enumeratingRe t = some N := by
  obtain ⟨pre, m, suf, ht, hm, hs, hl⟩ := h
  rw [enumeratingRe_eq, ht, findLeftmost_skip]
  · apply findLeftmost_self
    exact enumerating_complete m suf N hm hs
  · intro a b hab hb
    cases hr : reEnumeratingAt (b ++ (m ++ suf)) with
    | none => rfl
    | some N2 =>
      obtain ⟨m2, s2, e, hm2, -⟩ := enumerating_sound _ N2 hr
      exact absurd hm2 (hl a b m2 s2 N2 hab hb e)

theorem enumerating_none_of_no_match (t : String) (h : ¬ HasEnumeratingMatch t) :
    enumeratingRe t = none := by
  rw [enumeratingRe_eq]
  apply findLeftmost_none
  intro a b hab
  cases hr : reEnumeratingAt b with
  | none => rfl
  | some N2 =>
    obtain ⟨m2, s2, e, hm2, -⟩ := enumerating_sound _ N2 hr
    exact absurd ⟨a, m2, s2, N2, by rw [hab, e], hm2⟩ h

theorem leftmost_of_enumerating (t N : String) (h : enumeratingRe t = some N) :
    LeftmostEnumeratingMatch t N := by
  rw [enumeratingRe_eq] at h
  obtain ⟨a, b, hab, hb, hl⟩ := findLeftmost_some_leftmost _ _ _ h
  obtain ⟨m, suf, e, hm, hs⟩ := enumerating_sound b N hb
  refine ⟨a, m, suf, by rw [hab, e], hm, hs, ?_⟩
  intro a1 b1 m2 s2 N2 h1 h2 h3 hm2
  have hnone := hl a1 b1 h1 h2
  have hsome := enumerating_isSome m2 s2 N2 hm2
  rw [e, h3] at hnone
  rw [hnone] at hsome
  exact Bool.noConfusion hsome

theorem leftmost_of_hasEnumeratingMatch (t : String) (h : HasEnumeratingMatch t) :
    ∃ N, LeftmostEnumeratingMatch t N := by
  obtain ⟨pre, m, suf, N, ht, hm⟩ := h
  have hs : (enumeratingRe t).isSome = true := by
    rw [enumeratingRe_eq, ht]
    apply findLeftmost_isSome_append
    exact enumerating_isSome m suf N hm
  obtain ⟨N2, hx⟩ := Option.isSome_iff_exists.1 hs
  exact ⟨N2, leftmost_of_enumerating t N2 hx⟩


/-! ## The progress parser: white space around a match -/

theorem dropWhile_append_stop (p : Char → Bool) (rest : List Char)
    (hr : ∀ c ∈ rest.head?, p c = false) :
    ∀ pre : List Char, (pre ++ rest).dropWhile p = pre.dropWhile p ++ rest := by
  intro pre
  induction pre with
  | nil =>
    cases rest with
    | nil => rfl
    | cons c r =>
      have hc : p c = false := hr c (by simp)
      simp [List.dropWhile, hc]
  | cons x t ih =>
    by_cases hx : p x = true
    · simp only [List.cons_append]
      rw [List.dropWhile_cons_of_pos hx, List.dropWhile_cons_of_pos hx, ih]
    · simp only [List.cons_append]
      rw [List.dropWhile_cons_of_neg hx, List.dropWhile_cons_of_neg hx]
      simp

theorem dropEndWhile_append_stop (p : Char → Bool) (x : List Char) (z : Char)
    (hz : p z = false) (suf : List Char) :
    dropEndWhile p ((x ++ [z]) ++ suf) = (x ++ [z]) ++ dropEndWhile p suf := by
  unfold dropEndWhile
  rw [List.reverse_append, dropWhile_append_stop p (x ++ [z]).reverse
    (by intro c hc; simp at hc; subst hc; exact hz) suf.reverse]
  simp

theorem dropEndWhile_prefix (p : Char → Bool) (l : List Char) :
    ∃ z, l = dropEndWhile p l ++ z := by
  refine ⟨(l.reverse.takeWhile p).reverse, ?_⟩
  unfold dropEndWhile
  rw [← List.reverse_append, List.takeWhile_append_dropWhile, List.reverse_reverse]

theorem dropWhile_suffix (p : Char → Bool) (l : List Char) :
    ∃ a, l = a ++ l.dropWhile p :=
  ⟨l.takeWhile p, (List.takeWhile_append_dropWhile p l).symm⟩

theorem TrimSpace_infix (line : String) :
    ∃ a z, line.data = a ++ ((TrimSpace line).data ++ z) := by
  obtain ⟨a, ha⟩ := dropWhile_suffix IsSpace line.data
  obtain ⟨z, hz⟩ := dropEndWhile_prefix IsSpace (line.data.dropWhile IsSpace)
  refine ⟨a, z, ?_⟩
  show line.data = a ++ (dropEndWhile IsSpace (line.data.dropWhile IsSpace) ++ z)
  rw [← hz, ← ha]

theorem TrimSpace_around (line : String) (pre suf x y : List Char) (k z : Char)
    (h : line.data = pre ++ ((k :: y) ++ suf)) (hxy : k :: y = x ++ [z])
    (hk : IsSpace k = false) (hz : IsSpace z = false) :
    ∃ a pre2 suf2 b, pre = a ++ pre2 ∧ suf = suf2 ++ b ∧
      (TrimSpace line).data = pre2 ++ ((k :: y) ++ suf2) := by
  obtain ⟨a, ha⟩ := dropWhile_suffix IsSpace pre
  obtain ⟨b, hb⟩ := dropEndWhile_prefix IsSpace suf
  refine ⟨a, pre.dropWhile IsSpace, dropEndWhile IsSpace suf, b, ha, hb, ?_⟩
  show dropEndWhile IsSpace (line.data.dropWhile IsSpace) = _
  rw [h, dropWhile_append_stop IsSpace ((k :: y) ++ suf)
    (by intro c hc; simp at hc; subst hc; exact hk) pre, hxy]
  have e : pre.dropWhile IsSpace ++ ((x ++ [z]) ++ suf)
      = ((pre.dropWhile IsSpace ++ x) ++ [z]) ++ suf := by simp
  rw [e, dropEndWhile_append_stop IsSpace _ z hz suf]
  simp

theorem IsSpace_of_digit (c : Char) (h : isReDigit c = true) : IsSpace c = false := by
  simp only [isReDigit, Bool.and_eq_true, decide_eq_true_eq] at h
  simp only [IsSpace]
  have h1 : 48 ≤ c.toNat := h.1
  have h2 : c.toNat ≤ 57 := h.2
  simp only [Bool.or_eq_false_iff, Bool.and_eq_false_iff, decide_eq_false_iff_not]
  refine ⟨⟨⟨⟨⟨⟨⟨⟨⟨⟨⟨⟨⟨⟨?_, ?_⟩, ?_⟩, ?_⟩, ?_⟩, ?_⟩, ?_⟩, ?_⟩, ?_⟩, ?_⟩, ?_⟩, ?_⟩, ?_⟩, ?_⟩, ?_⟩ <;>
    omega

theorem PercentMatch_ends (keyword : String) (k : Char) (ks : List Char)
    (hkw : keyword.data = k :: ks) (m : List Char) (P C T : String)
    (h : PercentMatch keyword m P C T) :
    ∃ x y, m = k :: y ∧ k :: y = x ++ [')'] := by
  obtain ⟨ws1, ws2, rfl, -⟩ := h
  rw [hkw]
  refine ⟨k :: ks ++ (ws1 ++ (P.data ++ '%' :: (ws2 ++ '(' :: (C.data ++ '/' :: T.data)))),
    ks ++ (ws1 ++ (P.data ++ '%' :: (ws2 ++ '(' :: (C.data ++ '/' :: (T.data ++ [')']))))),
    by simp, by simp⟩

theorem LeftmostPercentMatch_trim (keyword : String) (k : Char) (ks : List Char)
    (hkw : keyword.data = k :: ks) (hk : IsSpace k = false) (line P C T : String)
    (h : LeftmostPercentMatch keyword line P C T) :
    LeftmostPercentMatch keyword (TrimSpace line) P C T := by
  obtain ⟨pre, m, suf, ht, hm, hl⟩ := h
  obtain ⟨x, y, rfl, hxy⟩ := PercentMatch_ends keyword k ks hkw m P C T hm
  obtain ⟨a, pre2, suf2, b, hpre, hsuf, htrim⟩ :=
    TrimSpace_around line pre suf x y k ')' ht hxy hk (by decide)
  refine ⟨pre2, k :: y, suf2, htrim, hm, ?_⟩
  intro a1 b1 m2 s2 P2 C2 T2 h1 h2 h3
  apply hl (a ++ a1) b1 m2 (s2 ++ b) P2 C2 T2 (by rw [hpre, h1]; simp) h2
  rw [hsuf, ← List.append_assoc m2, ← h3]
  simp

theorem HasPercentMatch_of_trim (keyword line : String)
    (h : HasPercentMatch keyword (TrimSpace line)) : HasPercentMatch keyword line := by
  obtain ⟨pre, m, suf, P, C, T, ht, hm⟩ := h
  obtain ⟨a, z, hz⟩ := TrimSpace_infix line
  exact ⟨a ++ pre, m, suf ++ z, P, C, T, by rw [hz, ht]; simp, hm⟩

theorem EnumeratingMatch_ends (m : List Char) (N : String) (h : EnumeratingMatch m N) :
    ∃ x y z, m = 'E' :: y ∧ 'E' :: y = x ++ [z] ∧ isReDigit z = true := by
  obtain ⟨ws, rfl, -, hN1, hN2⟩ := h
  rcases List.eq_nil_or_concat N.data with h0 | ⟨n0, z, hz⟩
  · exact absurd h0 hN1
  · refine ⟨"Enumerating objects:".data ++ (ws ++ n0),
      "numerating objects:".data ++ (ws ++ N.data), z, rfl, ?_, hN2 z (by simp [hz])⟩
    rw [hz]
    simp

theorem LeftmostEnumeratingMatch_trim (line N : String)
    (h : LeftmostEnumeratingMatch line N) : LeftmostEnumeratingMatch (TrimSpace line) N := by
  obtain ⟨pre, m, suf, ht, hm, hs, hl⟩ := h
  obtain ⟨x, y, z, rfl, hxy, hz⟩ := EnumeratingMatch_ends m N hm
  obtain ⟨a, pre2, suf2, b, hpre, hsuf, htrim⟩ :=
    TrimSpace_around line pre suf x y 'E' z ht hxy (by decide) (IsSpace_of_digit z hz)
  refine ⟨pre2, 'E' :: y, suf2, htrim, hm, ?_, ?_⟩
  · intro c hc
    apply hs c
    rw [hsuf]
    cases suf2 with
    | nil => simp at hc
    | cons d r => simpa using hc
  · intro a1 b1 m2 s2 N2 h1 h2 h3
    apply hl (a ++ a1) b1 m2 (s2 ++ b) N2 (by rw [hpre, h1]; simp) h2
    rw [hsuf, ← List.append_assoc m2, ← h3]
    simp

theorem HasEnumeratingMatch_of_trim (line : String)
    (h : HasEnumeratingMatch (TrimSpace line)) : HasEnumeratingMatch line := by
  obtain ⟨pre, m, suf, N, ht, hm⟩ := h
  obtain ⟨a, z, hz⟩ := TrimSpace_infix line
  exact ⟨a ++ pre, m, suf ++ z, N, by rw [hz, ht]; simp, hm⟩

theorem parseInt_of_digits (s : String) (h : IsDigits s) : parseInt s = int64OfDigits s := by
  have hall : s.data.all isReDigit = true := List.all_eq_true.2 h.2
  unfold parseInt int64OfDigits
  by_cases hlt : decimalValue s.data < 2 ^ 63
  · rw [if_pos ⟨h.1, hall, hlt⟩, if_pos hlt]
  · rw [if_neg (fun hh => hlt hh.2.2), if_neg hlt]

theorem LeftmostPercentMatch_ne_empty (k t P C T : String)
    (h : LeftmostPercentMatch k t P C T) : t ≠ "" := by
  obtain ⟨pre, m, suf, ht, ⟨ws1, ws2, rfl, -⟩, -⟩ := h
  intro h0
  rw [h0] at ht
  have := congrArg List.length ht
  simp at this
  omega

theorem LeftmostPercentMatch_digits (k t P C T : String)
    (h : LeftmostPercentMatch k t P C T) : IsDigits P ∧ IsDigits C ∧ IsDigits T := by
  obtain ⟨pre, m, suf, ht, ⟨ws1, ws2, -, -, -, hP, hC, hT⟩, -⟩ := h
  exact ⟨hP, hC, hT⟩

theorem LeftmostEnumeratingMatch_ne_empty (t N : String)
    (h : LeftmostEnumeratingMatch t N) : t ≠ "" := by
  obtain ⟨pre, m, suf, ht, ⟨ws, rfl, -⟩, -⟩ := h
  intro h0
  rw [h0] at ht
  have := congrArg List.length ht
  simp at this
  omega


theorem not_hasPercentMatch_of_none (keyword t : String)
    (h : findLeftmost (fun l => (rePercentAt keyword.data l).map Prod.fst) t.data = none) :
    ¬ HasPercentMatch keyword t := by
  intro hm
  obtain ⟨P, C, T, hl⟩ := leftmost_of_hasPercentMatch keyword t hm
  rw [percent_of_leftmost keyword t P C T hl] at h
  exact Option.noConfusion h

theorem not_hasEnumeratingMatch_of_none (t : String) (h : enumeratingRe t = none) :
    ¬ HasEnumeratingMatch t := by
  intro hm
  obtain ⟨N, hl⟩ := leftmost_of_hasEnumeratingMatch t hm
  rw [enumerating_of_leftmost t N hl] at h
  exact Option.noConfusion h

/-- C17 (amended): for a line that is not a done marker (its trimmed text ends neither
with `done` nor with `done.`), `ParseLine` sets the state from the first pattern, in the
order Receiving, Resolving, Compressing, Counting, Enumerating, that has a match in the
line, with the captures of its leftmost match: `Receiving objects: P% (C/T)` gives phase
Receiving with Percentage `P`, Current `C`, Total `T`; `Resolving deltas: P% (C/T)`,
`Compressing objects: P% (C/T)` and `Counting objects: P% (C/T)` give their phase with
these numbers when no pattern earlier in the order has a match in the line; and
`Enumerating objects: N` gives phase Enumerating with Total `N` and Percentage and Current
`0` when none of the other four patterns has a match.  Each number is read as a 64-bit
`int` (a digit string that does not fit is stored as `0`), and every line that holds a
match of a pattern has a leftmost one. -/
theorem ParseLine_numeric_line (p : GitProgressParser) (line P C T : String)
    (hnd : NotDoneMarker (TrimSpace line)) :
    (LeftmostPercentMatch "Receiving objects:" line P C T →
      (p.ParseLine line).progress.Phase = ProgressPhase.PhaseReceiving ∧
      (p.ParseLine line).progress.Percentage = int64OfDigits P ∧
      (p.ParseLine line).progress.Current = int64OfDigits C ∧
      (p.ParseLine line).progress.Total = int64OfDigits T) ∧
    (LeftmostPercentMatch "Resolving deltas:" line P C T →
      ¬ HasPercentMatch "Receiving objects:" line →
      (p.ParseLine line).progress
        = { Phase := ProgressPhase.PhaseResolving, Percentage := int64OfDigits P,
            Current := int64OfDigits C, Total := int64OfDigits T,
            Speed := "", Message := "" }) ∧
    (LeftmostPercentMatch "Compressing objects:" line P C T →
      ¬ HasPercentMatch "Receiving objects:" line →
      ¬ HasPercentMatch "Resolving deltas:" line →
      (p.ParseLine line).progress
        = { Phase := ProgressPhase.PhaseCompressing, Percentage := int64OfDigits P,
            Current := int64OfDigits C, Total := int64OfDigits T,
            Speed := "", Message := "" }) ∧
    (LeftmostPercentMatch "Counting objects:" line P C T →
      ¬ HasPercentMatch "Receiving objects:" line →
      ¬ HasPercentMatch "Resolving deltas:" line →
      ¬ HasPercentMatch "Compressing objects:" line →
      (p.ParseLine line).progress
        = { Phase := ProgressPhase.PhaseCounting, Percentage := int64OfDigits P,
            Current := int64OfDigits C, Total := int64OfDigits T,
            Speed := "", Message := "" }) ∧
    (LeftmostEnumeratingMatch line T →
      ¬ HasPercentMatch "Receiving objects:" line →
      ¬ HasPercentMatch "Resolving deltas:" line →
      ¬ HasPercentMatch "Compressing objects:" line →
      ¬ HasPercentMatch "Counting objects:" line →
      (p.ParseLine line).progress
        = { Phase := ProgressPhase.PhaseEnumerating, Percentage := 0, Current := 0,
            Total := int64OfDigits T, Speed := "", Message := "" }) ∧
    (∀ keyword : String, HasPercentMatch keyword line →
      ∃ P2 C2 T2, LeftmostPercentMatch keyword line P2 C2 T2) ∧
    (HasEnumeratingMatch line → ∃ N, LeftmostEnumeratingMatch line N) := by
  have hd := notDone_doneRe line hnd
  have hnoR : ¬ HasPercentMatch "Receiving objects:" line →
      receivingRe (TrimSpace line) = none := fun h =>
    receiving_none_of_no_match _ (fun h2 => h (HasPercentMatch_of_trim _ _ h2))
  have hno : ∀ kw : String, ¬ HasPercentMatch kw line →
      findLeftmost (fun l => (rePercentAt kw.data l).map Prod.fst) (TrimSpace line).data
        = none := fun kw h =>
    percent_none_of_no_match kw _ (fun h2 => h (HasPercentMatch_of_trim _ _ h2))
  refine ⟨?_, ?_, ?_, ?_, ?_, ?_, ?_⟩
  · intro h
    have ht := LeftmostPercentMatch_trim "Receiving objects:" 'R' _ rfl (by decide)
      line P C T h
    have hne := LeftmostPercentMatch_ne_empty _ _ _ _ _ ht
    obtain ⟨g4, g5, hr⟩ := receiving_of_leftmost _ P C T ht
    obtain ⟨hP, hC, hT⟩ := LeftmostPercentMatch_digits _ _ _ _ _ h
    simp [GitProgressParser.ParseLine, hne, hd, hr, ProgressInfo.Update,
      parseInt_of_digits _ hP, parseInt_of_digits _ hC, parseInt_of_digits _ hT]
  · intro h h1
    have ht := LeftmostPercentMatch_trim "Resolving deltas:" 'R' _ rfl (by decide)
      line P C T h
    have hne := LeftmostPercentMatch_ne_empty _ _ _ _ _ ht
    have hr := hnoR h1
    have hm : resolvingRe (TrimSpace line) = some (P, C, T) :=
      percent_of_leftmost "Resolving deltas:" _ P C T ht
    obtain ⟨hP, hC, hT⟩ := LeftmostPercentMatch_digits _ _ _ _ _ h
    simp [GitProgressParser.ParseLine, hne, hd, hr, hm, ProgressInfo.Update,
      parseInt_of_digits _ hP, parseInt_of_digits _ hC, parseInt_of_digits _ hT]
  · intro h h1 h2
    have ht := LeftmostPercentMatch_trim "Compressing objects:" 'C' _ rfl (by decide)
      line P C T h
    have hne := LeftmostPercentMatch_ne_empty _ _ _ _ _ ht
    have hr := hnoR h1
    have hr2 : resolvingRe (TrimSpace line) = none := hno "Resolving deltas:" h2
    have hm : compressingRe (TrimSpace line) = some (P, C, T) :=
      percent_of_leftmost "Compressing objects:" _ P C T ht
    obtain ⟨hP, hC, hT⟩ := LeftmostPercentMatch_digits _ _ _ _ _ h
    simp [GitProgressParser.ParseLine, hne, hd, hr, hr2, hm, ProgressInfo.Update,
      parseInt_of_digits _ hP, parseInt_of_digits _ hC, parseInt_of_digits _ hT]
  · intro h h1 h2 h3
    have ht := LeftmostPercentMatch_trim "Counting objects:" 'C' _ rfl (by decide)
      line P C T h
    have hne := LeftmostPercentMatch_ne_empty _ _ _ _ _ ht
    have hr := hnoR h1
    have hr2 : resolvingRe (TrimSpace line) = none := hno "Resolving deltas:" h2
    have hr3 : compressingRe (TrimSpace line) = none := hno "Compressing objects:" h3
    have hm : countingRe (TrimSpace line) = some (P, C, T) :=
      percent_of_leftmost "Counting objects:" _ P C T ht
    obtain ⟨hP, hC, hT⟩ := LeftmostPercentMatch_digits _ _ _ _ _ h
    simp [GitProgressParser.ParseLine, hne, hd, hr, hr2, hr3, hm, ProgressInfo.Update,
      parseInt_of_digits _ hP, parseInt_of_digits _ hC, parseInt_of_digits _ hT]
  · intro h h1 h2 h3 h4
    have ht := LeftmostEnumeratingMatch_trim line T h
    have hne := LeftmostEnumeratingMatch_ne_empty _ _ ht
    have hr := hnoR h1
    have hr2 : resolvingRe (TrimSpace line) = none := hno "Resolving deltas:" h2
    have hr3 : compressingRe (TrimSpace line) = none := hno "Compressing objects:" h3
    have hr4 : countingRe (TrimSpace line) = none := hno "Counting objects:" h4
    have hm := enumerating_of_leftmost _ T ht
    obtain ⟨-, -, -, -, ⟨-, -, -, hT⟩, -⟩ := h
    simp [GitProgressParser.ParseLine, hne, hd, hr, hr2, hr3, hr4, hm, ProgressInfo.Update,
      parseInt_of_digits _ hT]
  · intro keyword h
    exact leftmost_of_hasPercentMatch keyword line h
  · intro h
    exact leftmost_of_hasEnumeratingMatch line h

/-- C17 (amended, instances): a counting line behind a prefix that holds the letter `C`,
and a resolving line behind the keyword of the Receiving pattern, which itself has no
match in the line. -/
theorem ParseLine_numeric_line_witness :
    ((NewGitProgressParser NewProgressInfo).ParseLine
        "CI: Counting objects: 5% (1/2)").progress
      = { Phase := ProgressPhase.PhaseCounting, Percentage := int64OfDigits "5",
          Current := int64OfDigits "1", Total := int64OfDigits "2",
          Speed := "", Message := "" } ∧
    ((NewGitProgressParser NewProgressInfo).ParseLine
        "Receiving objects: Resolving deltas: 5% (1/2)").progress
      = { Phase := ProgressPhase.PhaseResolving, Percentage := int64OfDigits "5",
          Current := int64OfDigits "1", Total := int64OfDigits "2",
          Speed := "", Message := "" } ∧
    int64OfDigits "5" = 5 ∧ int64OfDigits "1" = 1 ∧ int64OfDigits "2" = 2 :=
  ⟨(ParseLine_numeric_line (NewGitProgressParser NewProgressInfo)
      "CI: Counting objects: 5% (1/2)" "5" "1" "2" ⟨by decide, by decide⟩).2.2.2.1
      (leftmost_of_percent _ _ _ _ _ (by decide))
      (not_hasPercentMatch_of_none _ _ (by decide))
      (not_hasPercentMatch_of_none _ _ (by decide))
      (not_hasPercentMatch_of_none _ _ (by decide)),
   (ParseLine_numeric_line (NewGitProgressParser NewProgressInfo)
      "Receiving objects: Resolving deltas: 5% (1/2)" "5" "1" "2"
      ⟨by decide, by decide⟩).2.1
      (leftmost_of_percent _ _ _ _ _ (by decide))
      (not_hasPercentMatch_of_none _ _ (by decide)),
   by decide, by decide, by decide⟩

/-- C17 (counterexample): three complete lines that contain a match of the Counting
pattern.  On `Counting objects: 100% (5/5), done.` `ParseLine` leaves the fresh state
untouched (phase Starting, all numbers zero), because the line ends with `done.`.  On a
line that also holds a match of the Receiving pattern the phase is Receiving, not
Counting.  On a line whose percentage digits exceed a 64-bit `int` the Percentage is `0`. -/
theorem ParseLine_done_line_not_counted :
    countingRe "Counting objects: 100% (5/5), done." = some ("100", "5", "5") ∧
    ((NewGitProgressParser NewProgressInfo).ParseLine
        "Counting objects: 100% (5/5), done.").progress = NewProgressInfo ∧
    NewProgressInfo.Phase = ProgressPhase.PhaseStarting ∧
    countingRe "Counting objects: 5% (1/2) Receiving objects: 7% (3/4)"
      = some ("5", "1", "2") ∧
    ((NewGitProgressParser NewProgressInfo).ParseLine
        "Counting objects: 5% (1/2) Receiving objects: 7% (3/4)").progress
      = { Phase := ProgressPhase.PhaseReceiving, Percentage := 7, Current := 3, Total := 4,
          Speed := "", Message := "" } ∧
    countingRe "Counting objects: 99999999999999999999% (1/2)"
      = some ("99999999999999999999", "1", "2") ∧
    ((NewGitProgressParser NewProgressInfo).ParseLine
        "Counting objects: 99999999999999999999% (1/2)").progress
      = { Phase := ProgressPhase.PhaseCounting, Percentage := 0, Current := 1, Total := 2,
          Speed := "", Message := "" } := by
  refine ⟨by decide, by decide, rfl, by decide, by decide, by decide, by decide⟩

/-- C18: a line whose trimmed text ends with `done.` or `done` changes no field of the
progress state: the `ProgressInfo` after `ParseLine` is the one before. -/
theorem ParseLine_done_marker_no_change (p : GitProgressParser) (line : String)
    (h : HasSuffix (TrimSpace line) "done." = true ∨
      HasSuffix (TrimSpace line) "done" = true) :
    (p.ParseLine line).progress = p.progress := by
  rw [ParseLine_done p line h]

/-- C18 (instance): the last receiving line of a clone, with surrounding white space. -/
theorem ParseLine_done_marker_no_change_witness :
    ((GitProgressParser.mk
        { Phase := ProgressPhase.PhaseReceiving, Percentage := 99, Current := 449,
          Total := 450, Speed := "1.20 MiB", Message := "" } "x").ParseLine
        "  Receiving objects: 100% (450/450), 1.21 MiB | 2.50 MiB/s, done.\t").progress
      = (GitProgressParser.mk
        { Phase := ProgressPhase.PhaseReceiving, Percentage := 99, Current := 449,
          Total := 450, Speed := "1.20 MiB", Message := "" } "x").progress :=
  ParseLine_done_marker_no_change _ _ (Or.inl (by decide))

/-- C19 (evaluation at the failing inputs): the lines `Receiving objects` and
`Resolving deltas` match no numeric pattern, are no done markers and contain a phase
keyword, yet `ParseLine` leaves the fresh state untouched; the sibling line
`Counting objects` registers phase Counting with zero progress. -/
theorem ParseLine_keyword_fallback_missing :
    receivingRe "Receiving objects" = none ∧ resolvingRe "Receiving objects" = none ∧
    compressingRe "Receiving objects" = none ∧ countingRe "Receiving objects" = none ∧
    enumeratingRe "Receiving objects" = none ∧ doneRe "Receiving objects" = false ∧
    Contains "Receiving objects" "Receiving" = true ∧
    ((NewGitProgressParser NewProgressInfo).ParseLine "Receiving objects").progress
      = NewProgressInfo ∧
    ((NewGitProgressParser NewProgressInfo).ParseLine "Resolving deltas").progress
      = NewProgressInfo ∧
    ((NewGitProgressParser NewProgressInfo).ParseLine "Counting objects").progress
      = { Phase := ProgressPhase.PhaseCounting, Percentage := 0, Current := 0, Total := 0,
          Speed := "", Message := "Counting objects" } := by
  refine ⟨by decide, by decide, by decide, by decide, by decide, by decide, by decide,
    by decide, by decide, by decide⟩

/-! ## The progress display: phases of one clone attempt -/

theorem ParseLine_phase_ne_done (p : GitProgressParser) (line : String)
    (h : p.progress.Phase ≠ ProgressPhase.PhaseDone) :
    (p.ParseLine line).progress.Phase ≠ ProgressPhase.PhaseDone := by
  unfold GitProgressParser.ParseLine
  simp only
  split_ifs
  all_goals try dsimp only
  all_goals repeat' split
  all_goals first
    | exact h
    | simp [ProgressInfo.Update]

theorem foldl_ParseLine_phase_ne_done (lines : List String) :
    ∀ p : GitProgressParser, p.progress.Phase ≠ ProgressPhase.PhaseDone →
      (lines.foldl GitProgressParser.ParseLine p).progress.Phase ≠ ProgressPhase.PhaseDone := by
  induction lines with
  | nil => intro p h; exact h
  | cons l t ih =>
    intro p h
    exact ih _ (ParseLine_phase_ne_done p l h)

theorem Write_phase_ne_done (w : ProgressWriter) (chunk : List Char)
    (h : w.parser.progress.Phase ≠ ProgressPhase.PhaseDone) :
    (w.Write chunk).parser.progress.Phase ≠ ProgressPhase.PhaseDone := by
  simp only [ProgressWriter.Write]
  rw [writeLoop_eq_cut GitProgressParser.ParseLine _ w.parser _ (Nat.le_refl _)]
  exact foldl_ParseLine_phase_ne_done _ _ h

theorem display_writes_phase_ne_done (chunks : List (List Char)) :
    ∀ d : CloneProgressDisplay, d.progress.Phase ≠ ProgressPhase.PhaseDone →
      (chunks.foldl CloneProgressDisplay.Write d).progress.Phase ≠ ProgressPhase.PhaseDone := by
  induction chunks with
  | nil => intro d h; exact h
  | cons c t ih =>
    intro d h
    exact ih _ (Write_phase_ne_done d.writer c h)

/-- C20 (amended): within one clone attempt - a fresh display, any sequence of `Write`
calls with arbitrary data, then `Stop` - the phase starts at Starting, is one of
Starting..Resolving after the writes (the phase of the last line that updated the state,
which may be lower than an earlier phase), and is Done after `Stop`; so the step to Done
never decreases the phase. -/
theorem display_phase_bounds (chunks : List (List Char)) :
    NewCloneProgressDisplay.progress.Phase = ProgressPhase.PhaseStarting ∧
    (chunks.foldl CloneProgressDisplay.Write NewCloneProgressDisplay).progress.Phase.toNat
      ≤ ProgressPhase.PhaseResolving.toNat ∧
    ((chunks.foldl CloneProgressDisplay.Write NewCloneProgressDisplay).Stop).progress.Phase
      = ProgressPhase.PhaseDone ∧
    (chunks.foldl CloneProgressDisplay.Write NewCloneProgressDisplay).progress.Phase.toNat
      ≤ ((chunks.foldl CloneProgressDisplay.Write
          NewCloneProgressDisplay).Stop).progress.Phase.toNat := by
  have h := display_writes_phase_ne_done chunks NewCloneProgressDisplay (by decide)
  have h5 : (chunks.foldl CloneProgressDisplay.Write NewCloneProgressDisplay).progress.Phase.toNat
      ≤ 5 := by
    revert h
    cases (chunks.foldl CloneProgressDisplay.Write NewCloneProgressDisplay).progress.Phase <;>
      simp [ProgressPhase.toNat]
  refine ⟨rfl, h5, rfl, ?_⟩
  show _ ≤ 6
  omega

/-- C20 (counterexample): after a first `Write` the phase is Receiving, after a second
`Write` of a counting line it is Counting, which is lower. -/
theorem phase_can_decrease :
    (NewCloneProgressDisplay.Write "Receiving objects:   5% (1/20)\r".data).progress.Phase
      = ProgressPhase.PhaseReceiving ∧
    ((NewCloneProgressDisplay.Write "Receiving objects:   5% (1/20)\r".data).Write
        "remote: Counting objects: 100% (20/20)\r".data).progress.Phase
      = ProgressPhase.PhaseCounting ∧
    ProgressPhase.PhaseCounting.toNat < ProgressPhase.PhaseReceiving.toNat := by
  refine ⟨by decide, by decide, by decide⟩

/-! ## `Clone`: direct SSH urls and the token in the error text -/

theorem sshClone_trace_eq {W : Type} (S : Sys W) (u p : String) (st : St W) :
    (sshClone S u p st).2.trace = st.trace ++ Event.mkdirAll p ::
      (if (S.MkdirAll st.world p).2.isNone then [Event.gitCloneExec u p] else []) := by
  unfold sshClone mkdirAll runGitClone
  cases h1 : (S.MkdirAll st.world p).2 with
  | some err => simp [h1]
  | none =>
    simp only [h1]
    cases h2 : (S.RunGitClone (S.MkdirAll st.world p).1 u p).2 <;> simp [h2]

theorem IsGitUrl_of_IsGitSshUrl (u : String) (h : IsGitSshUrl u = true) : IsGitUrl u = true := by
  simp only [IsGitSshUrl, Bool.and_eq_true] at h
  exact h.1

/-- C25: for a direct SSH git url (a git url that starts with `git@` or `ssh://`), a
failed SSH clone is terminal whatever the failure text: `Clone` returns the empty path and
the wrapped error in the state the attempt left; the effects after the preparation are the
notice, the directory creation and (when that succeeded) the `git` subprocess: no HTTP(S)
attempt, and no removal of the directory created for the attempt. -/
theorem Clone_direct_ssh_failure_terminal {W : Type} (U : UrlDeps) (S : Sys W)
    (caseTable : Char → Char) (cfg : GitrConfig) (inputUrl token : String) (creDir : Bool)
    (st : St W) (s : ScmHost) (rp loc : String) (stp st2 : St W) (e : String)
    (h : ReachesTransport U S cfg inputUrl creDir st s rp loc stp)
    (hssh : IsGitSshUrl (U.StripQueryParams inputUrl) = true)
    (hfail : sshClone S (U.StripQueryParams inputUrl) loc
      (stp.log (Event.uiCloning (U.StripQueryParams inputUrl))) = (some e, st2)) :
    Clone U S caseTable cfg inputUrl token creDir false st
      = (("", some (Wrap e "error cloning the repo")), st2) ∧
    st2.trace = stp.trace ++ Event.uiCloning (U.StripQueryParams inputUrl) ::
      Event.mkdirAll loc ::
      (if (S.MkdirAll stp.world loc).2.isNone
       then [Event.gitCloneExec (U.StripQueryParams inputUrl) loc] else []) ∧
    (∀ ev, ev ∈ (Event.uiCloning (U.StripQueryParams inputUrl) :: Event.mkdirAll loc ::
        (if (S.MkdirAll stp.world loc).2.isNone
         then [Event.gitCloneExec (U.StripQueryParams inputUrl) loc] else [])) →
      ev.isHttpAttempt = false ∧ ev.isRemoval = false) := by
  have hgit := IsGitUrl_of_IsGitSshUrl _ hssh
  refine ⟨?_, ?_, ?_⟩
  · rw [Clone_reaches_transport U S caseTable cfg inputUrl token creDir st s rp loc stp h]
    simp [Clone.transport, hgit, hssh, hfail]
  · have := sshClone_trace_eq S (U.StripQueryParams inputUrl) loc
      (stp.log (Event.uiCloning (U.StripQueryParams inputUrl)))
    rw [hfail] at this
    simpa [St.log] using this
  · intro ev hev
    simp only [List.mem_cons] at hev
    rcases hev with rfl | rfl | hev
    · exact ⟨rfl, rfl⟩
    · exact ⟨rfl, rfl⟩
    · split at hev
      · simp only [List.mem_singleton] at hev
        subst hev
        exact ⟨rfl, rfl⟩
      · simp at hev

/-- C25 (instance): the ssh clone of `git@github.com:owner/repo.git` fails; nothing
follows the attempt. -/
theorem Clone_direct_ssh_failure_terminal_witness :
    Clone exampleDeps (scriptedSys (some "fatal: Could not read from remote repository.") none)
        id exampleCfg "git@github.com:owner/repo.git" "" false false st0
      = (("", some (Wrap "clone failed: fatal: Could not read from remote repository."
            "error cloning the repo")),
          St.mk () [Event.uiCloning "git@github.com:owner/repo.git",
            Event.mkdirAll "/home/u/scm/repo",
            Event.gitCloneExec "git@github.com:owner/repo.git" "/home/u/scm/repo"]) :=
  (Clone_direct_ssh_failure_terminal exampleDeps
    (scriptedSys (some "fatal: Could not read from remote repository.") none) id exampleCfg
    "git@github.com:owner/repo.git" "" false st0 exampleHost "owner/repo"
    "/home/u/scm/repo" st0
    (St.mk () [Event.uiCloning "git@github.com:owner/repo.git",
      Event.mkdirAll "/home/u/scm/repo",
      Event.gitCloneExec "git@github.com:owner/repo.git" "/home/u/scm/repo"])
    "clone failed: fatal: Could not read from remote repository."
    ⟨rfl, rfl, rfl, Or.inl ⟨rfl, rfl⟩⟩ (by decide) (by rfl)).1

theorem Contains_infix (a t b : String) : Contains (a ++ t ++ b) t = true := by
  simp only [Contains, String.data_append]
  exact containsList_of_infix _ _ _

theorem tokenFailureText_injective (t1 t2 e : String)
    (h : tokenFailureText t1 e = tokenFailureText t2 e) : t1 = t2 := by
  unfold tokenFailureText at h
  have h2 := congrArg String.data h
  simp only [String.data_append, List.append_assoc] at h2
  have h3 := List.append_cancel_left h2
  have h4 : t1.data ++ (": ".data ++ e.data) = t2.data ++ (": ".data ++ e.data) := h3
  have h5 := List.append_cancel_right h4
  exact String.ext h5

theorem httpsGitClone_failure {W : Type} (S : Sys W) (u t p : String) (st st1 st2 : St W)
    (e : String) (hmk : mkdirAll S p st = (none, st1))
    (hcl : plainClone S p u (some t) st1 = (some e, st2)) :
    httpsGitClone S u t p st
      = (some (Wrapf e "failed to clone repo using personal access token %s" [t]), st2) := by
  simp [httpsGitClone, hmk, hcl]

theorem Wrapf_token (e t : String) :
    Wrap (Wrapf e "failed to clone repo using personal access token %s" [t])
      "error cloning the repo" = tokenFailureText t e := by
  apply String.ext
  simp [Wrap, Wrapf, Sprintf, sprintfAux, tokenFailureText]

theorem Clone_with_token {W : Type} (U : UrlDeps) (S : Sys W)
    (caseTable : Char → Char) (cfg : GitrConfig) (inputUrl token : String) (creDir : Bool)
    (st : St W) (s : ScmHost) (rp loc : String) (stp : St W)
    (h : ReachesTransport U S cfg inputUrl creDir st s rp loc stp)
    (hgit : IsGitUrl (U.StripQueryParams inputUrl) = true)
    (hssh : IsGitSshUrl (U.StripQueryParams inputUrl) = false)
    (t : String) (ht : t ≠ "")
    (hres : token = t ∨ (token = "" ∧ getHttpsCloneToken S s.Hostname stp.world = .ok t)) :
    Clone U S caseTable cfg inputUrl token creDir false st
      = afterHttpsGitClone loc (httpsGitClone S (U.StripQueryParams inputUrl) t loc stp) := by
  rw [Clone_reaches_transport U S caseTable cfg inputUrl token creDir st s rp loc stp h]
  rcases hres with rfl | ⟨h0, hget⟩
  · simp only [Clone.transport, hgit, hssh, ht, afterHttpsGitClone]
    simp only [if_true, Bool.false_eq_true, if_false, ne_eq, not_false_eq_true]
    split <;> simp_all
  · simp only [Clone.transport, hgit, hssh, h0, hget, afterHttpsGitClone]
    simp only [if_true, Bool.false_eq_true, if_false, ne_eq, ht, not_false_eq_true]

/-- C26: for a non-empty token `t` (given explicitly, or read from the token file), when
the token-authenticated go-git clone fails with `e`, the error text `Clone` returns is
`error cloning the repo: failed to clone repo using personal access token t: e`, which
contains `t` verbatim; a second run that differs only in its explicit token `t2` and
fails with the same `e` returns a different text. -/
theorem Clone_token_in_error_text {W : Type} (U : UrlDeps) (S : Sys W)
    (caseTable : Char → Char) (cfg : GitrConfig) (inputUrl token : String) (creDir : Bool)
    (st : St W) (s : ScmHost) (rp loc : String) (stp st1 st2 : St W) (t e : String)
    (h : ReachesTransport U S cfg inputUrl creDir st s rp loc stp)
    (hgit : IsGitUrl (U.StripQueryParams inputUrl) = true)
    (hssh : IsGitSshUrl (U.StripQueryParams inputUrl) = false)
    (ht : t ≠ "")
    (hres : token = t ∨ (token = "" ∧ getHttpsCloneToken S s.Hostname stp.world = .ok t))
    (hmk : mkdirAll S loc stp = (none, st1))
    (hcl : plainClone S loc (U.StripQueryParams inputUrl) (some t) st1 = (some e, st2)) :
    Clone U S caseTable cfg inputUrl token creDir false st
      = (("", some (tokenFailureText t e)), st2) ∧
    Contains (tokenFailureText t e) t = true ∧
    (∀ t2 st3, t2 ≠ "" → t2 ≠ t →
      plainClone S loc (U.StripQueryParams inputUrl) (some t2) st1 = (some e, st3) →
      (Clone U S caseTable cfg inputUrl t2 creDir false st).1
        = ("", some (tokenFailureText t2 e)) ∧
      tokenFailureText t2 e ≠ tokenFailureText t e) := by
  have key : ∀ (tok tk : String) (sta : St W), tk ≠ "" →
      (tok = tk ∨ (tok = "" ∧ getHttpsCloneToken S s.Hostname stp.world = .ok tk)) →
      plainClone S loc (U.StripQueryParams inputUrl) (some tk) st1 = (some e, sta) →
      Clone U S caseTable cfg inputUrl tok creDir false st
        = (("", some (tokenFailureText tk e)), sta) := by
    intro tok tk sta htk hr hc
    have hf := httpsGitClone_failure S (U.StripQueryParams inputUrl) tk loc stp st1 sta e hmk hc
    have hA := Clone_with_token U S caseTable cfg inputUrl tok creDir st s rp loc stp
      h hgit hssh tk htk hr
    rw [hA, hf]
    simp only [afterHttpsGitClone, Wrapf_token]
  refine ⟨key token t st2 ht hres hcl, ?_, ?_⟩
  · simp only [tokenFailureText, Contains, String.data_append]
    rw [List.append_assoc (_ ++ t.data)]
    exact containsList_of_infix _ _ _
  · intro t2 st3 h2 hne hc2
    refine ⟨?_, ?_⟩
    · rw [key t2 t2 st3 h2 (Or.inl rfl) hc2]
    · intro heq
      exact hne (tokenFailureText_injective t2 t e heq)

/-- C26 (instance): the clone with token `tok` is refused; the token is in the text. -/
theorem Clone_token_in_error_text_witness :
    Clone exampleDeps (scriptedSys none (some "authentication required")) id exampleCfg
        "https://github.com/owner/repo.git" "tok" false false st0
      = (("", some (tokenFailureText "tok" "authentication required")),
          St.mk () [Event.mkdirAll "/home/u/scm/repo",
            Event.plainClone "/home/u/scm/repo" "https://github.com/owner/repo.git"
              (some "tok")]) :=
  (Clone_token_in_error_text exampleDeps (scriptedSys none (some "authentication required"))
    id exampleCfg "https://github.com/owner/repo.git" "tok" false st0 exampleHost
    "owner/repo" "/home/u/scm/repo" st0
    (St.mk () [Event.mkdirAll "/home/u/scm/repo"])
    (St.mk () [Event.mkdirAll "/home/u/scm/repo",
      Event.plainClone "/home/u/scm/repo" "https://github.com/owner/repo.git" (some "tok")])
    "tok" "authentication required"
    ⟨rfl, rfl, rfl, Or.inl ⟨rfl, rfl⟩⟩ (by decide) (by decide) (by decide) (Or.inl rfl)
    (by rfl) (by rfl)).1

/-! ## The progress writer: chunking -/

theorem cut_crlf (cur rest : List Char) :
    cutAtTerminators cur ('\r' :: '\n' :: rest)
      = (String.mk cur :: (cutAtTerminators [] rest).1, (cutAtTerminators [] rest).2) := by
  simp [cutAtTerminators]

theorem cut_cons_term (cur rest : List Char) (c : Char) (hc : c = '\r' ∨ c = '\n')
    (hn : c = '\r' → ∀ r2, rest ≠ '\n' :: r2) :
    cutAtTerminators cur (c :: rest)
      = (String.mk cur :: (cutAtTerminators [] rest).1, (cutAtTerminators [] rest).2) := by
  rw [cutAtTerminators]
  · simp [hc]
  · intro r2 h1 h2
    exact hn h1 r2 h2

theorem cut_cons_other (cur rest : List Char) (c : Char) (h1 : c ≠ '\r') (h2 : c ≠ '\n') :
    cutAtTerminators cur (c :: rest) = cutAtTerminators (cur ++ [c]) rest := by
  rw [cutAtTerminators]
  · simp [h1, h2]
  · intro r2 h _
    exact h1 h

theorem cut_acc (b : List Char) :
    ∀ cur acc : List Char, findLineEnd cur = none →
      cutAtTerminators acc (cur ++ b) = cutAtTerminators (acc ++ cur) b := by
  intro cur
  induction cur with
  | nil => intro acc _; simp
  | cons c t ih =>
    intro acc h
    rw [findLineEnd_none_iff] at h
    have hc := h c (by simp)
    have h1 : c ≠ '\r' := fun e => hc (Or.inr e)
    have h2 : c ≠ '\n' := fun e => hc (Or.inl e)
    have ht : findLineEnd t = none := by
      rw [findLineEnd_none_iff]
      intro x hx
      exact h x (by simp [hx])
    rw [List.cons_append, cut_cons_other _ _ _ h1 h2, ih (acc ++ [c]) ht]
    simp

theorem ParseLine_empty (p : GitProgressParser) : p.ParseLine "" = p := by
  have : TrimSpace "" = "" := by decide
  simp [GitProgressParser.ParseLine, this]

theorem parsedCut_append :
    ∀ (n : Nat) (X : List Char), X.length ≤ n → ∀ (p : GitProgressParser) (cur b : List Char),
      findLineEnd cur = none →
      parsedCut (parsedCut p cur X).1 [] ((parsedCut p cur X).2 ++ b)
        = parsedCut p cur (X ++ b) := by
  intro n
  induction n with
  | zero =>
    intro X hX p cur b hcur
    have : X = [] := List.length_eq_zero.1 (Nat.le_zero.1 hX)
    subst this
    simp only [parsedCut, cutAtTerminators, List.foldl_nil, List.nil_append]
    rw [cut_acc b cur [] hcur]
    simp
  | succ n ih =>
    intro X hX p cur b hcur
    cases X with
    | nil =>
      simp only [parsedCut, cutAtTerminators, List.foldl_nil, List.nil_append]
      rw [cut_acc b cur [] hcur]
      simp
    | cons c rest =>
      have hrest : rest.length ≤ n := by simpa using hX
      by_cases hr : c = '\r'
      · subst hr
        cases rest with
        | nil =>
          -- the `\r` ends the first chunk
          cases b with
          | nil =>
            simp [parsedCut, cut_cons_term, cutAtTerminators]
          | cons d b2 =>
            by_cases hd : d = '\n'
            · subst hd
              have e1 : cutAtTerminators cur ['\r'] = ([String.mk cur], []) := by
                rw [cut_cons_term cur [] '\r' (Or.inl rfl) (by intro _ r2 h; simp at h)]
                simp [cutAtTerminators]
              have e2 : cutAtTerminators [] ('\n' :: b2)
                  = (String.mk [] :: (cutAtTerminators [] b2).1, (cutAtTerminators [] b2).2) :=
                cut_cons_term [] b2 '\n' (Or.inr rfl) (by intro h; simp at h)
              have e3 : (String.mk [] : String) = "" := rfl
              simp only [parsedCut, e1, List.foldl_cons, List.foldl_nil, List.nil_append, e2,
                List.cons_append, cut_crlf, e3, ParseLine_empty]
            · have e1 : cutAtTerminators cur ['\r'] = ([String.mk cur], []) := by
                rw [cut_cons_term cur [] '\r' (Or.inl rfl) (by intro _ r2 h; simp at h)]
                simp [cutAtTerminators]
              have e2 : cutAtTerminators cur ('\r' :: d :: b2)
                  = (String.mk cur :: (cutAtTerminators [] (d :: b2)).1,
                      (cutAtTerminators [] (d :: b2)).2) :=
                cut_cons_term cur (d :: b2) '\r' (Or.inl rfl)
                  (by intro _ r2 h; simp only [List.cons.injEq] at h; exact hd h.1)
              simp only [parsedCut, e1, List.foldl_cons, List.foldl_nil, List.nil_append,
                List.cons_append, e2]
        | cons d rest2 =>
          by_cases hd : d = '\n'
          · subst hd
            have hlen : rest2.length ≤ n := by
              simp at hrest
              omega
            have := ih rest2 hlen (p.ParseLine (String.mk cur)) [] b rfl
            simp only [parsedCut, cut_crlf, List.foldl_cons, List.cons_append] at this ⊢
            exact this
          · have e1 : ∀ t : List Char, cutAtTerminators cur ('\r' :: d :: t)
                = (String.mk cur :: (cutAtTerminators [] (d :: t)).1,
                    (cutAtTerminators [] (d :: t)).2) := by
              intro t
              exact cut_cons_term cur (d :: t) '\r' (Or.inl rfl)
                (by intro _ r2 h; simp only [List.cons.injEq] at h; exact hd h.1)
            have := ih (d :: rest2) hrest (p.ParseLine (String.mk cur)) [] b rfl
            simp only [parsedCut, e1, List.foldl_cons, List.cons_append] at this ⊢
            exact this
      · by_cases hn : c = '\n'
        · subst hn
          have e1 : ∀ t : List Char, cutAtTerminators cur ('\n' :: t)
              = (String.mk cur :: (cutAtTerminators [] t).1, (cutAtTerminators [] t).2) := by
            intro t
            exact cut_cons_term cur t '\n' (Or.inr rfl) (by intro h; simp at h)
          have := ih rest hrest (p.ParseLine (String.mk cur)) [] b rfl
          simp only [parsedCut, e1, List.foldl_cons, List.cons_append] at this ⊢
          exact this
        · have hcur2 : findLineEnd (cur ++ [c]) = none := by
            rw [findLineEnd_none_iff] at hcur ⊢
            intro x hx
            rcases List.mem_append.1 hx with h1 | h1
            · exact hcur x h1
            · simp only [List.mem_singleton] at h1
              subst h1
              simp [hr, hn]
          have := ih rest hrest p (cur ++ [c]) b hcur2
          simp only [parsedCut, List.cons_append, cut_cons_other _ _ _ hr hn] at this ⊢
          exact this

theorem Write_eq_parsedCut (w : ProgressWriter) (a : List Char) :
    w.Write a = { parser := (parsedCut w.parser [] (w.buf ++ a)).1,
                  buf := (parsedCut w.parser [] (w.buf ++ a)).2 } := by
  simp only [ProgressWriter.Write, parsedCut]
  rw [writeLoop_eq_cut GitProgressParser.ParseLine _ w.parser _ (Nat.le_refl _)]

/-- C24: writing `a` and then `b` to a `ProgressWriter` leaves the same writer as writing
`a ++ b` in one call: the same progress state, the same `lastLine` and the same pending
buffer, for all `a` and `b` (when `a` ends with `\r` and `b` starts with `\n` the split
writes parse one more, empty, line, which `ParseLine` ignores). -/
theorem Write_chunk_insensitive (w : ProgressWriter) (a b : List Char) :
    (w.Write a).Write b = w.Write (a ++ b) ∧
    ((w.Write a).Write b).parser.progress = (w.Write (a ++ b)).parser.progress ∧
    ((w.Write a).Write b).parser.lastLine = (w.Write (a ++ b)).parser.lastLine ∧
    ((w.Write a).Write b).buf = (w.Write (a ++ b)).buf := by
  have h : (w.Write a).Write b = w.Write (a ++ b) := by
    rw [Write_eq_parsedCut (w.Write a) b, Write_eq_parsedCut w a, Write_eq_parsedCut w (a ++ b)]
    have := parsedCut_append (w.buf ++ a).length (w.buf ++ a) (Nat.le_refl _) w.parser [] b rfl
    simp only [List.append_assoc] at this ⊢
    rw [this]
  exact ⟨h, by rw [h], by rw [h], by rw [h]⟩

/-! ## The progress state: the percentage and the speed -/

theorem parseInt_bounds (s : String) : 0 ≤ parseInt s ∧ parseInt s < 2 ^ 63 := by
  unfold parseInt
  split_ifs with h
  · refine ⟨Int.ofNat_nonneg _, ?_⟩
    have := h.2.2
    exact_mod_cast this
  · exact ⟨le_refl _, by norm_num⟩

theorem ParseLine_percentage_bounds (p : GitProgressParser) (line : String)
    (h : 0 ≤ p.progress.Percentage ∧ p.progress.Percentage < 2 ^ 63) :
    0 ≤ (p.ParseLine line).progress.Percentage ∧
      (p.ParseLine line).progress.Percentage < 2 ^ 63 := by
  unfold GitProgressParser.ParseLine
  simp only
  split_ifs
  all_goals try dsimp only
  all_goals repeat' split
  all_goals first
    | exact h
    | exact parseInt_bounds _
    | simp [ProgressInfo.Update]

theorem foldl_ParseLine_percentage_bounds (lines : List String) :
    ∀ p : GitProgressParser, (0 ≤ p.progress.Percentage ∧ p.progress.Percentage < 2 ^ 63) →
      0 ≤ (lines.foldl GitProgressParser.ParseLine p).progress.Percentage ∧
        (lines.foldl GitProgressParser.ParseLine p).progress.Percentage < 2 ^ 63 := by
  induction lines with
  | nil => intro p h; exact h
  | cons l t ih =>
    intro p h
    exact ih _ (ParseLine_percentage_bounds p l h)

theorem Write_percentage_bounds (w : ProgressWriter) (chunk : List Char)
    (h : 0 ≤ w.parser.progress.Percentage ∧ w.parser.progress.Percentage < 2 ^ 63) :
    0 ≤ (w.Write chunk).parser.progress.Percentage ∧
      (w.Write chunk).parser.progress.Percentage < 2 ^ 63 := by
  simp only [ProgressWriter.Write]
  rw [writeLoop_eq_cut GitProgressParser.ParseLine _ w.parser _ (Nat.le_refl _)]
  exact foldl_ParseLine_percentage_bounds _ _ h

theorem display_writes_percentage_bounds (chunks : List (List Char)) :
    ∀ d : CloneProgressDisplay, (0 ≤ d.progress.Percentage ∧ d.progress.Percentage < 2 ^ 63) →
      0 ≤ (chunks.foldl CloneProgressDisplay.Write d).progress.Percentage ∧
        (chunks.foldl CloneProgressDisplay.Write d).progress.Percentage < 2 ^ 63 := by
  induction chunks with
  | nil => intro d h; exact h
  | cons c t ih =>
    intro d h
    exact ih _ (Write_percentage_bounds d.writer c h)

/-- C21 (counterexample): a counting line that carries 250% leaves Percentage = 250,
above 100, after one `Write` to a fresh display. -/
theorem percentage_above_100 :
    NewCloneProgressDisplay.progress.Percentage = 0 ∧
    (NewCloneProgressDisplay.Write "Counting objects: 250% (5/2)\r".data).progress.Percentage
      = 250 ∧
    ¬ (NewCloneProgressDisplay.Write "Counting objects: 250% (5/2)\r".data).progress.Percentage
      ≤ 100 := by
  refine ⟨by decide, by decide, by decide⟩


theorem renderProgressBar_clamp (p w : Int) :
    renderProgressBar p w = renderProgressBar (min p 100) w := by
  have hmin : filledCells p w = filledCells (min p 100) w := by
    unfold filledCells
    by_cases h : p > 100
    · rw [min_eq_right (le_of_lt h)]
      simp [h]
    · rw [min_eq_left (not_lt.mp h)]
  unfold renderProgressBar
  simp only [hmin]

/-- C21 (amended): the Percentage of the progress state is always a non-negative 64-bit
`int`: it is 0 for a fresh display, it stays within `0 .. 2^63 - 1` under every sequence
of `Write` calls with arbitrary data, and `Stop` sets it to 100.  It is not bounded by
100 in the state; the clamp to 100 is applied by `renderProgressBar` when the bar is
drawn. -/
theorem display_percentage_bounds (chunks : List (List Char)) (width : Int) :
    NewCloneProgressDisplay.progress.Percentage = 0 ∧
    0 ≤ (chunks.foldl CloneProgressDisplay.Write NewCloneProgressDisplay).progress.Percentage ∧
    (chunks.foldl CloneProgressDisplay.Write NewCloneProgressDisplay).progress.Percentage
      < 2 ^ 63 ∧
    ((chunks.foldl CloneProgressDisplay.Write NewCloneProgressDisplay).Stop).progress.Percentage
      = 100 ∧
    renderProgressBar
        (chunks.foldl CloneProgressDisplay.Write NewCloneProgressDisplay).progress.Percentage
        width
      = renderProgressBar
        (min (chunks.foldl CloneProgressDisplay.Write
          NewCloneProgressDisplay).progress.Percentage 100) width := by
  have h := display_writes_percentage_bounds chunks NewCloneProgressDisplay
    ⟨by decide, by decide⟩
  exact ⟨rfl, h.1, h.2, rfl, renderProgressBar_clamp _ _⟩

/-- C22: on git's line `Receiving objects:  45% (450/1000), 1.20 MiB | 2.50 MiB/s` the
pattern captures the size `1.20 MiB` in group 4 and the speed `2.50 MiB/s` in group 5,
and `ParseLine` stores group 4, the size, in the Speed field; on a line with a size and
no speed part the Speed field holds the size and is not empty. -/
theorem ParseLine_speed_is_size :
    receivingRe "Receiving objects:  45% (450/1000), 1.20 MiB | 2.50 MiB/s"
      = some (("45", "450", "1000"), "1.20 MiB", "2.50 MiB/s") ∧
    ((NewGitProgressParser NewProgressInfo).ParseLine
        "Receiving objects:  45% (450/1000), 1.20 MiB | 2.50 MiB/s").progress
      = { Phase := ProgressPhase.PhaseReceiving, Percentage := 45, Current := 450,
          Total := 1000, Speed := "1.20 MiB", Message := "" } ∧
    ((NewGitProgressParser NewProgressInfo).ParseLine
        "Receiving objects:  45% (450/1000), 1.20 MiB | 2.50 MiB/s").progress.Speed
      ≠ "2.50 MiB/s" ∧
    ((NewGitProgressParser NewProgressInfo).ParseLine
        "Receiving objects:  45% (450/1000), 1.20 MiB").progress.Speed = "1.20 MiB" ∧
    ((NewGitProgressParser NewProgressInfo).ParseLine
        "Receiving objects:  45% (450/1000)").progress.Speed = "" := by
  refine ⟨by decide, by decide, by decide, by decide, by decide⟩

/-! ## `renderProgressBar`: the cells of the bar -/

theorem wrapInt64_of_range (x : Int) (h0 : 0 ≤ x) (h1 : x < 2 ^ 63) : wrapInt64 x = x := by
  unfold wrapInt64
  rw [Int.emod_eq_of_lt (by omega) (by omega)]
  omega

theorem filledCells_eq (p w : Int) (hp : 0 ≤ p) (hw : 0 ≤ w) (hr : 100 * w < 2 ^ 63) :
    filledCells p w = min p 100 * w / 100 := by
  have hm0 : 0 ≤ min p 100 := le_min hp (by norm_num)
  have hm1 : min p 100 ≤ 100 := min_le_right _ _
  have hmul0 : 0 ≤ min p 100 * w := mul_nonneg hm0 hw
  have hmul1 : min p 100 * w ≤ 100 * w := mul_le_mul_of_nonneg_right hm1 hw
  have hmin : (if p > 100 then 100 else p) = min p 100 := by
    split_ifs with h
    · rw [min_eq_right (le_of_lt h)]
    · rw [min_eq_left (not_lt.mp h)]
  unfold filledCells
  simp only [hmin]
  rw [wrapInt64_of_range _ hmul0 (lt_of_le_of_lt hmul1 hr),
    Int.tdiv_eq_ediv hmul0 (by norm_num)]
  have hle : min p 100 * w / 100 ≤ w := by
    apply Int.ediv_le_of_le_mul (by norm_num)
    linarith
  rw [if_neg (not_lt.mpr hle)]

theorem filledCells_range (p w : Int) (hp : 0 ≤ p) (hw : 0 ≤ w) (hr : 100 * w < 2 ^ 63) :
    0 ≤ filledCells p w ∧ filledCells p w ≤ w := by
  rw [filledCells_eq p w hp hw hr]
  have hm0 : 0 ≤ min p 100 := le_min hp (by norm_num)
  have hm1 : min p 100 ≤ 100 := min_le_right _ _
  constructor
  · exact Int.ediv_nonneg (mul_nonneg hm0 hw) (by norm_num)
  · apply Int.ediv_le_of_le_mul (by norm_num)
    have := mul_le_mul_of_nonneg_right hm1 hw
    linarith

theorem Repeat_cell (c : Char) (s : String) (k : Int) (hs : s.data = [c]) (h0 : 0 ≤ k)
    (h1 : (s.utf8ByteSize : Int) * k < 2 ^ 63) :
    Repeat s k = some (String.mk (List.replicate k.toNat c)) := by
  unfold Repeat
  rw [if_neg (not_lt.mpr h0), if_neg (not_le.mpr h1), hs]
  congr 2
  induction k.toNat with
  | zero => rfl
  | succ m ih => simp [List.replicate_succ, ih]

/-- C27: for a non-negative percentage and a non-negative width with `100 * width`
representable, `renderProgressBar` does not panic and returns a bar of exactly `width`
cells: `min(percentage, 100) * width / 100` filled cells followed by the remaining empty
cells; both repeat counts are non-negative, and the number of filled cells is
non-decreasing in the percentage. -/
theorem renderProgressBar_cells (p w : Int) (hp : 0 ≤ p) (hw : 0 ≤ w)
    (hr : 100 * w < 2 ^ 63) :
    filledCells p w = min p 100 * w / 100 ∧
    0 ≤ filledCells p w ∧ 0 ≤ wrapInt64 (w - filledCells p w) ∧
    renderProgressBar p w
      = some (String.mk (List.replicate (min p 100 * w / 100).toNat '█' ++
          List.replicate (w - min p 100 * w / 100).toNat '░')) ∧
    (∃ bar, renderProgressBar p w = some bar ∧ (bar.length : Int) = w) ∧
    (∀ q : Int, p ≤ q → filledCells p w ≤ filledCells q w) := by
  have he := filledCells_eq p w hp hw hr
  have hrg := filledCells_range p w hp hw hr
  have hwr : wrapInt64 (w - filledCells p w) = w - filledCells p w :=
    wrapInt64_of_range _ (by omega) (by omega)
  have hbar : renderProgressBar p w
      = some (String.mk (List.replicate (min p 100 * w / 100).toNat '█' ++
          List.replicate (w - min p 100 * w / 100).toNat '░')) := by
    unfold renderProgressBar
    simp only [hwr]
    rw [Repeat_cell '█' "█" (filledCells p w) rfl hrg.1
        (by have : ("█".utf8ByteSize : Int) = 3 := by decide
            rw [this]; omega),
      Repeat_cell '░' "░" (w - filledCells p w) rfl (by omega)
        (by have : ("░".utf8ByteSize : Int) = 3 := by decide
            rw [this]; omega)]
    simp only [he]
    rfl
  refine ⟨he, hrg.1, by rw [hwr]; omega, hbar, ⟨_, hbar, ?_⟩, ?_⟩
  · rw [← he]
    simp only [String.length, List.length_append, List.length_replicate]
    omega
  · intro q hq
    rw [he, filledCells_eq q w (le_trans hp hq) hw hr]
    apply Int.ediv_le_ediv (by norm_num)
    exact mul_le_mul_of_nonneg_right (min_le_min_right _ hq) hw

/-- C27 (instance): a bar of 25 cells at 45 percent has 11 filled cells. -/
theorem renderProgressBar_cells_witness :
    renderProgressBar 45 25 = some "███████████░░░░░░░░░░░░░░" ∧ filledCells 45 25 = 11 :=
  ⟨(renderProgressBar_cells 45 25 (by decide) (by decide) (by decide)).2.2.2.1,
   (renderProgressBar_cells 45 25 (by decide) (by decide) (by decide)).1⟩

/-! ## `formatNumber`: the groups of three digits -/

theorem digitChar_props (d : Nat) (h : d < 10) :
    isReDigit (Char.ofNat (48 + d)) = true ∧ (Char.ofNat (48 + d)).toNat - 48 = d ∧
      Char.ofNat (48 + d) ≠ ',' ∧ (d ≠ 0 → Char.ofNat (48 + d) ≠ '0') := by
  interval_cases d <;> decide

theorem decimalValue_append_one (l : List Char) (c : Char) :
    decimalValue (l ++ [c]) = 10 * decimalValue l + (c.toNat - 48) := by
  simp [decimalValue, List.foldl_append]

theorem decimalDigits_props : ∀ (fuel n : Nat), n < fuel →
    (decimalDigits fuel n).all isReDigit = true ∧ decimalValue (decimalDigits fuel n) = n ∧
      decimalDigits fuel n ≠ [] ∧ (n ≠ 0 → (decimalDigits fuel n).head? ≠ some '0') := by
  intro fuel
  induction fuel with
  | zero => intro n h; omega
  | succ f ih =>
    intro n h
    rw [decimalDigits]
    split_ifs with h10
    · have hd := digitChar_props n h10
      refine ⟨by simp [hd.1], ?_, by simp, ?_⟩
      · simp [decimalValue, hd.2.1]
      · intro hn
        simp only [List.head?_cons, ne_eq, Option.some.injEq]
        exact hd.2.2.2 hn
    · have hlt : n / 10 < f := by omega
      obtain ⟨a, b, c, d⟩ := ih (n / 10) hlt
      have hd := digitChar_props (n % 10) (Nat.mod_lt _ (by norm_num))
      refine ⟨?_, ?_, by simp, ?_⟩
      · rw [List.all_append, a]
        simp [hd.1]
      · rw [decimalValue_append_one, b, hd.2.1]
        omega
      · intro _
        have hne : n / 10 ≠ 0 := by omega
        have := d hne
        cases hdd : decimalDigits f (n / 10) with
        | nil => exact absurd hdd c
        | cons x t =>
          rw [hdd] at this
          simpa using this

theorem decimalDigits_length : ∀ (fuel n k : Nat), n < fuel → n < 10 ^ (k + 1) →
    (decimalDigits fuel n).length ≤ k + 1 := by
  intro fuel
  induction fuel with
  | zero => intro n k h; omega
  | succ f ih =>
    intro n k h hk
    rw [decimalDigits]
    split_ifs with h10
    · simp
    · cases k with
      | zero => simp at hk; omega
      | succ k =>
        have hlt : n / 10 < f := by omega
        have hk2 : n / 10 < 10 ^ (k + 1) := by
          rw [Nat.div_lt_iff_lt_mul (by norm_num)]
          rw [pow_succ] at hk
          exact hk
        have := ih (n / 10) k hlt hk2
        simp only [List.length_append, List.length_singleton]
        omega

theorem formatDecimal_of_nonneg (n : Int) (h : 0 ≤ n) :
    formatDecimal n = decimalDigits (n.toNat + 1) n.toNat := by
  unfold formatDecimal
  rw [if_neg (not_lt.mpr h)]

theorem insertCommas_prefix (len : Nat) : ∀ (pre l : List Char) (i : Nat),
    (∀ j, j < pre.length → ¬ (i + j > 0 ∧ (len - (i + j)) % 3 = 0)) →
    insertCommas len i (pre ++ l) = pre ++ insertCommas len (i + pre.length) l := by
  intro pre
  induction pre with
  | nil => intro l i _; simp
  | cons c t ih =>
    intro l i h
    rw [List.cons_append, insertCommas]
    have h0 := h 0 (by simp)
    rw [if_neg (by simpa using h0)]
    rw [ih l (i + 1) (by
      intro j hj
      have := h (j + 1) (by simp; omega)
      rw [show i + 1 + j = i + (j + 1) by omega]
      exact this)]
    simp only [List.nil_append, List.cons_append, List.length_cons]
    rw [show i + 1 + t.length = i + (t.length + 1) by omega]

theorem insertCommas_triples (len : Nat) : ∀ (m : Nat) (l : List Char) (i : Nat),
    l.length = 3 * m → 0 < i → i + l.length = len →
    insertCommas len i l = ((triples l).map (fun g => ',' :: g)).flatten ∧
      (triples l).flatten = l ∧ ∀ g ∈ triples l, g.length = 3 := by
  intro m
  induction m with
  | zero =>
    intro l i hl _ _
    have : l = [] := List.length_eq_zero.mp (by omega)
    subst this
    simp [insertCommas, triples]
  | succ m ih =>
    intro l i hl hi hlen
    match l, hl, hlen with
    | a :: b :: c :: rest, hl, hlen =>
      simp only [List.length_cons] at hl hlen
      obtain ⟨e1, e2, e3⟩ := ih rest (i + 3) (by omega) (by omega) (by omega)
      refine ⟨?_, ?_, ?_⟩
      · rw [insertCommas, if_pos ⟨hi, by omega⟩, insertCommas,
          if_neg (by intro hh; omega), insertCommas,
          if_neg (by intro hh; omega)]
        rw [show i + 1 + 1 + 1 = i + 3 by omega, e1]
        simp [triples]
      · simp [triples, e2]
      · intro g hg
        simp only [triples, List.mem_cons] at hg
        rcases hg with rfl | hg
        · rfl
        · exact e3 g hg
    | [], hl, _ => simp at hl
    | [_], hl, _ => simp at hl; omega
    | [_, _], hl, _ => simp at hl; omega

theorem insertCommas_groups (l : List Char) (hne : l ≠ []) :
    ∃ (first : List Char) (rest : List (List Char)), l = first ++ rest.flatten ∧ 1 ≤ first.length ∧ first.length ≤ 3 ∧
      (∀ g ∈ rest, g.length = 3) ∧
      insertCommas l.length 0 l = first ++ (rest.map (fun g => ',' :: g)).flatten := by
  have hpos : 0 < l.length := List.length_pos.mpr hne
  obtain ⟨r, hr1, hr3, m, hm⟩ : ∃ r, 1 ≤ r ∧ r ≤ 3 ∧ ∃ m, l.length = r + 3 * m := by
    by_cases h0 : l.length % 3 = 0
    · exact ⟨3, by omega, by omega, l.length / 3 - 1, by omega⟩
    · exact ⟨l.length % 3, by omega, by omega, l.length / 3, by omega⟩
  have htake : (l.take r).length = r := by rw [List.length_take]; omega
  have hdrop : (l.drop r).length = 3 * m := by rw [List.length_drop]; omega
  obtain ⟨e1, e2, e3⟩ := insertCommas_triples l.length m (l.drop r) r hdrop (by omega)
    (by omega)
  refine ⟨l.take r, triples (l.drop r), ?_, by omega, by omega, e3, ?_⟩
  · rw [e2, List.take_append_drop]
  · conv_lhs => rw [← List.take_append_drop r l]
    rw [List.length_append, insertCommas_prefix _ (l.take r) (l.drop r) 0 (by
      intro j hj
      rw [htake] at hj
      rw [htake, hdrop]
      intro ⟨ha, hb⟩
      omega)]
    rw [htake, hdrop, Nat.zero_add]
    rw [hm] at e1
    rw [e1]

theorem insertCommas_short (l : List Char) (h : l.length ≤ 3) :
    insertCommas l.length 0 l = l := by
  match l, h with
  | [], _ => rfl
  | [a], _ => simp [insertCommas]
  | [a, b], _ => simp [insertCommas]
  | [a, b, c], _ => simp [insertCommas]
  | _ :: _ :: _ :: _ :: _, h => simp at h

theorem filter_insertCommas (len : Nat) : ∀ (l : List Char) (i : Nat),
    (∀ c ∈ l, c ≠ ',') → (insertCommas len i l).filter (fun c => c != ',') = l := by
  intro l
  induction l with
  | nil => intro i _; rfl
  | cons c t ih =>
    intro i h
    rw [insertCommas]
    have hc : c ≠ ',' := h c (by simp)
    have ht := ih (i + 1) (fun x hx => h x (by simp [hx]))
    split_ifs <;> simp [List.filter_cons, hc, ht]

theorem formatNumber_data (n : Int) :
    (formatNumber n).data = insertCommas (formatDecimal n).length 0 (formatDecimal n) := by
  unfold formatNumber
  simp only
  split_ifs with h
  · rw [insertCommas_short _ h]
  · rfl

theorem isReDigit_ne_comma (c : Char) (h : isReDigit c = true) : c ≠ ',' := by
  rintro rfl
  exact absurd h (by decide)

/-- C23: for `n >= 0`, `formatNumber n` is the decimal representation of `n` (digits
only, value `n`, no leading zero unless `n = 0`) with a comma before each group of three
digits counted from the right and nowhere else: deleting the commas gives back the
decimal representation, the first group has one to three digits, every later group has
exactly three, and a number below 1000 is returned unchanged. -/
theorem formatNumber_groups (n : Int) (h : 0 ≤ n) :
    (formatDecimal n).all isReDigit = true ∧
    (decimalValue (formatDecimal n) : Int) = n ∧
    (n ≠ 0 → (formatDecimal n).head? ≠ some '0') ∧
    (formatNumber n).data.filter (fun c => c != ',') = formatDecimal n ∧
    (∃ (first : List Char) (rest : List (List Char)), formatDecimal n = first ++ rest.flatten ∧
      1 ≤ first.length ∧ first.length ≤ 3 ∧ (∀ g ∈ rest, g.length = 3) ∧
      (formatNumber n).data = first ++ (rest.map (fun g => ',' :: g)).flatten) ∧
    (n < 1000 → formatNumber n = String.mk (formatDecimal n)) := by
  have hf := formatDecimal_of_nonneg n h
  obtain ⟨a, b, c, d⟩ := decimalDigits_props (n.toNat + 1) n.toNat (Nat.lt_succ_self _)
  rw [← hf] at a b c d
  refine ⟨a, ?_, ?_, ?_, ?_, ?_⟩
  · rw [b]; exact Int.toNat_of_nonneg h
  · intro hn
    exact d (by omega)
  · rw [formatNumber_data]
    apply filter_insertCommas
    intro x hx
    exact isReDigit_ne_comma x (List.all_eq_true.mp a x hx)
  · rw [formatNumber_data]
    exact insertCommas_groups _ c
  · intro hlt
    have hl : (formatDecimal n).length ≤ 3 := by
      rw [hf]
      exact decimalDigits_length _ _ 2 (Nat.lt_succ_self _) (by omega)
    unfold formatNumber
    simp only
    rw [if_pos hl]

/-- C23 (instance): the groups of 1234567, and 999 unchanged. -/
theorem formatNumber_groups_witness :
    (∃ (first : List Char) (rest : List (List Char)), formatDecimal 1234567 = first ++ rest.flatten ∧
      1 ≤ first.length ∧ first.length ≤ 3 ∧ (∀ g ∈ rest, g.length = 3) ∧
      (formatNumber 1234567).data = first ++ (rest.map (fun g => ',' :: g)).flatten) ∧
    formatNumber 1234567 = "1,234,567" ∧
    formatNumber 999 = String.mk (formatDecimal 999) :=
  ⟨(formatNumber_groups 1234567 (by decide)).2.2.2.2.1, by decide,
   (formatNumber_groups 999 (by decide)).2.2.2.2.2 (by decide)⟩

end Gitr
